import Mathlib

/-!
# Train scheduling over shortest routes

A shallow embedding of `main.go` and `network.go`: the breadth-first route
enumerator `findAllShortestPaths` and the turn-based simulator inside
`FindTrainMovements`, followed by the properties proved about them.

Modelling conventions.

* A Go `map` is an association list.  The order of the list is the order in
  which a `range` over the map yields its keys (one order per map), so
  quantifying over all networks quantifies over all iteration orders.
* The set `map[string]struct{}` of the neighbours of a station, and the
  `visited` map of a queue entry, whose stored values are all `true`, are the
  lists of their keys.
* The three slices `trainPaths`, `positions` and `arrived`, always indexed
  together, are one list of records.
* The entries of `moveThisTurn` are kept as the pairs `(i+1, nextStation)`
  that `fmt.Sprintf` is applied to; the text of a record is produced by
  `renderTurn` when the turn is joined.
* `numTrains` is a natural number: `main` rejects everything below `1`.
* A Go run-time panic (index out of range) and an exhausted loop budget are
  both `none`.  Each loop runs on a budget computed from its input, and the
  budget is proved sufficient (`bfsLoop_returns`, `simLoop_returns`).
-/

namespace Trains

/-! ## Data model (`network.go`) -/

/-- `Station` of `network.go`. -/
structure Station where
  Name : String
  X : Int
  Y : Int
  deriving DecidableEq, Repr

/-- `Network` of `network.go`: its three maps, each as an association list. -/
structure Network where
  Stations : List (String × Station)
  Coords : List (String × String)
  Connections : List (String × List String)
  deriving Repr

/-- The inner map `network.Connections[s]`, as the list of its keys in iteration
order; a missing key gives the nil map, which ranges over nothing. -/
def Network.neighbors (network : Network) (s : String) : List String :=
  (network.Connections.lookup s).getD []

/-- `HasStation` of `network.go`. -/
def Network.HasStation (n : Network) (name : String) : Bool :=
  (n.Stations.lookup name).isSome

/-! ## Route enumeration (`findAllShortestPaths`) -/

/-- The local `type node struct` of `findAllShortestPaths`. -/
structure node where
  path : List String
  visited : List String
  deriving DecidableEq, Repr

/-- The body of `for neighbor := range network.Connections[last]`: the queue
entries appended for one dequeued node, in iteration order. -/
def expand (network : Network) (n : node) (last : String) : List node :=
  ((network.neighbors last).filter (fun neighbor => !(n.visited.contains neighbor))).map
    (fun neighbor => { path := n.path ++ [neighbor], visited := n.visited ++ [neighbor] })

/-- The loop variables of `findAllShortestPaths`.  `minLen` is the Go `int` with
sentinel `-1`. -/
structure BfsState where
  queue : List node
  results : List (List String)
  minLen : Int
  deriving Repr

/-- One pass through the body of `for len(queue) > 0`, for the dequeued node `n` and the
remaining queue `queue`. -/
def bfsStep (network : Network) (end_ : String) (n : node) (queue : List node)
    (results : List (List String)) (minLen : Int) : Option BfsState :=
  match n.path.getLast? with
  | none => none
  | some last =>
    if last = end_ then
      if minLen = -1 ∨ (n.path.length : Int) = minLen then
        some { queue := queue, results := results ++ [n.path], minLen := (n.path.length : Int) }
      else
        some { queue := queue, results := results, minLen := minLen }
    else if minLen ≠ -1 ∧ (n.path.length : Int) ≥ minLen then
      some { queue := queue, results := results, minLen := minLen }
    else
      some { queue := queue ++ expand network n last, results := results, minLen := minLen }

/-- The loop `for len(queue) > 0` of `findAllShortestPaths`, with a budget on the number
of dequeued nodes. -/
def bfsLoop (network : Network) (end_ : String) : Nat → BfsState → Option (List (List String))
  | fuel, s =>
    match s.queue with
    | [] => some s.results
    | n :: queue =>
      match fuel with
      | 0 => none
      | fuel + 1 =>
        match bfsStep network end_ n queue s.results s.minLen with
        | none => none
        | some s' => bfsLoop network end_ fuel s'

/-- Every station name that occurs in `Connections`, as a key or as a neighbour. -/
def Network.universe (network : Network) : List String :=
  network.Connections.map Prod.fst ++ (network.Connections.map Prod.snd).flatten

/-- The largest number of neighbours of a station. -/
def Network.maxDegree (network : Network) : Nat :=
  (network.Connections.map (fun e => e.2.length)).foldr max 0

/-- A budget for `bfsLoop` that depends on the network alone. -/
def bfsFuel (network : Network) : Nat :=
  (network.maxDegree + 1) ^ network.universe.length + 1

/-- `findAllShortestPaths` of `main.go`. -/
def findAllShortestPaths (network : Network) (start end_ : String) : Option (List (List String)) :=
  bfsLoop network end_ (bfsFuel network)
    { queue := [{ path := [start], visited := [start] }], results := [], minLen := -1 }

/-! ## Movement simulation (`FindTrainMovements`) -/

/-- The test `_, ok := m[k]` on a Go map. -/
def mapHas {ν : Type} (m : List (String × ν)) (k : String) : Bool :=
  (m.lookup k).isSome

/-- The assignment `m[k] = v` on a Go map. -/
def mapSet {ν : Type} (m : List (String × ν)) (k : String) (v : ν) : List (String × ν) :=
  m.filter (fun e => e.1 != k) ++ [(k, v)]

/-- The read `m[k]` of a `map[string]bool`: a missing key reads `false`. -/
def mapGetBool (m : List (String × Bool)) (k : String) : Bool :=
  (m.lookup k).getD false

/-- One train: entry `i` of the three parallel slices `trainPaths`, `positions` and
`arrived`, which all have length `numTrains` and are only ever indexed together. -/
structure Train where
  path : List String
  pos : Nat
  arrived : Bool
  deriving DecidableEq, Repr

/-- The locals of one turn.  `moveThisTurn` holds the arguments `(i+1, nextStation)` of
`fmt.Sprintf("T%d-%s", ...)`; the text is produced when the turn is joined. -/
structure TurnState where
  moveThisTurn : List (Nat × String)
  trackUsed : List (String × Bool)
  stationNextOccupied : List (String × Nat)
  progress : Bool
  deriving Repr

/-- The locals at the top of a turn. -/
def TurnState.init : TurnState :=
  { moveThisTurn := [], trackUsed := [], stationNextOccupied := [], progress := false }

/-- The body of `for i := 0; i < numTrains; i++` for train `i`. -/
def stepTrain (end_ : String) (stationOccupied : List (String × Nat)) (i : Nat) (t : Train)
    (acc : TurnState) : Option (Train × TurnState) :=
  if t.arrived then some (t, acc)
  else if (t.pos : Int) = (t.path.length : Int) - 1 then some ({ t with arrived := true }, acc)
  else
    match t.path[t.pos + 1]?, t.path[t.pos]? with
    | some nextStation, some cur =>
      if nextStation ≠ end_ ∧
          (mapHas stationOccupied nextStation ∨ mapHas acc.stationNextOccupied nextStation) then
        some (t, acc)
      else
        let trackKey := cur ++ ":" ++ nextStation
        if mapGetBool acc.trackUsed trackKey then some (t, acc)
        else
          some ({ t with pos := t.pos + 1 },
            { moveThisTurn := acc.moveThisTurn ++ [(i + 1, nextStation)]
              trackUsed := mapSet acc.trackUsed trackKey true
              stationNextOccupied :=
                if nextStation ≠ end_ then mapSet acc.stationNextOccupied nextStation i
                else acc.stationNextOccupied
              progress := true })
    | _, _ => none

/-- The loop `for i := 0; i < numTrains; i++` from index `i` on. -/
def evalTrains (end_ : String) (stationOccupied : List (String × Nat)) :
    Nat → List Train → TurnState → Option (List Train × TurnState)
  | _, [], acc => some ([], acc)
  | i, t :: ts, acc =>
    match stepTrain end_ stationOccupied i t acc with
    | none => none
    | some (t', acc') =>
      match evalTrains end_ stationOccupied (i + 1) ts acc' with
      | none => none
      | some (ts', acc'') => some (t' :: ts', acc'')

/-- The outer `for` loop of `FindTrainMovements`, with a budget on the number of turns. -/
def simLoop (end_ : String) :
    Nat → List Train → List (String × Nat) → List (List (Nat × String)) →
      Option (List (List (Nat × String)))
  | 0, _, _, _ => none
  | fuel + 1, trains, stationOccupied, turns =>
    match evalTrains end_ stationOccupied 0 trains TurnState.init with
    | none => none
    | some (trains', acc) =>
      let turns' := if acc.moveThisTurn.length > 0 then turns ++ [acc.moveThisTurn] else turns
      if !acc.progress then some turns'
      else simLoop end_ fuel trains' acc.stationNextOccupied turns'

/-- Step 2 of `FindTrainMovements`: the round-robin assignment, with all positions `0`. -/
def assignTrains (paths : List (List String)) (numTrains : Nat) : List Train :=
  (List.range numTrains).map
    (fun i => { path := paths.getD (i % paths.length) [], pos := 0, arrived := false })

/-- A budget for `simLoop`: every turn but the last advances a train. -/
def simFuel (trains : List Train) : Nat :=
  (trains.map (fun t => t.path.length)).sum + 1

/-- Steps 2 and 3 of `FindTrainMovements`: the turns, each as its list of moves. -/
def simulate (paths : List (List String)) (end_ : String) (numTrains : Nat) :
    Option (List (List (Nat × String))) :=
  simLoop end_ (simFuel (assignTrains paths numTrains)) (assignTrains paths numTrains) [] []

/-- The token `fmt.Sprintf("T%d-%s", i+1, nextStation)`. -/
def fmtMove (m : Nat × String) : String :=
  "T" ++ toString m.1 ++ "-" ++ m.2

/-- The record `strings.Join(moveThisTurn, " ")`. -/
def renderTurn (moves : List (Nat × String)) : String :=
  " ".intercalate (moves.map fmtMove)

/-- The error value of `FindTrainMovements`. -/
def noPathError : String := "no path between the start and end stations"

/-- `FindTrainMovements` of `main.go`.  The Go result pair `([]string, error)` is a pair
of the turn records (`nil` is `[]`) and the error (`nil` is `none`). -/
def FindTrainMovements (network : Network) (start end_ : String) (numTrains : Nat) :
    Option (List String × Option String) :=
  match findAllShortestPaths network start end_ with
  | none => none
  | some paths =>
    if paths.length = 0 then some ([], some noPathError)
    else
      match simulate paths end_ numTrains with
      | none => none
      | some turns => some (turns.map renderTurn, none)

/-! ## Specification of routes and the invariant of the enumeration -/

/-- The number of stations of the universe that a queue entry has not visited. -/
def unvisited (network : Network) (visited : List String) : Nat :=
  (network.universe.filter (fun x => !(visited.contains x))).length

/-- The termination measure of `bfsLoop`: each queue entry weighs as much as the largest
search tree that can still hang below it. -/
def potential (network : Network) (queue : List node) : Nat :=
  (queue.map (fun n => (network.maxDegree + 1) ^ unvisited network n.visited)).sum

/-- The station `v` is a key of the inner map `Connections[u]`. -/
def Adj (network : Network) (u v : String) : Prop := v ∈ network.neighbors u

instance (network : Network) (u v : String) : Decidable (Adj network u v) :=
  inferInstanceAs (Decidable (v ∈ network.neighbors u))

/-- A simple path from `start` to `end_`: the `Path` of the data model. -/
def IsRoute (network : Network) (start end_ : String) (p : List String) : Prop :=
  p.head? = some start ∧ p.getLast? = some end_ ∧ p.Nodup ∧ List.Chain' (Adj network) p

/-- A simple path from `start` to `end_` that no simple path between them undercuts. -/
def IsShortestRoute (network : Network) (start end_ : String) (p : List String) : Prop :=
  IsRoute network start end_ p ∧ ∀ q, IsRoute network start end_ q → p.length ≤ q.length

/-- Every inner map of `Connections` holds each of its keys once, as every Go map does. -/
def Network.DistinctNeighbors (network : Network) : Prop :=
  ∀ e ∈ network.Connections, e.2.Nodup

instance (network : Network) : Decidable network.DistinctNeighbors :=
  inferInstanceAs (Decidable (∀ e ∈ network.Connections, e.2.Nodup))

/-- What the loop maintains of every queue entry. -/
def NodeOK (network : Network) (start : String) (n : node) : Prop :=
  n.path.head? = some start ∧ n.path.Nodup ∧ List.Chain' (Adj network) n.path ∧
    ∀ x, x ∈ n.visited ↔ x ∈ n.path

/-- Neither list is a prefix of the other. -/
def Incomparable (a b : List String) : Prop := ¬ a <+: b ∧ ¬ b <+: a

/-- The invariant of `for len(queue) > 0`. -/
structure BfsInv (network : Network) (start end_ : String) (s : BfsState) : Prop where
  nodes : ∀ n ∈ s.queue, NodeOK network start n
  sorted : s.queue.Pairwise (fun a b => a.path.length ≤ b.path.length)
  close : ∀ a ∈ s.queue, ∀ b ∈ s.queue, b.path.length ≤ a.path.length + 1
  res : ∀ r ∈ s.results, IsRoute network start end_ r ∧ (r.length : Int) = s.minLen
  resEmpty : s.minLen = -1 → s.results = []
  resNonempty : s.minLen ≠ -1 → s.results ≠ []
  lower : s.minLen ≠ -1 → ∀ q, IsRoute network start end_ q → s.minLen ≤ (q.length : Int)
  complete : ∀ q, IsShortestRoute network start end_ q →
    q ∈ s.results ∨ ∃ n ∈ s.queue, n.path <+: q
  antichain : network.DistinctNeighbors →
    (s.results ++ s.queue.map node.path).Pairwise Incomparable

/-- A path's length: its node count minus one. -/
def edgeCount (p : List String) : Nat := p.length - 1

/-- The number `L` is the smallest edge count of a simple path from `start` to `end_`. -/
def IsShortestDistance (network : Network) (start end_ : String) (L : Nat) : Prop :=
  (∃ q, IsRoute network start end_ q ∧ edgeCount q = L) ∧
    ∀ q, IsRoute network start end_ q → L ≤ edgeCount q

/-- A walk from `start` to `end_`: consecutive stations are connected, and stations
may repeat. -/
def IsWalk (network : Network) (start end_ : String) (w : List String) : Prop :=
  w.head? = some start ∧ w.getLast? = some end_ ∧ List.Chain' (Adj network) w

/-- Two networks are the same graph: every station has the same neighbours in both,
possibly iterated in a different order. -/
def SameGraph (n1 n2 : Network) : Prop :=
  ∀ s, (n1.neighbors s).Perm (n2.neighbors s)

/-- Two networks iterate the neighbours of every station in the same order. -/
def SameIteration (n1 n2 : Network) : Prop :=
  ∀ s, n1.neighbors s = n2.neighbors s

/-! ## Concrete networks -/

/-- Stations `a, b, c` with connections `a-b, b-c`; the argument is the order in which
the neighbours of `b` are iterated. -/
def line3With (nb : List String) : Network :=
  { Stations := [("a", ⟨"a", 0, 0⟩), ("b", ⟨"b", 0, 0⟩), ("c", ⟨"c", 0, 0⟩)]
    Coords := []
    Connections := [("a", ["b"]), ("b", nb), ("c", ["b"])] }

/-- The line whose maps iterate in insertion order. -/
def line3 : Network := line3With ["a", "c"]

/-- Stations `a, b, c, d` with connections `a-b, b-c, a-d, d-c`; the four arguments are
the orders in which the neighbours of `a`, `b`, `c` and `d` are iterated. -/
def diamondWith (na nb nc nd : List String) : Network :=
  { Stations := [("a", ⟨"a", 0, 0⟩), ("b", ⟨"b", 0, 0⟩), ("c", ⟨"c", 0, 0⟩), ("d", ⟨"d", 0, 0⟩)]
    Coords := []
    Connections := [("a", na), ("b", nb), ("c", nc), ("d", nd)] }

/-- The diamond whose maps iterate in insertion order. -/
def diamond : Network := diamondWith ["b", "d"] ["a", "c"] ["b", "d"] ["a", "c"]

/-- The same diamond, with the neighbours of `a` iterated in the other order. -/
def diamondRev : Network := diamondWith ["d", "b"] ["a", "c"] ["b", "d"] ["a", "c"]

/-- Stations `a, b, c, d, e` with connections `a-b, a-c, b-d, c-d, d-e`: two routes from
`a` to `e` that merge at `d`.  The argument is the order in which the neighbours of `a`
are iterated. -/
def merge5With (na : List String) : Network :=
  { Stations := [("a", ⟨"a", 0, 0⟩), ("b", ⟨"b", 0, 0⟩), ("c", ⟨"c", 0, 0⟩),
      ("d", ⟨"d", 0, 0⟩), ("e", ⟨"e", 0, 0⟩)]
    Coords := []
    Connections := [("a", na), ("b", ["a", "d"]), ("c", ["a", "d"]),
      ("d", ["b", "c", "e"]), ("e", ["d"])] }

/-- The merging network whose maps iterate in insertion order. -/
def merge5 : Network := merge5With ["b", "c"]

/-- The turns that the simulation plays on the merging network with four trains, when
the neighbours of `a` are iterated `b` first. -/
def merge5Turns : List (List (Nat × String)) :=
  [[(1, "b"), (2, "c")], [(1, "d")], [(1, "e"), (3, "b"), (4, "c")], [(2, "d")], [(2, "e")],
    [(3, "d")], [(3, "e")], [(4, "d")], [(4, "e")]]

/-! ## Specification of the simulation -/

/-- What the simulation maintains of a train: its position indexes its path, and it
is flagged as arrived only on the last station. -/
def TrainOK (t : Train) : Prop :=
  t.pos < t.path.length ∧ (t.arrived = true → t.pos + 1 = t.path.length)

/-- The number of moves the trains still have to make. -/
def remaining (trains : List Train) : Nat :=
  (trains.map (fun t => t.path.length - 1 - t.pos)).sum

/-- The locals of a turn after train `i` has moved from `cur` to `nextStation`. -/
def TurnState.move (end_ : String) (acc : TurnState) (i : Nat) (cur nextStation : String) :
    TurnState :=
  { moveThisTurn := acc.moveThisTurn ++ [(i + 1, nextStation)]
    trackUsed := mapSet acc.trackUsed (cur ++ ":" ++ nextStation) true
    stationNextOccupied :=
      if nextStation ≠ end_ then mapSet acc.stationNextOccupied nextStation i
      else acc.stationNextOccupied
    progress := true }

/-- The train `t` cannot move: its next station is taken or its track is used. -/
def Blocked (end_ : String) (stationOccupied : List (String × Nat)) (acc : TurnState)
    (t : Train) : Prop :=
  ∃ cur nextStation, t.path[t.pos]? = some cur ∧ t.path[t.pos + 1]? = some nextStation ∧
    ((nextStation ≠ end_ ∧
        (mapHas stationOccupied nextStation = true ∨
          mapHas acc.stationNextOccupied nextStation = true)) ∨
      mapGetBool acc.trackUsed (cur ++ ":" ++ nextStation) = true)

/-- The train `t` moves: its next station is the end or free, and its track is unused. -/
def Moves (end_ : String) (stationOccupied : List (String × Nat)) (acc : TurnState)
    (t : Train) (cur nextStation : String) : Prop :=
  t.arrived = false ∧ t.path[t.pos]? = some cur ∧ t.path[t.pos + 1]? = some nextStation ∧
    (nextStation ≠ end_ →
      mapHas stationOccupied nextStation = false ∧
        mapHas acc.stationNextOccupied nextStation = false) ∧
    mapGetBool acc.trackUsed (cur ++ ":" ++ nextStation) = false

/-- One move of a turn: train `train` (0-based) goes from `src` to `dst`. -/
structure Step where
  train : Nat
  src : String
  dst : String
  deriving DecidableEq, Repr

/-- The key under which the move is entered in `trackUsed`. -/
def Step.key (s : Step) : String := s.src ++ ":" ++ s.dst

/-- The entry of `moveThisTurn` that the move appends. -/
def Step.move (s : Step) : Nat × String := (s.train + 1, s.dst)

/-- The loop `for i := 0; i < numTrains; i++` as a relation: from index `i` and locals
`acc`, the trains `ts` become `ts'`, the locals become `acc'`, and `steps` are the moves
made, in order. -/
inductive EvalRel (end_ : String) (occ : List (String × Nat)) :
    Nat → TurnState → List Train → List Train → TurnState → List Step → Prop
  | nil (i : Nat) (acc : TurnState) : EvalRel end_ occ i acc [] [] acc []
  | rest (i : Nat) (acc acc' : TurnState) (t t' : Train) (ts ts' : List Train)
      (steps : List Step) (hpath : t'.path = t.path) (hpos : t'.pos = t.pos)
      (hdone : t.arrived = true ∨ t.pos + 1 = t.path.length)
      (harr : t'.arrived = true → t.arrived = true ∨ t.pos + 1 = t.path.length)
      (htail : EvalRel end_ occ (i + 1) acc ts ts' acc' steps) :
      EvalRel end_ occ i acc (t :: ts) (t' :: ts') acc' steps
  | block (i : Nat) (acc acc' : TurnState) (t : Train) (ts ts' : List Train)
      (steps : List Step) (harr : t.arrived = false) (hblock : Blocked end_ occ acc t)
      (htail : EvalRel end_ occ (i + 1) acc ts ts' acc' steps) :
      EvalRel end_ occ i acc (t :: ts) (t :: ts') acc' steps
  | move (i : Nat) (acc acc' : TurnState) (t : Train) (ts ts' : List Train)
      (steps : List Step) (cur nextStation : String)
      (hmove : Moves end_ occ acc t cur nextStation)
      (htail : EvalRel end_ occ (i + 1) (acc.move end_ i cur nextStation) ts ts' acc' steps) :
      EvalRel end_ occ i acc (t :: ts) ({ t with pos := t.pos + 1 } :: ts') acc'
        ({ train := i, src := cur, dst := nextStation } :: steps)

/-- What holds of every record of a turn: it is not empty, its train numbers increase
strictly and lie in `1..numTrains`, and no station other than the end is the
destination of two of its moves. -/
def GoodRecord (end_ : String) (numTrains : Nat) (rec : List (Nat × String)) : Prop :=
  rec ≠ [] ∧ rec.Pairwise (fun a b => a.1 < b.1) ∧ (∀ m ∈ rec, 1 ≤ m.1 ∧ m.1 ≤ numTrains) ∧
    ∀ m1 ∈ rec, ∀ m2 ∈ rec, m1.2 = m2.2 → m1.2 ≠ end_ → m1.1 = m2.1

/-- The destinations of the moves of train `i` (numbered from 1), in the order of the
turn records. -/
def trainDests (turns : List (List (Nat × String))) (i : Nat) : List String :=
  (turns.flatten.filter (fun m => decide (m.1 = i))).map Prod.snd

/-- The station on which train `i` stands after the turns `turns`: the destination of
its last move, or `start` when it has not moved. -/
def trainAt (start : String) (turns : List (List (Nat × String))) (i : Nat) : String :=
  (trainDests turns i).getLast?.getD start

/-- The records so far are the history of the trains `ts`, numbered from `i + 1`: each
train has been moved along its path up to its position. -/
def Traced (turns : List (List (Nat × String))) : Nat → List Train → Prop
  | _, [] => True
  | i, t :: ts =>
    trainDests turns (i + 1) = (t.path.take (t.pos + 1)).drop 1 ∧ Traced turns (i + 1) ts

/-- The tracks `u-v` and `u'-v'` are the same unordered pair of stations. -/
def SameTrack (u v u' v' : String) : Prop :=
  (u = u' ∧ v = v') ∨ (u = v' ∧ v = u')

instance (u v u' v' : String) : Decidable (SameTrack u v u' v') :=
  inferInstanceAs (Decidable (_ ∨ _))

/-- In the turn recorded as `rec`, played after the turns `pre`, no two trains run over
the same track. -/
def TurnTrackExclusive (start : String) (pre : List (List (Nat × String)))
    (rec : List (Nat × String)) : Prop :=
  ∀ m1 ∈ rec, ∀ m2 ∈ rec, m1.1 ≠ m2.1 →
    ¬ SameTrack (trainAt start pre m1.1) m1.2 (trainAt start pre m2.1) m2.2

/-- In no turn of the schedule do two trains run over the same track. -/
def TrackExclusive (start : String) (turns : List (List (Nat × String))) : Prop :=
  ∀ pre rec post, turns = pre ++ rec :: post → TurnTrackExclusive start pre rec

/-- The invariant of the simulation loop when the routes are shortest routes. -/
structure RunInv (network : Network) (start end_ : String) (trains : List Train)
    (occ : List (String × Nat)) (turns : List (List (Nat × String))) : Prop where
  routes : ∀ t ∈ trains, IsShortestRoute network start end_ t.path
  ok : ∀ t ∈ trains, TrainOK t
  traced : Traced turns 0 trains
  held : ∀ k, mapHas occ k = true → k ≠ end_ ∧ ∃ t ∈ trains, t.path[t.pos]? = some k
  exclusive : TrackExclusive start turns

/-! ## Specification of the schedules: reachable loop states, single routes, priority -/

/-- The loop variables at the top of the outer `for` of `FindTrainMovements`: after `k`
turns that made progress, starting from the trains `trains0` with nothing occupied and
no record. -/
inductive LoopReach (end_ : String) (trains0 : List Train) :
    Nat → List Train → List (String × Nat) → List (List (Nat × String)) → Prop
  | start : LoopReach end_ trains0 0 trains0 [] []
  | turn (k : Nat) (trains trains' : List Train) (occ : List (String × Nat))
      (turns : List (List (Nat × String))) (acc : TurnState)
      (hreach : LoopReach end_ trains0 k trains occ turns)
      (heval : evalTrains end_ occ 0 trains TurnState.init = some (trains', acc))
      (hprogress : acc.progress = true) :
      LoopReach end_ trains0 (k + 1) trains' acc.stationNextOccupied
        (if acc.moveThisTurn.length > 0 then turns ++ [acc.moveThisTurn] else turns)

/-- No station other than `end_` is a destination in the record `r` and again in the
record `r'` that follows it. -/
def NoReentry (end_ : String) (r r' : List (Nat × String)) : Prop :=
  ∀ m ∈ r, ∀ m' ∈ r', m.2 ≠ end_ → m'.2 ≠ m.2

/-- Train `k` on the one-track route `[start, end_]` after `t` turns: it has moved when
`k < t`, and is flagged as arrived one turn later. -/
def directTrain (start end_ : String) (t k : Nat) : Train :=
  { path := [start, end_], pos := if k < t then 1 else 0, arrived := decide (k + 1 < t) }

/-- The locals of turn `t + 1` on the one-track route, before train `k` is evaluated:
train `t` is the one that moves. -/
def directAcc (start end_ : String) (t k : Nat) : TurnState :=
  if k ≤ t then TurnState.init else TurnState.init.move end_ t start end_

/-- The trains on the one-track route after `t` turns. -/
def directTrains (start end_ : String) (numTrains t : Nat) : List Train :=
  (List.range' 0 numTrains).map (directTrain start end_ t)

/-- The station name holds no colon, the separator of the keys of `trackUsed`. -/
def NoColon (s : String) : Prop := ':' ∉ s.data

instance (s : String) : Decidable (NoColon s) :=
  inferInstanceAs (Decidable (':' ∉ s.data))

/-- What the schedule of a single route needs of the route: `L + 1` pairwise distinct
stations with `L ≥ 2`, the last of them `end_`, and no colon in a name. -/
structure LineRoute (p : List String) (end_ : String) (L : Nat) : Prop where
  nodup : p.Nodup
  len : p.length = L + 1
  two : 2 ≤ L
  last : p[L]? = some end_
  names : ∀ s ∈ p, NoColon s

/-- Train `k` on the single route `p` after `t` turns: it starts in turn `2 * k + 1`,
advances every turn, and is flagged as arrived one turn after it reaches the end. -/
def lineTrain (p : List String) (L t k : Nat) : Train :=
  { path := p, pos := min (t - 2 * k) L, arrived := decide (2 * k + L < t) }

/-- The occupancy map at the top of turn `t + 1` on the single route: the stations other
than the end that were entered in turn `t`. -/
def LineOcc (p : List String) (L n t : Nat) (occ : List (String × Nat)) : Prop :=
  ∀ s, mapHas occ s = true ↔ ∃ j, j < n ∧ 2 * j < t ∧ t - 2 * j < L ∧ p[t - 2 * j]? = some s

/-- The locals of turn `t + 1` on the single route, before train `k` is evaluated: the
trains `j < k` with `2 * j ≤ t < 2 * j + L` have moved. -/
structure LineAcc (p : List String) (L t k : Nat) (acc : TurnState) : Prop where
  sno : ∀ s, mapHas acc.stationNextOccupied s = true ↔
    ∃ j, j < k ∧ 2 * j ≤ t ∧ t + 1 - 2 * j < L ∧ p[t + 1 - 2 * j]? = some s
  track : ∀ key, mapGetBool acc.trackUsed key = true ↔
    ∃ j, j < k ∧ 2 * j ≤ t ∧ t - 2 * j < L ∧
      ∃ c d, p[t - 2 * j]? = some c ∧ p[t - 2 * j + 1]? = some d ∧ key = c ++ ":" ++ d
  progress : acc.progress = true ↔ ∃ j, j < k ∧ 2 * j ≤ t ∧ t < 2 * j + L
  moves : acc.moveThisTurn ≠ [] ↔ ∃ j, j < k ∧ 2 * j ≤ t ∧ t < 2 * j + L

/-- The trains on the single route after `t` turns. -/
def lineTrains (p : List String) (L n t : Nat) : List Train :=
  (List.range' 0 n).map (lineTrain p L t)

/-- A train standing on `cur` with candidate next station `nextStation` fails one of the
two checks of the loop body. -/
def CandBlocked (end_ : String) (occ : List (String × Nat)) (acc : TurnState)
    (cur nextStation : String) : Prop :=
  (nextStation ≠ end_ ∧
      (mapHas occ nextStation = true ∨ mapHas acc.stationNextOccupied nextStation = true)) ∨
    mapGetBool acc.trackUsed (cur ++ ":" ++ nextStation) = true

/-- Every key of `trackUsed` is the key of a track that starts on a station without a
colon and whose other end, unless it is `end_`, is claimed in `stationNextOccupied`. -/
def KeyInv (end_ : String) (acc : TurnState) : Prop :=
  ∀ key, mapGetBool acc.trackUsed key = true →
    ∃ c d, key = c ++ ":" ++ d ∧ NoColon c ∧
      (d ≠ end_ → mapHas acc.stationNextOccupied d = true)

/-- The station `s` is the destination of a move of the last record of `turns`. -/
def EnteredLast (turns : List (List (Nat × String))) (s : String) : Prop :=
  ∃ r, turns.getLast? = some r ∧ ∃ m ∈ r, m.2 = s

/-! ## Reading the inputs (`parsePositiveInt`, `ParseNetwork`)

* A string is the sequence of its characters; the bytes that the code compares with
  (`#`, `,`, `-`, `+`, the digits) are single characters.
* The Go `int` has `intSize` bits, `32` or `64` by platform: a parameter.
* `strconv.Atoi`, `strings.TrimSpace`, `strings.Split` and the regular expression are
  library code, embedded after their documented behaviour.
* `ParseNetwork` is embedded from the opened file on: its input is the list of lines that
  the scanner yields, and the error that the scanner holds when it stops.
-/

/-- The digits of `strconv.Atoi`: every byte must be one of `0..9`, and the value is
accumulated as `n*10 + digit`. -/
def atoiDigits : List Char → Nat → Option Nat
  | [], n => some n
  | ch :: rest, n =>
    if 48 ≤ ch.toNat ∧ ch.toNat ≤ 57 then atoiDigits rest (n * 10 + (ch.toNat - 48)) else none

/-- The range check of `strconv.ParseInt` on the magnitude `un` read under the sign
`neg`, for a result of `intSize` bits; no digits at all are a syntax error. -/
def atoiSigned (intSize : Nat) (neg : Bool) (digits : List Char) : Option Int :=
  if digits = [] then none
  else
    match atoiDigits digits 0 with
    | none => none
    | some un =>
      if neg then (if un > 2 ^ (intSize - 1) then none else some (-(un : Int)))
      else (if un ≥ 2 ^ (intSize - 1) then none else some (un : Int))

/-- `strconv.Atoi` of the Go standard library, for an `int` of `intSize` bits: an optional
sign `+` or `-`, then one or more decimal digits; `none` is a non-nil error, either
`ErrSyntax` (no digits, or another byte) or `ErrRange` (the value does not fit `int`). -/
def Atoi (intSize : Nat) (s : String) : Option Int :=
  match s.data with
  | '+' :: rest => atoiSigned intSize false rest
  | '-' :: rest => atoiSigned intSize true rest
  | digits => atoiSigned intSize false digits

/-- `parsePositiveInt` of `main.go`, for an `int` of `intSize` bits. -/
def parsePositiveInt (intSize : Nat) (s : String) : Int × Option String :=
  match Atoi intSize s with
  | none => (0, some "not a valid positive integer")
  | some n => if n ≤ 0 then (0, some "not a valid positive integer") else (n, none)

/-- `unicode.IsSpace`: the white space that `strings.TrimSpace` removes. -/
def isSpace (c : Char) : Bool :=
  decide (c.toNat ∈ [0x09, 0x0A, 0x0B, 0x0C, 0x0D, 0x20, 0x85, 0xA0, 0x1680, 0x2028, 0x2029,
    0x202F, 0x205F, 0x3000]) || (decide (0x2000 ≤ c.toNat) && decide (c.toNat ≤ 0x200A))

/-- `strings.TrimSpace`. -/
def TrimSpace (s : String) : String :=
  ⟨((s.data.dropWhile isSpace).reverse.dropWhile isSpace).reverse⟩

/-- The cut `line[:idx]` at the first `#`, when the line holds one. -/
def stripComment (line : String) : String :=
  ⟨line.data.takeWhile (fun c => c != '#')⟩

/-- The pieces of `strings.Split` for a separator of one character. -/
def splitChars (sep : Char) : List Char → List (List Char)
  | [] => [[]]
  | c :: cs =>
    if c = sep then [] :: splitChars sep cs
    else
      match splitChars sep cs with
      | [] => [[c]]
      | p :: ps => (c :: p) :: ps

/-- `strings.Split(s, sep)` for a separator of one character. -/
def Split (s : String) (sep : Char) : List String :=
  (splitChars sep s.data).map String.mk

/-- `stationNameRe.MatchString`, for the expression `^[a-z0-9_]+$`. -/
def stationNameMatch (name : String) : Bool :=
  !name.data.isEmpty &&
    name.data.all (fun c => (decide (97 ≤ c.toNat) && decide (c.toNat ≤ 122)) ||
      (decide (48 ≤ c.toNat) && decide (c.toNat ≤ 57)) || c == '_')

/-- The network before the first line. -/
def Network.empty : Network := { Stations := [], Coords := [], Connections := [] }

/-- The assignment `net.Connections[a][b] = struct{}{}`; writing to the nil map of a
missing key `a` is a run-time panic, `none`. -/
def addNeighbor (conns : List (String × List String)) (a b : String) :
    Option (List (String × List String)) :=
  match conns.lookup a with
  | none => none
  | some inner => some (mapSet conns a (if b ∈ inner then inner else inner ++ [b]))

/-- The branch `section == "stations"` of the loop body of `ParseNetwork`. -/
def stationLine (intSize : Nat) (net : Network) (lineNum : Nat) (line : String) :
    Except String Network :=
  let parts := Split line ','
  if parts.length ≠ 1 ∧ parts.length ≠ 3 then
    .error ("invalid station line at " ++ toString lineNum)
  else
    let name := TrimSpace (parts.getD 0 "")
    if !stationNameMatch name then .error ("invalid station name: " ++ name)
    else if mapHas net.Stations name then .error ("duplicate station name: " ++ name)
    else
      let conns :=
        if mapHas net.Connections name then net.Connections
        else mapSet net.Connections name []
      if parts.length = 3 then
        let xStr := TrimSpace (parts.getD 1 "")
        let yStr := TrimSpace (parts.getD 2 "")
        match Atoi intSize xStr, Atoi intSize yStr with
        | some x, some y =>
          if x ≤ 0 ∨ y ≤ 0 then .error ("invalid coordinates for station: " ++ name)
          else
            let coordKey := toString x ++ "," ++ toString y
            match net.Coords.lookup coordKey with
            | some other =>
              .error ("two stations at same coordinates: " ++ name ++ " and " ++ other)
            | none =>
              .ok { Stations := mapSet net.Stations name ⟨name, x, y⟩
                    Coords := mapSet net.Coords coordKey name
                    Connections := conns }
        | _, _ => .error ("invalid coordinates for station: " ++ name)
      else
        .ok { Stations := mapSet net.Stations name ⟨name, 0, 0⟩
              Coords := net.Coords
              Connections := conns }

/-- The branch `section == "connections"` of the loop body of `ParseNetwork`; `none` is a
run-time panic. -/
def connectionLine (net : Network) (lineNum : Nat) (line : String) :
    Option (Except String Network) :=
  let parts := Split line '-'
  if parts.length ≠ 2 then some (.error ("invalid connection line at " ++ toString lineNum))
  else
    let a := TrimSpace (parts.getD 0 "")
    let b := TrimSpace (parts.getD 1 "")
    if a = b then some (.error ("connection from station to itself: " ++ a))
    else if !mapHas net.Stations a then
      some (.error ("connection references non-existent station: " ++ a))
    else if !mapHas net.Stations b then
      some (.error ("connection references non-existent station: " ++ b))
    else if b ∈ net.neighbors a then some (.error ("duplicate connection: " ++ a ++ "-" ++ b))
    else if a ∈ net.neighbors b then some (.error ("duplicate connection: " ++ b ++ "-" ++ a))
    else
      match addNeighbor net.Connections a b with
      | none => none
      | some conns1 =>
        match addNeighbor conns1 b a with
        | none => none
        | some conns2 => some (.ok { net with Connections := conns2 })

/-- The loop `for scanner.Scan()` of `ParseNetwork` over the lines that the scanner
yields, with the locals `section` and `lineNum`; `none` is a run-time panic. -/
def parseLines (intSize : Nat) :
    List String → Network → String → Nat → Option (Except String Network)
  | [], net, _, _ => some (.ok net)
  | raw :: rest, net, sect, lineNum =>
    let lineNum := lineNum + 1
    let line := TrimSpace (stripComment raw)
    if line = "" then parseLines intSize rest net sect lineNum
    else if line = "stations:" then parseLines intSize rest net "stations" lineNum
    else if line = "connections:" then parseLines intSize rest net "connections" lineNum
    else if sect = "stations" then
      match stationLine intSize net lineNum line with
      | .error e => some (.error e)
      | .ok net' => parseLines intSize rest net' sect lineNum
    else if sect = "connections" then
      match connectionLine net lineNum line with
      | none => none
      | some (.error e) => some (.error e)
      | some (.ok net') => parseLines intSize rest net' sect lineNum
    else some (.error ("unexpected line outside of section at " ++ toString lineNum))

/-- `ParseNetwork` of `network.go` on an opened file: `lines` are the lines that the
scanner yields and `scanErr` is `scanner.Err()` once it stops. `none` is a run-time
panic. -/
def ParseNetwork (intSize : Nat) (lines : List String) (scanErr : Option String) :
    Option (Except String Network) :=
  match parseLines intSize lines Network.empty "" 0 with
  | some (.ok net) =>
    match scanErr with
    | some e => some (.error e)
    | none => some (.ok net)
  | r => r

/-- The ten decimal digits, in the order of their values. -/
def decimalDigits : List Char := ['0', '1', '2', '3', '4', '5', '6', '7', '8', '9']

/-- The number that the decimal digits `ds` denote, most significant digit first. -/
def decimalValue (ds : List Char) : Nat :=
  Nat.ofDigits 10 (ds.reverse.map (fun c => decimalDigits.indexOf c))

/-- The string `s` is a base-10 integer literal denoting `n`: an optional sign `+` or
`-` followed by one or more decimal digits. -/
def Denotes (s : String) (n : Int) : Prop :=
  ∃ ds : List Char, ds ≠ [] ∧ (∀ c ∈ ds, c ∈ decimalDigits) ∧
    (((s.data = ds ∨ s.data = '+' :: ds) ∧ n = (decimalValue ds : Int)) ∨
      (s.data = '-' :: ds ∧ n = -(decimalValue ds : Int)))

/-- Every entry of `Connections` is keyed by a station and lists only stations. -/
def NoDangling (stations : List (String × Station)) (conns : List (String × List String)) :
    Prop :=
  ∀ e ∈ conns, mapHas stations e.1 = true ∧ ∀ b ∈ e.2, mapHas stations b = true

/-- What `ParseNetwork` maintains of the connections: symmetric, irreflexive and without
dangling edge. -/
structure ConnWF (net : Network) : Prop where
  symm : ∀ a b, Adj net a b → Adj net b a
  irrefl : ∀ a, ¬ Adj net a a
  closed : NoDangling net.Stations net.Connections

/-- A network map file: three stations, one of them without coordinates, a comment,
blank space around names, and two connections. -/
def sampleLines : List String :=
  ["stations:", "a, 1, 1 # first", "b", "  c,2,1", "", "connections:", "a-b", "b - c"]

/-- The network that `ParseNetwork` reads from `sampleLines`. -/
def sampleNetwork : Network :=
  { Stations := [("a", ⟨"a", 1, 1⟩), ("b", ⟨"b", 0, 0⟩), ("c", ⟨"c", 2, 1⟩)]
    Coords := [("1,1", "a"), ("2,1", "c")]
    Connections := [("a", ["b"]), ("b", ["a", "c"]), ("c", ["b"])] }

/-- Every key of `Stations` matches `stationNameRe`. -/
def NamesOK (stations : List (String × Station)) : Prop :=
  ∀ e ∈ stations, stationNameMatch e.1 = true

/-- A network map file for the merging network `merge5`. -/
def merge5Lines : List String :=
  ["stations:", "a", "b", "c", "d", "e", "connections:", "a-b", "a-c", "b-d", "c-d", "d-e"]

/-! ## Route enumeration: termination and correctness -/

theorem lookup_mem {β : Type} (k : String) (v : β) :
    ∀ (m : List (String × β)), m.lookup k = some v → (k, v) ∈ m := by
  intro m
  induction m with
  | nil => intro h; simp at h
  | cons e m ih =>
    intro h
    obtain ⟨k', v'⟩ := e
    by_cases hk : k = k'
    · subst hk
      simp [List.lookup] at h
      simp [h]
    · have hne : (k == k') = false := by simpa using hk
      simp [List.lookup, hne] at h
      exact List.mem_cons_of_mem _ (ih h)

theorem neighbors_eq_nil_or_mem (network : Network) (s : String) :
    network.neighbors s = [] ∨ (s, network.neighbors s) ∈ network.Connections := by
  unfold Network.neighbors
  cases h : network.Connections.lookup s with
  | none => left; rfl
  | some l => right; simpa using lookup_mem s l _ h

theorem neighbors_subset_universe (network : Network) (s c : String)
    (h : c ∈ network.neighbors s) : c ∈ network.universe := by
  rcases neighbors_eq_nil_or_mem network s with h0 | h1
  · rw [h0] at h; simp at h
  · unfold Network.universe
    apply List.mem_append_right
    rw [List.mem_flatten]
    exact ⟨network.neighbors s, List.mem_map.mpr ⟨_, h1, rfl⟩, h⟩

theorem le_foldr_max (l : List Nat) (x : Nat) (h : x ∈ l) : x ≤ l.foldr max 0 := by
  induction l with
  | nil => simp at h
  | cons a l ih =>
    simp only [List.foldr_cons]
    rcases List.mem_cons.mp h with h | h
    · subst h; exact le_max_left _ _
    · exact le_trans (ih h) (le_max_right _ _)

theorem neighbors_length_le (network : Network) (s : String) :
    (network.neighbors s).length ≤ network.maxDegree := by
  rcases neighbors_eq_nil_or_mem network s with h0 | h1
  · rw [h0]; simp
  · unfold Network.maxDegree
    apply le_foldr_max
    exact List.mem_map.mpr ⟨_, h1, rfl⟩

theorem filter_length_le_of_imp (l : List String) (p q : String → Bool)
    (hpq : ∀ x, q x = true → p x = true) : (l.filter q).length ≤ (l.filter p).length := by
  induction l with
  | nil => simp
  | cons a l ih =>
    simp only [List.filter_cons]
    cases hq : q a
    · cases hp : p a
      · simpa using ih
      · simp only [Bool.false_eq_true, ↓reduceIte, List.length_cons]; omega
    · simp only [hpq a hq, ↓reduceIte, List.length_cons]; omega

theorem filter_length_lt_of_mem (l : List String) (p q : String → Bool)
    (hpq : ∀ x, q x = true → p x = true) (c : String) (hc : c ∈ l) (hp : p c = true)
    (hq : q c = false) : (l.filter q).length < (l.filter p).length := by
  induction l with
  | nil => simp at hc
  | cons a l ih =>
    have hmono := filter_length_le_of_imp l p q hpq
    rcases List.mem_cons.mp hc with h | h
    · subst h
      simp only [List.filter_cons, hp, hq, ↓reduceIte, List.length_cons, Bool.false_eq_true]
      omega
    · have := ih h
      simp only [List.filter_cons]
      cases hq' : q a
      · cases hp' : p a
        · simpa using this
        · simp only [Bool.false_eq_true, ↓reduceIte, List.length_cons]; omega
      · simp only [hpq a hq', ↓reduceIte, List.length_cons]; omega

theorem unvisited_child_lt (network : Network) (visited : List String) (c : String)
    (hc : c ∈ network.universe) (hv : c ∉ visited) :
    unvisited network (visited ++ [c]) < unvisited network visited := by
  unfold unvisited
  apply filter_length_lt_of_mem _ _ _ _ c hc
  · simpa using hv
  · simp
  · intro x hx
    simp only [Bool.not_eq_eq_eq_not, Bool.not_true, List.contains_eq_any_beq, List.any_eq_false,
      beq_iff_eq, List.mem_append, List.mem_singleton] at hx ⊢
    intro y hy
    exact hx y (Or.inl hy)

theorem potential_append (network : Network) (q1 q2 : List node) :
    potential network (q1 ++ q2) = potential network q1 + potential network q2 := by
  simp [potential]

theorem potential_children (network : Network) (n : node) (cs : List String) (u : Nat)
    (hcs : ∀ c ∈ cs, unvisited network (n.visited ++ [c]) < u) :
    potential network
        (cs.map (fun c => ({ path := n.path ++ [c], visited := n.visited ++ [c] } : node)))
      ≤ cs.length * (network.maxDegree + 1) ^ (u - 1) := by
  induction cs with
  | nil => simp [potential]
  | cons c cs ih =>
    have h1 := hcs c (List.mem_cons_self _ _)
    have h2 := ih (fun c hc => hcs c (List.mem_cons_of_mem _ hc))
    have h3 : (network.maxDegree + 1) ^ unvisited network (n.visited ++ [c])
        ≤ (network.maxDegree + 1) ^ (u - 1) :=
      Nat.pow_le_pow_right (by omega) (by omega)
    simp only [potential, List.map_cons, List.sum_cons, List.length_cons] at h2 ⊢
    rw [Nat.add_mul, Nat.one_mul]
    omega

theorem potential_expand (network : Network) (n : node) (last : String) :
    potential network (expand network n last) + 1
      ≤ (network.maxDegree + 1) ^ unvisited network n.visited := by
  unfold expand
  set cs := (network.neighbors last).filter (fun neighbor => !(n.visited.contains neighbor))
    with hcs
  have hlen : cs.length ≤ network.maxDegree :=
    le_trans (List.length_filter_le _ _) (neighbors_length_le network last)
  have hlt : ∀ c ∈ cs, unvisited network (n.visited ++ [c]) < unvisited network n.visited := by
    intro c hc
    rw [hcs, List.mem_filter] at hc
    exact unvisited_child_lt network n.visited c (neighbors_subset_universe network last c hc.1)
      (by simpa using hc.2)
  have hpot := potential_children network n cs _ hlt
  rcases Nat.eq_zero_or_pos cs.length with h0 | hpos
  · have : cs = [] := List.length_eq_zero.mp h0
    rw [this]
    simp only [List.map_nil, potential, List.sum_nil, Nat.zero_add]
    exact Nat.one_le_pow _ _ (by omega)
  · obtain ⟨c, hc⟩ := List.exists_mem_of_length_pos hpos
    have hu := hlt c hc
    have hsplit : (network.maxDegree + 1) ^ unvisited network n.visited
        = (network.maxDegree + 1) ^ (unvisited network n.visited - 1) * (network.maxDegree + 1) := by
      rw [← Nat.pow_succ]
      congr 1
      omega
    have hone : 1 ≤ (network.maxDegree + 1) ^ (unvisited network n.visited - 1) :=
      Nat.one_le_pow _ _ (by omega)
    have hmul : cs.length * (network.maxDegree + 1) ^ (unvisited network n.visited - 1)
        ≤ network.maxDegree * (network.maxDegree + 1) ^ (unvisited network n.visited - 1) :=
      Nat.mul_le_mul_right _ hlen
    rw [hsplit, Nat.mul_add, Nat.mul_one, Nat.mul_comm]
    omega

theorem expand_path_ne_nil (network : Network) (n : node) (last : String) :
    ∀ m ∈ expand network n last, m.path ≠ [] := by
  intro m hm
  unfold expand at hm
  rw [List.mem_map] at hm
  obtain ⟨c, _, rfl⟩ := hm
  simp

theorem bfsLoop_nil (network : Network) (end_ : String) (fuel : Nat)
    (results : List (List String)) (minLen : Int) :
    bfsLoop network end_ fuel { queue := [], results := results, minLen := minLen }
      = some results := by
  cases fuel <;> rfl

theorem bfsLoop_cons (network : Network) (end_ : String) (fuel : Nat) (n : node)
    (queue : List node) (results : List (List String)) (minLen : Int) :
    bfsLoop network end_ (fuel + 1) { queue := n :: queue, results := results, minLen := minLen }
      = (bfsStep network end_ n queue results minLen).bind (bfsLoop network end_ fuel) := by
  rw [bfsLoop]
  dsimp only
  cases bfsStep network end_ n queue results minLen <;> rfl

/-- The budget is enough: `bfsLoop` returns whenever it is given more passes than the
potential of its queue. -/
theorem bfsLoop_returns (network : Network) (end_ : String) :
    ∀ (fuel : Nat) (s : BfsState), (∀ n ∈ s.queue, n.path ≠ []) →
      potential network s.queue < fuel → ∃ r, bfsLoop network end_ fuel s = some r := by
  intro fuel
  induction fuel with
  | zero => intro s _ h; omega
  | succ fuel ih =>
    intro s hne hpot
    obtain ⟨queue, results, minLen⟩ := s
    cases queue with
    | nil => exact ⟨results, bfsLoop_nil _ _ _ _ _⟩
    | cons n queue =>
      rw [bfsLoop_cons]
      have hn := hne n (List.mem_cons_self _ _)
      have hq : ∀ m ∈ queue, m.path ≠ [] := fun m hm => hne m (List.mem_cons_of_mem _ hm)
      have hpos : 1 ≤ (network.maxDegree + 1) ^ unvisited network n.visited :=
        Nat.one_le_pow _ _ (by omega)
      have hpot' : potential network queue + (network.maxDegree + 1) ^ unvisited network n.visited
          < fuel + 1 := by
        simp only [potential, List.map_cons, List.sum_cons] at hpot ⊢
        omega
      obtain ⟨last, hlast⟩ : ∃ last, n.path.getLast? = some last := by
        cases h : n.path.getLast? with
        | none => exact absurd (List.getLast?_eq_none_iff.mp h) hn
        | some l => exact ⟨l, rfl⟩
      unfold bfsStep
      simp only [hlast]
      split_ifs
      · exact ih _ hq (by simp only; omega)
      · exact ih _ hq (by simp only; omega)
      · exact ih _ hq (by simp only; omega)
      · simp only [Option.some_bind]
        apply ih
        · intro m hm
          simp only [List.mem_append] at hm
          rcases hm with hm | hm
          · exact hq m hm
          · exact expand_path_ne_nil network n last m hm
        · have := potential_expand network n last
          simp only [potential_append]
          omega

theorem neighbors_nodup (network : Network) (h : network.DistinctNeighbors) (s : String) :
    (network.neighbors s).Nodup := by
  rcases neighbors_eq_nil_or_mem network s with h0 | h1
  · rw [h0]; exact List.nodup_nil
  · exact h _ h1

theorem exists_shortest_of_route (network : Network) (start end_ : String) (q : List String)
    (hq : IsRoute network start end_ q) :
    ∃ p, IsShortestRoute network start end_ p ∧ p.length ≤ q.length := by
  classical
  have hex : ∃ k, ∃ p, IsRoute network start end_ p ∧ p.length = k := ⟨q.length, q, hq, rfl⟩
  obtain ⟨p, hp, hlen⟩ := Nat.find_spec hex
  refine ⟨p, ⟨hp, ?_⟩, ?_⟩
  · intro q' hq'
    rw [hlen]
    exact Nat.find_min' hex ⟨q', hq', rfl⟩
  · rw [hlen]
    exact Nat.find_min' hex ⟨q, hq, rfl⟩

theorem prefix_eq_of_getLast (p q : List String) (e : String) (hpq : p <+: q)
    (hp : p.getLast? = some e) (hq : q.getLast? = some e) (hnd : q.Nodup) : p = q := by
  obtain ⟨t, rfl⟩ := hpq
  cases t with
  | nil => simp
  | cons c t =>
    exfalso
    have h1 : e ∈ p := List.mem_of_getLast?_eq_some hp
    have h2 : e ∈ c :: t := by
      rw [List.getLast?_append_of_ne_nil _ (List.cons_ne_nil c t)] at hq
      exact List.mem_of_getLast?_eq_some hq
    exact (List.nodup_append.mp hnd).2.2 h1 h2

theorem prefix_extend (p q : List String) (hpq : p <+: q) (hne : p ≠ q) :
    ∃ c t, q = p ++ c :: t := by
  obtain ⟨t, rfl⟩ := hpq
  cases t with
  | nil => simp at hne
  | cons c t => exact ⟨c, t, rfl⟩

theorem prefix_snoc_cases (x p : List String) (c : String) (h : x <+: p ++ [c]) :
    x <+: p ∨ x = p ++ [c] := by
  rcases List.prefix_concat_iff.mp h with h | h
  · right; exact h
  · left; exact h

theorem bfsInv_init (network : Network) (start end_ : String) :
    BfsInv network start end_
      { queue := [{ path := [start], visited := [start] }], results := [], minLen := -1 } where
  nodes := by
    intro n hn
    simp only [List.mem_singleton] at hn
    subst hn
    exact ⟨rfl, by simp, by simp, fun x => Iff.rfl⟩
  sorted := by simp
  close := by
    intro a ha b hb
    simp only [List.mem_singleton] at ha hb
    subst ha hb
    omega
  res := by simp
  resEmpty := by simp
  resNonempty := by simp
  lower := by simp
  complete := by
    intro q hq
    right
    refine ⟨_, List.mem_singleton_self _, ?_⟩
    obtain ⟨⟨hh, -, -, -⟩, -⟩ := hq
    cases q with
    | nil => simp at hh
    | cons a t =>
      simp only [List.head?_cons, Option.some.injEq] at hh
      subst hh
      exact ⟨t, rfl⟩
  antichain := by simp

theorem mem_expand (network : Network) (n m : node) (last : String) :
    m ∈ expand network n last ↔
      ∃ c, c ∈ network.neighbors last ∧ c ∉ n.visited ∧
        m = { path := n.path ++ [c], visited := n.visited ++ [c] } := by
  unfold expand
  simp only [List.mem_map, List.mem_filter]
  constructor
  · rintro ⟨c, ⟨h1, h2⟩, rfl⟩
    exact ⟨c, h1, by simpa using h2, rfl⟩
  · rintro ⟨c, h1, h2, rfl⟩
    exact ⟨c, ⟨h1, by simpa using h2⟩, rfl⟩

theorem nodeOK_expand (network : Network) (start last : String) (n m : node)
    (hn : NodeOK network start n) (hlast : n.path.getLast? = some last)
    (hm : m ∈ expand network n last) : NodeOK network start m := by
  obtain ⟨c, hc, hv, rfl⟩ := (mem_expand network n _ last).mp hm
  obtain ⟨h1, h2, h3, h4⟩ := hn
  have hne : n.path ≠ [] := by
    intro h; rw [h] at hlast; simp at hlast
  refine ⟨?_, ?_, ?_, ?_⟩
  · simp only
    rw [List.head?_append_of_ne_nil _ hne]
    exact h1
  · simp only
    rw [List.nodup_append]
    refine ⟨h2, by simp, ?_⟩
    intro x hx hx'
    simp only [List.mem_singleton] at hx'
    subst hx'
    exact hv ((h4 x).mpr hx)
  · simp only
    rw [List.chain'_append]
    refine ⟨h3, by simp, ?_⟩
    intro x hx y hy
    simp only [List.head?_cons, Option.mem_def, Option.some.injEq] at hy
    subst hy
    rw [Option.mem_def, hlast] at hx
    simp only [Option.some.injEq] at hx
    subst hx
    exact hc
  · intro x
    simp only [List.mem_append, List.mem_singleton, h4 x]

theorem expand_length (network : Network) (last : String) (n m : node)
    (hm : m ∈ expand network n last) : m.path.length = n.path.length + 1 := by
  obtain ⟨c, -, -, rfl⟩ := (mem_expand network n _ last).mp hm
  simp

theorem expand_paths_incomparable (network : Network) (hnet : network.DistinctNeighbors)
    (last : String) (n : node) :
    ((expand network n last).map node.path).Pairwise Incomparable := by
  unfold expand
  rw [List.map_map]
  rw [List.pairwise_map]
  have hnd : ((network.neighbors last).filter
      (fun neighbor => !(n.visited.contains neighbor))).Nodup :=
    (neighbors_nodup network hnet last).filter _
  refine hnd.imp ?_
  intro a b hab
  simp only [Function.comp]
  constructor
  · intro h
    have := List.IsPrefix.eq_of_length h (by simp)
    exact hab (by simpa using this)
  · intro h
    have := List.IsPrefix.eq_of_length h (by simp)
    exact hab (by simpa using this.symm)

theorem incomparable_symm {a b : List String} (h : Incomparable a b) : Incomparable b a :=
  ⟨h.2, h.1⟩

theorem incomparable_snoc {x p : List String} (c : String) (h : Incomparable x p) :
    Incomparable x (p ++ [c]) := by
  constructor
  · intro hx
    rcases prefix_snoc_cases x p c hx with h1 | h1
    · exact h.1 h1
    · exact h.2 (h1 ▸ List.prefix_append p [c])
  · intro hx
    exact h.2 ((List.prefix_append p [c]).trans hx)

theorem nodeOK_route (network : Network) (start end_ : String) (n : node)
    (hn : NodeOK network start n) (hlast : n.path.getLast? = some end_) :
    IsRoute network start end_ n.path :=
  ⟨hn.1, hlast, hn.2.1, hn.2.2.1⟩

/-- The invariant survives the pass that records a route. -/
theorem bfsInv_accept (network : Network) (start end_ : String) (n : node) (queue : List node)
    (results : List (List String)) (minLen : Int)
    (inv : BfsInv network start end_ { queue := n :: queue, results := results, minLen := minLen })
    (hlast : n.path.getLast? = some end_)
    (hmin : minLen = -1 ∨ (n.path.length : Int) = minLen) :
    BfsInv network start end_
      { queue := queue, results := results ++ [n.path], minLen := (n.path.length : Int) } := by
  have hnode := inv.nodes n (List.mem_cons_self _ _)
  have hroute := nodeOK_route network start end_ n hnode hlast
  refine
    { nodes := fun m hm => inv.nodes m (List.mem_cons_of_mem _ hm)
      sorted := (List.pairwise_cons.mp inv.sorted).2
      close := fun a ha b hb =>
        inv.close a (List.mem_cons_of_mem _ ha) b (List.mem_cons_of_mem _ hb)
      res := ?_
      resEmpty := ?_
      resNonempty := by simp
      lower := ?_
      complete := ?_
      antichain := ?_ }
  · intro r hr
    rcases List.mem_append.mp hr with hr | hr
    · have := inv.res r hr
      simp only at this
      rcases hmin with h | h
      · have := inv.resEmpty h
        simp only at this
        rw [this] at hr
        simp at hr
      · exact ⟨this.1, by rw [this.2, h]⟩
    · simp only [List.mem_singleton] at hr
      subst hr
      exact ⟨hroute, rfl⟩
  · intro h
    simp only at h
    omega
  · intro _ q hq
    simp only
    by_cases h : minLen = -1
    · obtain ⟨p, hp, hpq⟩ := exists_shortest_of_route network start end_ q hq
      have hres := inv.resEmpty h
      simp only at hres
      rcases inv.complete p hp with hc | ⟨m, hm, hpre⟩
      · simp only [hres] at hc
        simp at hc
      · have hle : n.path.length ≤ m.path.length := by
          rcases List.mem_cons.mp hm with rfl | hm'
          · exact le_refl _
          · exact (List.pairwise_cons.mp inv.sorted).1 m hm'
        have := hpre.length_le
        omega
    · have h' : (n.path.length : Int) = minLen := by
        rcases hmin with h1 | h1
        · exact absurd h1 h
        · exact h1
      rw [h']
      exact inv.lower h q hq
  · intro q hq
    rcases inv.complete q hq with hc | ⟨m, hm, hpre⟩
    · left; exact List.mem_append_left _ hc
    · rcases List.mem_cons.mp hm with rfl | hm'
      · left
        have := prefix_eq_of_getLast _ _ end_ hpre hlast hq.1.2.1 hq.1.2.2.1
        rw [← this]
        simp
      · right; exact ⟨m, hm', hpre⟩
  · intro hnet
    have := inv.antichain hnet
    simpa using this

/-- The invariant survives a pass that only drops the dequeued node, provided no
shortest route runs through it. -/
theorem bfsInv_drop (network : Network) (start end_ : String) (n : node) (queue : List node)
    (results : List (List String)) (minLen : Int)
    (inv : BfsInv network start end_ { queue := n :: queue, results := results, minLen := minLen })
    (hno : ∀ q, IsShortestRoute network start end_ q → ¬ n.path <+: q) :
    BfsInv network start end_ { queue := queue, results := results, minLen := minLen } := by
  refine
    { nodes := fun m hm => inv.nodes m (List.mem_cons_of_mem _ hm)
      sorted := (List.pairwise_cons.mp inv.sorted).2
      close := fun a ha b hb =>
        inv.close a (List.mem_cons_of_mem _ ha) b (List.mem_cons_of_mem _ hb)
      res := inv.res
      resEmpty := inv.resEmpty
      resNonempty := inv.resNonempty
      lower := inv.lower
      complete := ?_
      antichain := ?_ }
  · intro q hq
    rcases inv.complete q hq with hc | ⟨m, hm, hpre⟩
    · left; exact hc
    · rcases List.mem_cons.mp hm with rfl | hm'
      · exact absurd hpre (hno q hq)
      · right; exact ⟨m, hm', hpre⟩
  · intro hnet
    have := inv.antichain hnet
    simp only [List.map_cons] at this
    refine this.sublist ?_
    exact List.Sublist.append (List.Sublist.refl _) (List.sublist_cons_self _ _)

/-- The invariant survives the pass that extends the dequeued path by its neighbours. -/
theorem bfsInv_expand (network : Network)
    (start end_ last : String) (n : node) (queue : List node)
    (results : List (List String)) (minLen : Int)
    (inv : BfsInv network start end_ { queue := n :: queue, results := results, minLen := minLen })
    (hlast : n.path.getLast? = some last) (hne : last ≠ end_) :
    BfsInv network start end_
      { queue := queue ++ expand network n last, results := results, minLen := minLen } := by
  have hnode := inv.nodes n (List.mem_cons_self _ _)
  have hsorted := List.pairwise_cons.mp inv.sorted
  refine
    { nodes := ?_
      sorted := ?_
      close := ?_
      res := inv.res
      resEmpty := inv.resEmpty
      resNonempty := inv.resNonempty
      lower := inv.lower
      complete := ?_
      antichain := ?_ }
  · intro m hm
    rcases List.mem_append.mp hm with hm | hm
    · exact inv.nodes m (List.mem_cons_of_mem _ hm)
    · exact nodeOK_expand network start last n m hnode hlast hm
  · simp only
    rw [List.pairwise_append]
    refine ⟨hsorted.2, ?_, ?_⟩
    · rw [List.pairwise_iff_forall_sublist]
      intro a b hab
      have ha : a ∈ expand network n last := hab.subset (by simp)
      have hb : b ∈ expand network n last := hab.subset (by simp)
      rw [expand_length network last n a ha, expand_length network last n b hb]
    · intro a ha b hb
      rw [expand_length network last n b hb]
      exact inv.close n (List.mem_cons_self _ _) a (List.mem_cons_of_mem _ ha)
  · intro a ha b hb
    simp only [List.mem_append] at ha hb
    rcases ha with ha | ha <;> rcases hb with hb | hb
    · exact inv.close a (List.mem_cons_of_mem _ ha) b (List.mem_cons_of_mem _ hb)
    · rw [expand_length network last n b hb]
      have := hsorted.1 a ha
      omega
    · rw [expand_length network last n a ha]
      have := inv.close n (List.mem_cons_self _ _) b (List.mem_cons_of_mem _ hb)
      omega
    · rw [expand_length network last n a ha, expand_length network last n b hb]
      omega
  · intro q hq
    rcases inv.complete q hq with hc | ⟨m, hm, hpre⟩
    · left; exact hc
    · right
      rcases List.mem_cons.mp hm with rfl | hm'
      · have hneq : m.path ≠ q := by
          intro h
          rw [h, hq.1.2.1] at hlast
          exact hne (Option.some.inj hlast).symm
        obtain ⟨c, t, rfl⟩ := prefix_extend _ _ hpre hneq
        have hchain := hq.1.2.2.2
        have hnd := hq.1.2.2.1
        have hadj : c ∈ network.neighbors last := by
          have h := (List.chain'_append.mp hchain).2.2 last (by rw [Option.mem_def, hlast]) c
            (by simp)
          exact h
        have hnotin : c ∉ m.visited := by
          intro hv
          have hcp : c ∈ m.path := (hnode.2.2.2 c).mp hv
          exact (List.nodup_append.mp hnd).2.2 hcp (List.mem_cons_self _ _)
        refine ⟨{ path := m.path ++ [c], visited := m.visited ++ [c] }, ?_, ?_⟩
        · apply List.mem_append_right
          exact (mem_expand network m _ last).mpr ⟨c, hadj, hnotin, rfl⟩
        · exact ⟨t, by simp⟩
      · exact ⟨m, List.mem_append_left _ hm', hpre⟩
  · intro hnet
    have hold := inv.antichain hnet
    simp only [List.map_cons, List.pairwise_append, List.pairwise_cons, List.mem_cons,
      forall_eq_or_imp] at hold
    obtain ⟨h1, ⟨h2, h3⟩, h4⟩ := hold
    simp only [List.map_append, List.pairwise_append, List.mem_append]
    refine ⟨h1, ⟨h3, expand_paths_incomparable network hnet last n, ?_⟩, ?_⟩
    · intro a ha b hb
      obtain ⟨m, hm, rfl⟩ := List.mem_map.mp hb
      obtain ⟨c, -, -, rfl⟩ := (mem_expand network n _ last).mp hm
      exact incomparable_snoc c (incomparable_symm (h2 a ha))
    · intro a ha b hb
      rcases hb with hb | hb
      · exact (h4 a ha).2 b hb
      · obtain ⟨m, hm, rfl⟩ := List.mem_map.mp hb
        obtain ⟨c, -, -, rfl⟩ := (mem_expand network n _ last).mp hm
        exact incomparable_snoc c (h4 a ha).1

/-- Every pass through the loop body keeps the invariant. -/
theorem bfsInv_step (network : Network)
    (start end_ : String) (n : node) (queue : List node)
    (results : List (List String)) (minLen : Int) (s' : BfsState)
    (inv : BfsInv network start end_ { queue := n :: queue, results := results, minLen := minLen })
    (hstep : bfsStep network end_ n queue results minLen = some s') :
    BfsInv network start end_ s' := by
  unfold bfsStep at hstep
  cases hlast : n.path.getLast? with
  | none => simp [hlast] at hstep
  | some last =>
    simp only [hlast] at hstep
    have hnode := inv.nodes n (List.mem_cons_self _ _)
    split_ifs at hstep with h1 h2 h3
    · subst h1
      simp only [Option.some.injEq] at hstep
      subst hstep
      exact bfsInv_accept network start last n queue results minLen inv hlast h2
    · subst h1
      simp only [Option.some.injEq] at hstep
      subst hstep
      apply bfsInv_drop network start last n queue results minLen inv
      intro q hq hpre
      have heq := prefix_eq_of_getLast _ _ last hpre hlast hq.1.2.1 hq.1.2.2.1
      have hm : minLen ≠ -1 := fun h => h2 (Or.inl h)
      have hres := inv.resNonempty hm
      simp only at hres
      obtain ⟨r, hr⟩ := List.exists_mem_of_ne_nil _ hres
      have hr' := inv.res r hr
      simp only at hr'
      have hle := hq.2 r hr'.1
      have hlow := inv.lower hm q hq.1
      simp only at hlow
      apply h2
      right
      rw [heq]
      omega
    · simp only [Option.some.injEq] at hstep
      subst hstep
      apply bfsInv_drop network start end_ n queue results minLen inv
      intro q hq hpre
      have hneq : n.path ≠ q := by
        intro h
        rw [h, hq.1.2.1] at hlast
        exact h1 (Option.some.inj hlast).symm
      obtain ⟨c, t, rfl⟩ := prefix_extend _ _ hpre hneq
      have hres := inv.resNonempty h3.1
      simp only at hres
      obtain ⟨r, hr⟩ := List.exists_mem_of_ne_nil _ hres
      have hr' := inv.res r hr
      simp only at hr'
      have hle := hq.2 r hr'.1
      simp only [List.length_append, List.length_cons] at hle
      have := h3.2
      omega
    · simp only [Option.some.injEq] at hstep
      subst hstep
      exact bfsInv_expand network start end_ last n queue results minLen inv hlast h1

/-- What the invariant says once the queue is empty. -/
theorem bfsInv_final (network : Network) (start end_ : String) (results : List (List String))
    (minLen : Int)
    (inv : BfsInv network start end_ { queue := [], results := results, minLen := minLen }) :
    (network.DistinctNeighbors → results.Nodup) ∧
      ∀ p, p ∈ results ↔ IsShortestRoute network start end_ p := by
  constructor
  · intro hnet
    have := inv.antichain hnet
    simp only [List.map_nil, List.append_nil] at this
    refine this.imp ?_
    intro a b hab heq
    exact hab.1 (heq ▸ List.prefix_refl a)
  · intro p
    constructor
    · intro hp
      have hr := inv.res p hp
      simp only at hr
      have hm : minLen ≠ -1 := by
        intro h
        have := inv.resEmpty h
        simp only at this
        rw [this] at hp
        simp at hp
      refine ⟨hr.1, ?_⟩
      intro q hq
      have := inv.lower hm q hq
      simp only at this
      omega
    · intro hp
      rcases inv.complete p hp with h | ⟨m, hm, -⟩
      · exact h
      · simp at hm

/-- Whatever `bfsLoop` returns from a state that satisfies the invariant is the
duplicate-free list of the shortest routes. -/
theorem bfsLoop_correct (network : Network) (start end_ : String) :
    ∀ (fuel : Nat) (s : BfsState) (r : List (List String)), BfsInv network start end_ s →
      bfsLoop network end_ fuel s = some r →
      (network.DistinctNeighbors → r.Nodup) ∧
        ∀ p, p ∈ r ↔ IsShortestRoute network start end_ p := by
  intro fuel
  induction fuel with
  | zero =>
    intro s r inv h
    obtain ⟨queue, results, minLen⟩ := s
    cases queue with
    | nil =>
      rw [bfsLoop_nil] at h
      cases h
      exact bfsInv_final network start end_ _ _ inv
    | cons n queue => simp [bfsLoop] at h
  | succ fuel ih =>
    intro s r inv h
    obtain ⟨queue, results, minLen⟩ := s
    cases queue with
    | nil =>
      rw [bfsLoop_nil] at h
      cases h
      exact bfsInv_final network start end_ _ _ inv
    | cons n queue =>
      rw [bfsLoop_cons] at h
      cases hstep : bfsStep network end_ n queue results minLen with
      | none => simp [hstep] at h
      | some s' =>
        rw [hstep] at h
        exact ih s' r (bfsInv_step network start end_ n queue results minLen s' inv hstep) h

theorem potential_init_lt (network : Network) (start : String) :
    potential network [{ path := [start], visited := [start] }] < bfsFuel network := by
  unfold potential bfsFuel unvisited
  simp only [List.map_cons, List.map_nil, List.sum_cons, List.sum_nil, Nat.add_zero]
  have : (network.universe.filter (fun x => !([start].contains x))).length
      ≤ network.universe.length := List.length_filter_le _ _
  have hpow : (network.maxDegree + 1) ^
      (network.universe.filter (fun x => !([start].contains x))).length
      ≤ (network.maxDegree + 1) ^ network.universe.length :=
    Nat.pow_le_pow_right (Nat.succ_pos network.maxDegree) this
  omega

/-- The enumeration always returns. -/
theorem findAllShortestPaths_returns (network : Network) (start end_ : String) :
    ∃ r, findAllShortestPaths network start end_ = some r := by
  unfold findAllShortestPaths
  apply bfsLoop_returns
  · intro n hn
    simp only [List.mem_singleton] at hn
    subst hn
    simp
  · exact potential_init_lt network start

/-- The enumeration returns the shortest routes, each once. -/
theorem findAllShortestPaths_spec (network : Network) (start end_ : String)
    (r : List (List String)) (h : findAllShortestPaths network start end_ = some r) :
    (network.DistinctNeighbors → r.Nodup) ∧
      ∀ p, p ∈ r ↔ IsShortestRoute network start end_ p :=
  bfsLoop_correct network start end_ _ _ r (bfsInv_init network start end_) h

theorem route_length_pos (network : Network) (start end_ : String) (p : List String)
    (h : IsRoute network start end_ p) : 1 ≤ p.length := by
  cases p with
  | nil => simp [IsRoute] at h
  | cons a t => simp

theorem shortestRoute_iff_edgeCount (network : Network) (start end_ : String) (L : Nat)
    (hL : IsShortestDistance network start end_ L) (p : List String) :
    IsShortestRoute network start end_ p ↔ IsRoute network start end_ p ∧ edgeCount p = L := by
  obtain ⟨⟨q0, hq0, hq0L⟩, hmin⟩ := hL
  unfold edgeCount at *
  constructor
  · rintro ⟨hp, hall⟩
    refine ⟨hp, ?_⟩
    have h1 := hall q0 hq0
    have h2 := hmin p hp
    have h3 := route_length_pos network start end_ p hp
    omega
  · rintro ⟨hp, hpL⟩
    refine ⟨hp, ?_⟩
    intro q hq
    have h2 := hmin q hq
    have h3 := route_length_pos network start end_ p hp
    have h4 := route_length_pos network start end_ q hq
    omega

theorem count_eq_one_of_nodup (r : List (List String)) (p : List String) (hnd : r.Nodup)
    (h : p ∈ r) : r.count p = 1 := by
  induction r with
  | nil => simp at h
  | cons a t ih =>
    rw [List.nodup_cons] at hnd
    rw [List.count_cons]
    rcases List.mem_cons.mp h with rfl | h'
    · have : t.count p = 0 := List.count_eq_zero.mpr hnd.1
      simp [this]
    · have hne : a ≠ p := fun e => hnd.1 (e ▸ h')
      have hbeq : (a == p) = false := by simpa using hne
      simp [ih hnd.2 h', hbeq]

theorem diamond_shortest_distance : IsShortestDistance diamond "a" "c" 2 := by
  have hspec := findAllShortestPaths_spec diamond "a" "c"
    [["a", "b", "c"], ["a", "d", "c"]] (by decide)
  have hmem := (hspec.2 ["a", "b", "c"]).mp (by simp)
  refine ⟨⟨["a", "b", "c"], hmem.1, rfl⟩, ?_⟩
  intro q hq
  have := hmem.2 q hq
  unfold edgeCount
  simp only [List.length_cons, List.length_nil] at this
  omega

/-! ## Simulation: one turn, and termination -/

/-- The three outcomes of the loop body for one train. -/
theorem stepTrain_cases (end_ : String) (occ : List (String × Nat)) (i : Nat) (t t' : Train)
    (acc acc' : TurnState) (h : stepTrain end_ occ i t acc = some (t', acc')) :
    (acc' = acc ∧ t'.path = t.path ∧ t'.pos = t.pos ∧
        (t.arrived = true ∨ t.pos + 1 = t.path.length) ∧
        (t'.arrived = true → t.arrived = true ∨ t.pos + 1 = t.path.length)) ∨
      (acc' = acc ∧ t' = t ∧ t.arrived = false ∧ Blocked end_ occ acc t) ∨
      (∃ cur nextStation, Moves end_ occ acc t cur nextStation ∧
        t' = { t with pos := t.pos + 1 } ∧ acc' = acc.move end_ i cur nextStation) := by
  unfold stepTrain at h
  split_ifs at h with h1 h2
  · simp only [Option.some.injEq, Prod.mk.injEq] at h
    obtain ⟨rfl, rfl⟩ := h
    left
    exact ⟨rfl, rfl, rfl, Or.inl h1, fun _ => Or.inl h1⟩
  · simp only [Option.some.injEq, Prod.mk.injEq] at h
    obtain ⟨rfl, rfl⟩ := h
    left
    exact ⟨rfl, rfl, rfl, Or.inr (by omega), fun _ => Or.inr (by omega)⟩
  · have h1' : t.arrived = false := by simpa using h1
    cases hn : t.path[t.pos + 1]? with
    | none => simp [hn] at h
    | some nextStation =>
      cases hc : t.path[t.pos]? with
      | none => simp [hn, hc] at h
      | some cur =>
        simp only [hn, hc] at h
        split_ifs at h with h3 h4
        · simp only [Option.some.injEq, Prod.mk.injEq] at h
          obtain ⟨rfl, rfl⟩ := h
          right; left
          exact ⟨rfl, rfl, h1', cur, nextStation, hc, hn, Or.inl h3⟩
        · simp only [Option.some.injEq, Prod.mk.injEq] at h
          obtain ⟨rfl, rfl⟩ := h
          right; left
          exact ⟨rfl, rfl, h1', cur, nextStation, hc, hn, Or.inr h4⟩
        all_goals
          simp only [Option.some.injEq, Prod.mk.injEq] at h
          obtain ⟨rfl, rfl⟩ := h
          right; right
          refine ⟨cur, nextStation, ⟨h1', hc, hn, ?_, by simpa using h4⟩, rfl, ?_⟩
          · intro hne
            have := h3
            simp only [not_and, not_or] at this
            have h5 := this hne
            exact ⟨by simpa using h5.1, by simpa using h5.2⟩
          · simp [TurnState.move, *]

/-- The loop body does not panic on a train whose position indexes its path. -/
theorem stepTrain_returns (end_ : String) (occ : List (String × Nat)) (i : Nat) (t : Train)
    (acc : TurnState) (ht : TrainOK t) : ∃ r, stepTrain end_ occ i t acc = some r := by
  unfold stepTrain
  split_ifs with h1 h2
  · exact ⟨_, rfl⟩
  · exact ⟨_, rfl⟩
  · have hlt : t.pos + 1 < t.path.length := by
      have := ht.1
      omega
    have hn : t.path[t.pos + 1]? = some (t.path[t.pos + 1]) := List.getElem?_eq_getElem hlt
    have hlt0 : t.pos < t.path.length := by omega
    have hc : t.path[t.pos]? = some (t.path[t.pos]) := List.getElem?_eq_getElem hlt0
    simp only [hn, hc]
    split_ifs <;> exact ⟨_, rfl⟩

theorem stepTrain_ok (end_ : String) (occ : List (String × Nat)) (i : Nat) (t t' : Train)
    (acc acc' : TurnState) (h : stepTrain end_ occ i t acc = some (t', acc'))
    (ht : TrainOK t) : TrainOK t' := by
  rcases stepTrain_cases end_ occ i t t' acc acc' h with
    ⟨-, hp, hpos, -, harr⟩ | ⟨-, rfl, -, -⟩ | ⟨cur, nextStation, hm, rfl, -⟩
  · refine ⟨by rw [hp, hpos]; exact ht.1, ?_⟩
    intro ha
    rw [hp, hpos]
    rcases harr ha with h1 | h1
    · exact ht.2 h1
    · exact h1
  · exact ht
  · obtain ⟨harr, -, hn, -, -⟩ := hm
    have hlt : t.pos + 1 < t.path.length := by
      by_contra hge
      rw [List.getElem?_eq_none (by omega)] at hn
      simp at hn
    exact ⟨hlt, by simp [harr]⟩

theorem lookup_mapSet {ν : Type} (m : List (String × ν)) (k k' : String) (v : ν) :
    (mapSet m k v).lookup k' = if k' = k then some v else m.lookup k' := by
  unfold mapSet
  induction m with
  | nil =>
    by_cases h : k' = k
    · subst h; simp [List.lookup]
    · have : (k' == k) = false := by simpa using h
      simp [List.lookup, h, this]
  | cons e m ih =>
    obtain ⟨a, b⟩ := e
    by_cases hak : a = k
    · subst hak
      simp only [List.filter_cons, bne_self_eq_false, Bool.false_eq_true, ↓reduceIte, ih]
      by_cases h : k' = a
      · simp [h]
      · have : (k' == a) = false := by simpa using h
        simp [h, List.lookup, this]
    · have hne : (a != k) = true := by simpa using hak
      simp only [List.filter_cons, hne, ↓reduceIte, List.cons_append]
      by_cases h : k' = a
      · subst h
        simp [List.lookup, hak]
      · have : (k' == a) = false := by simpa using h
        simp only [List.lookup, this, ih]

theorem mapHas_mapSet {ν : Type} (m : List (String × ν)) (k k' : String) (v : ν) :
    mapHas (mapSet m k v) k' = true ↔ k' = k ∨ mapHas m k' = true := by
  unfold mapHas
  rw [lookup_mapSet]
  by_cases h : k' = k
  · simp [h]
  · simp [h]

theorem mapGetBool_mapSet (m : List (String × Bool)) (k k' : String) :
    mapGetBool (mapSet m k true) k' = true ↔ k' = k ∨ mapGetBool m k' = true := by
  unfold mapGetBool
  rw [lookup_mapSet]
  by_cases h : k' = k
  · simp [h]
  · simp [h]

theorem mapHas_nil {ν : Type} (k : String) : mapHas ([] : List (String × ν)) k = false := rfl

theorem mapGetBool_nil (k : String) : mapGetBool [] k = false := rfl

theorem evalTrains_cons (end_ : String) (occ : List (String × Nat)) (i : Nat) (t : Train)
    (ts : List Train) (acc : TurnState) :
    evalTrains end_ occ i (t :: ts) acc
      = (stepTrain end_ occ i t acc).bind (fun r =>
          (evalTrains end_ occ (i + 1) ts r.2).bind (fun r' => some (r.1 :: r'.1, r'.2))) := by
  rw [evalTrains]
  cases h1 : stepTrain end_ occ i t acc with
  | none => rfl
  | some r =>
    obtain ⟨t', acc'⟩ := r
    simp only [Option.some_bind]
    cases h2 : evalTrains end_ occ (i + 1) ts acc' with
    | none => rfl
    | some r' => rfl

/-- Every run of the inner loop is described by the relation. -/
theorem evalTrains_rel (end_ : String) (occ : List (String × Nat)) :
    ∀ (ts : List Train) (i : Nat) (acc : TurnState) (ts' : List Train) (acc' : TurnState),
      evalTrains end_ occ i ts acc = some (ts', acc') →
      ∃ steps, EvalRel end_ occ i acc ts ts' acc' steps := by
  intro ts
  induction ts with
  | nil =>
    intro i acc ts' acc' h
    simp only [evalTrains, Option.some.injEq, Prod.mk.injEq] at h
    obtain ⟨rfl, rfl⟩ := h
    exact ⟨[], EvalRel.nil i acc⟩
  | cons t ts ih =>
    intro i acc ts' acc' h
    rw [evalTrains_cons] at h
    cases h1 : stepTrain end_ occ i t acc with
    | none => simp [h1] at h
    | some r =>
      obtain ⟨t1, acc1⟩ := r
      simp only [h1, Option.some_bind] at h
      cases h2 : evalTrains end_ occ (i + 1) ts acc1 with
      | none => simp [h2] at h
      | some r' =>
        obtain ⟨ts1, acc2⟩ := r'
        simp only [h2, Option.some_bind, Option.some.injEq, Prod.mk.injEq] at h
        obtain ⟨rfl, rfl⟩ := h
        obtain ⟨steps, hrel⟩ := ih (i + 1) acc1 ts1 acc2 h2
        rcases stepTrain_cases end_ occ i t t1 acc acc1 h1 with
          ⟨rfl, hp, hpos, hdone, harr⟩ | ⟨rfl, rfl, harr, hb⟩ | ⟨cur, nextStation, hm, rfl, rfl⟩
        · exact ⟨steps, EvalRel.rest i _ _ t t1 ts ts1 steps hp hpos hdone harr hrel⟩
        · exact ⟨steps, EvalRel.block i _ _ _ ts ts1 steps harr hb hrel⟩
        · exact ⟨_, EvalRel.move i acc acc2 t ts ts1 steps cur nextStation hm hrel⟩

/-- The inner loop does not panic on trains whose positions index their paths. -/
theorem evalTrains_returns (end_ : String) (occ : List (String × Nat)) :
    ∀ (ts : List Train) (i : Nat) (acc : TurnState), (∀ t ∈ ts, TrainOK t) →
      ∃ r, evalTrains end_ occ i ts acc = some r := by
  intro ts
  induction ts with
  | nil => intro i acc _; exact ⟨_, rfl⟩
  | cons t ts ih =>
    intro i acc hok
    rw [evalTrains_cons]
    obtain ⟨⟨t1, acc1⟩, h1⟩ := stepTrain_returns end_ occ i t acc (hok t (List.mem_cons_self _ _))
    obtain ⟨r2, h2⟩ := ih (i + 1) acc1 (fun t ht => hok t (List.mem_cons_of_mem _ ht))
    exact ⟨(t1 :: r2.1, r2.2), by simp [h1, h2]⟩

theorem evalRel_moves {end_ : String} {occ : List (String × Nat)} {i : Nat}
    {acc acc' : TurnState} {ts ts' : List Train} {steps : List Step}
    (h : EvalRel end_ occ i acc ts ts' acc' steps) :
    acc'.moveThisTurn = acc.moveThisTurn ++ steps.map Step.move := by
  induction h with
  | nil i acc => simp
  | rest i acc acc' t t' ts ts' steps _ _ _ _ _ ih => exact ih
  | block i acc acc' t ts ts' steps _ _ _ ih => exact ih
  | move i acc acc' t ts ts' steps cur nextStation _ _ ih =>
    rw [ih]
    simp [TurnState.move, Step.move]

theorem evalRel_progress {end_ : String} {occ : List (String × Nat)} {i : Nat}
    {acc acc' : TurnState} {ts ts' : List Train} {steps : List Step}
    (h : EvalRel end_ occ i acc ts ts' acc' steps) :
    acc'.progress = (acc.progress || !steps.isEmpty) := by
  induction h with
  | nil i acc => simp
  | rest i acc acc' t t' ts ts' steps _ _ _ _ _ ih => exact ih
  | block i acc acc' t ts ts' steps _ _ _ ih => exact ih
  | move i acc acc' t ts ts' steps cur nextStation _ _ ih =>
    rw [ih]
    simp [TurnState.move]

theorem evalRel_length {end_ : String} {occ : List (String × Nat)} {i : Nat}
    {acc acc' : TurnState} {ts ts' : List Train} {steps : List Step}
    (h : EvalRel end_ occ i acc ts ts' acc' steps) : ts'.length = ts.length := by
  induction h with
  | nil i acc => rfl
  | rest i acc acc' t t' ts ts' steps _ _ _ _ _ ih => simp [ih]
  | block i acc acc' t ts ts' steps _ _ _ ih => simp [ih]
  | move i acc acc' t ts ts' steps cur nextStation _ _ ih => simp [ih]

theorem evalRel_occupied {end_ : String} {occ : List (String × Nat)} {i : Nat}
    {acc acc' : TurnState} {ts ts' : List Train} {steps : List Step}
    (h : EvalRel end_ occ i acc ts ts' acc' steps) (k : String) :
    mapHas acc'.stationNextOccupied k = true ↔
      mapHas acc.stationNextOccupied k = true ∨ (k ≠ end_ ∧ ∃ s ∈ steps, s.dst = k) := by
  induction h with
  | nil i acc => simp
  | rest i acc acc' t t' ts ts' steps _ _ _ _ _ ih => exact ih
  | block i acc acc' t ts ts' steps _ _ _ ih => exact ih
  | move i acc acc' t ts ts' steps cur nextStation _ _ ih =>
    rw [ih]
    simp only [TurnState.move, List.mem_cons, exists_eq_or_imp]
    by_cases hne : nextStation = end_
    · subst hne
      simp only [ne_eq, not_true_eq_false, ↓reduceIte]
      constructor
      · rintro (h1 | ⟨h1, h2⟩)
        · exact Or.inl h1
        · exact Or.inr ⟨h1, Or.inr h2⟩
      · rintro (h1 | ⟨h1, h2 | h2⟩)
        · exact Or.inl h1
        · exact absurd h2.symm h1
        · exact Or.inr ⟨h1, h2⟩
    · simp only [ne_eq, hne, not_false_eq_true, ↓reduceIte, mapHas_mapSet]
      constructor
      · rintro ((h1 | h1) | ⟨h1, h2⟩)
        · exact Or.inr ⟨h1 ▸ hne, Or.inl h1.symm⟩
        · exact Or.inl h1
        · exact Or.inr ⟨h1, Or.inr h2⟩
      · rintro (h1 | ⟨h1, h2 | h2⟩)
        · exact Or.inl (Or.inr h1)
        · exact Or.inl (Or.inl h2.symm)
        · exact Or.inr ⟨h1, h2⟩

theorem evalRel_trackUsed {end_ : String} {occ : List (String × Nat)} {i : Nat}
    {acc acc' : TurnState} {ts ts' : List Train} {steps : List Step}
    (h : EvalRel end_ occ i acc ts ts' acc' steps) (k : String) :
    mapGetBool acc'.trackUsed k = true ↔
      mapGetBool acc.trackUsed k = true ∨ ∃ s ∈ steps, s.key = k := by
  induction h with
  | nil i acc => simp
  | rest i acc acc' t t' ts ts' steps _ _ _ _ _ ih => exact ih
  | block i acc acc' t ts ts' steps _ _ _ ih => exact ih
  | move i acc acc' t ts ts' steps cur nextStation _ _ ih =>
    rw [ih]
    simp only [TurnState.move, List.mem_cons, exists_eq_or_imp, mapGetBool_mapSet, Step.key]
    constructor
    · rintro ((h1 | h1) | h1)
      · exact Or.inr (Or.inl h1.symm)
      · exact Or.inl h1
      · exact Or.inr (Or.inr h1)
    · rintro (h1 | h1 | h1)
      · exact Or.inl (Or.inr h1)
      · exact Or.inl (Or.inl h1.symm)
      · exact Or.inr h1

/-- The moves of a turn are made by trains of increasing index. -/
theorem evalRel_index {end_ : String} {occ : List (String × Nat)} {i : Nat}
    {acc acc' : TurnState} {ts ts' : List Train} {steps : List Step}
    (h : EvalRel end_ occ i acc ts ts' acc' steps) :
    (∀ s ∈ steps, i ≤ s.train ∧ s.train < i + ts.length) ∧
      steps.Pairwise (fun a b => a.train < b.train) := by
  induction h with
  | nil i acc => simp
  | rest i acc acc' t t' ts ts' steps _ _ _ _ _ ih =>
    refine ⟨fun s hs => ?_, ih.2⟩
    have := ih.1 s hs
    simp only [List.length_cons]
    omega
  | block i acc acc' t ts ts' steps _ _ _ ih =>
    refine ⟨fun s hs => ?_, ih.2⟩
    have := ih.1 s hs
    simp only [List.length_cons]
    omega
  | move i acc acc' t ts ts' steps cur nextStation _ _ ih =>
    constructor
    · intro s hs
      simp only [List.length_cons]
      rcases List.mem_cons.mp hs with rfl | hs
      · simp only
        omega
      · have := ih.1 s hs
        omega
    · rw [List.pairwise_cons]
      refine ⟨fun s hs => ?_, ih.2⟩
      have := ih.1 s hs
      simp only
      omega

/-- Every move of a turn found its station free and its track unused. -/
theorem evalRel_free {end_ : String} {occ : List (String × Nat)} {i : Nat}
    {acc acc' : TurnState} {ts ts' : List Train} {steps : List Step}
    (h : EvalRel end_ occ i acc ts ts' acc' steps) :
    ∀ s ∈ steps,
      (s.dst ≠ end_ →
        mapHas occ s.dst = false ∧ mapHas acc.stationNextOccupied s.dst = false) ∧
      mapGetBool acc.trackUsed s.key = false := by
  induction h with
  | nil i acc => simp
  | rest i acc acc' t t' ts ts' steps _ _ _ _ _ ih => exact ih
  | block i acc acc' t ts ts' steps _ _ _ ih => exact ih
  | move i acc acc' t ts ts' steps cur nextStation hmove _ ih =>
    intro s hs
    rcases List.mem_cons.mp hs with rfl | hs
    · exact ⟨hmove.2.2.2.1, hmove.2.2.2.2⟩
    · obtain ⟨h1, h2⟩ := ih s hs
      constructor
      · intro hne
        refine ⟨(h1 hne).1, ?_⟩
        have := (h1 hne).2
        simp only [TurnState.move] at this
        by_cases hn : nextStation = end_
        · simpa [hn] using this
        · simp only [ne_eq, hn, not_false_eq_true, ↓reduceIte] at this
          by_contra hc
          have hc' : mapHas acc.stationNextOccupied s.dst = true := by simpa using hc
          have := (mapHas_mapSet acc.stationNextOccupied nextStation s.dst i).mpr (Or.inr hc')
          simp_all
      · simp only [TurnState.move] at h2
        by_contra hc
        have hc' : mapGetBool acc.trackUsed s.key = true := by simpa using hc
        have := (mapGetBool_mapSet acc.trackUsed (cur ++ ":" ++ nextStation) s.key).mpr
          (Or.inr hc')
        simp_all

/-- Two moves of one turn never share a station other than the end, nor a track key. -/
theorem evalRel_exclusive {end_ : String} {occ : List (String × Nat)} {i : Nat}
    {acc acc' : TurnState} {ts ts' : List Train} {steps : List Step}
    (h : EvalRel end_ occ i acc ts ts' acc' steps) :
    steps.Pairwise (fun a b => (a.dst = b.dst → a.dst = end_) ∧ a.key ≠ b.key) := by
  induction h with
  | nil i acc => simp
  | rest i acc acc' t t' ts ts' steps _ _ _ _ _ ih => exact ih
  | block i acc acc' t ts ts' steps _ _ _ ih => exact ih
  | move i acc acc' t ts ts' steps cur nextStation hmove htail ih =>
    rw [List.pairwise_cons]
    refine ⟨?_, ih⟩
    intro s hs
    obtain ⟨h1, h2⟩ := evalRel_free htail s hs
    simp only [TurnState.move] at h1 h2
    constructor
    · intro heq
      simp only at heq
      by_contra hne
      simp only at hne
      have := (h1 (heq ▸ hne)).2
      simp only [ne_eq, hne, not_false_eq_true, ↓reduceIte] at this
      have hset := (mapHas_mapSet acc.stationNextOccupied nextStation s.dst i).mpr
        (Or.inl heq.symm)
      simp_all
    · intro heq
      have hset := (mapGetBool_mapSet acc.trackUsed (cur ++ ":" ++ nextStation) s.key).mpr
        (Or.inl heq.symm)
      simp_all

theorem evalRel_ok {end_ : String} {occ : List (String × Nat)} {i : Nat}
    {acc acc' : TurnState} {ts ts' : List Train} {steps : List Step}
    (h : EvalRel end_ occ i acc ts ts' acc' steps) (hok : ∀ t ∈ ts, TrainOK t) :
    ∀ t ∈ ts', TrainOK t := by
  induction h with
  | nil i acc => simp
  | rest i acc acc' t t' ts ts' steps hpath hpos hdone harr _ ih =>
    intro x hx
    rcases List.mem_cons.mp hx with rfl | hx
    · have ht := hok t (List.mem_cons_self _ _)
      refine ⟨by rw [hpath, hpos]; exact ht.1, ?_⟩
      intro ha
      rw [hpath, hpos]
      rcases harr ha with h1 | h1
      · exact ht.2 h1
      · exact h1
    · exact ih (fun t ht => hok t (List.mem_cons_of_mem _ ht)) x hx
  | block i acc acc' t ts ts' steps _ _ _ ih =>
    intro x hx
    rcases List.mem_cons.mp hx with rfl | hx
    · exact hok _ (List.mem_cons_self _ _)
    · exact ih (fun t ht => hok t (List.mem_cons_of_mem _ ht)) x hx
  | move i acc acc' t ts ts' steps cur nextStation hmove _ ih =>
    intro x hx
    rcases List.mem_cons.mp hx with rfl | hx
    · obtain ⟨harr, -, hn, -, -⟩ := hmove
      have hlt : t.pos + 1 < t.path.length := by
        by_contra hge
        rw [List.getElem?_eq_none (by omega)] at hn
        simp at hn
      exact ⟨hlt, by simp [harr]⟩
    · exact ih (fun t ht => hok t (List.mem_cons_of_mem _ ht)) x hx

theorem evalRel_remaining {end_ : String} {occ : List (String × Nat)} {i : Nat}
    {acc acc' : TurnState} {ts ts' : List Train} {steps : List Step}
    (h : EvalRel end_ occ i acc ts ts' acc' steps) :
    remaining ts = remaining ts' + steps.length := by
  induction h with
  | nil i acc => simp [remaining]
  | rest i acc acc' t t' ts ts' steps hpath hpos _ _ _ ih =>
    simp only [remaining, List.map_cons, List.sum_cons] at ih ⊢
    rw [hpath, hpos]
    omega
  | block i acc acc' t ts ts' steps _ _ _ ih =>
    simp only [remaining, List.map_cons, List.sum_cons] at ih ⊢
    omega
  | move i acc acc' t ts ts' steps cur nextStation hmove _ ih =>
    obtain ⟨-, -, hn, -, -⟩ := hmove
    have hlt : t.pos + 1 < t.path.length := by
      by_contra hge
      rw [List.getElem?_eq_none (by omega)] at hn
      simp at hn
    simp only [remaining, List.map_cons, List.sum_cons, List.length_cons] at ih ⊢
    omega

theorem simLoop_succ (end_ : String) (fuel : Nat) (trains : List Train)
    (occ : List (String × Nat)) (turns : List (List (Nat × String))) :
    simLoop end_ (fuel + 1) trains occ turns
      = (evalTrains end_ occ 0 trains TurnState.init).bind (fun r =>
          if !r.2.progress then
            some (if r.2.moveThisTurn.length > 0 then turns ++ [r.2.moveThisTurn] else turns)
          else
            simLoop end_ fuel r.1 r.2.stationNextOccupied
              (if r.2.moveThisTurn.length > 0 then turns ++ [r.2.moveThisTurn] else turns)) := by
  rw [simLoop]
  cases evalTrains end_ occ 0 trains TurnState.init with
  | none => rfl
  | some r => rfl

/-- The budget is enough: `simLoop` returns whenever it is given more turns than the
trains have moves left to make. -/
theorem simLoop_returns (end_ : String) :
    ∀ (fuel : Nat) (trains : List Train) (occ : List (String × Nat))
      (turns : List (List (Nat × String))),
      (∀ t ∈ trains, TrainOK t) → remaining trains < fuel →
      ∃ r, simLoop end_ fuel trains occ turns = some r := by
  intro fuel
  induction fuel with
  | zero => intro _ _ _ _ h; omega
  | succ fuel ih =>
    intro trains occ turns hok hrem
    rw [simLoop_succ]
    obtain ⟨⟨trains', acc⟩, hev⟩ := evalTrains_returns end_ occ trains 0 TurnState.init hok
    obtain ⟨steps, hrel⟩ := evalTrains_rel end_ occ trains 0 TurnState.init trains' acc hev
    simp only [hev, Option.some_bind]
    cases hp : acc.progress with
    | false => simp
    | true =>
      simp only [Bool.not_true, Bool.false_eq_true, ↓reduceIte]
      apply ih _ _ _ (evalRel_ok hrel hok)
      have h1 := evalRel_remaining hrel
      have h2 := evalRel_progress hrel
      rw [hp] at h2
      have h3 : steps ≠ [] := by
        intro h
        simp [h, TurnState.init] at h2
      have := List.length_pos.mpr h3
      omega

theorem remaining_lt_simFuel (trains : List Train) : remaining trains < simFuel trains := by
  unfold remaining simFuel
  have : ∀ l : List Train, (l.map (fun t => t.path.length - 1 - t.pos)).sum
      ≤ (l.map (fun t => t.path.length)).sum := by
    intro l
    induction l with
    | nil => simp
    | cons a l ih =>
      simp only [List.map_cons, List.sum_cons]
      omega
  have := this trains
  omega

theorem assignTrains_ok (paths : List (List String)) (numTrains : Nat) (hne : paths ≠ [])
    (hpaths : ∀ p ∈ paths, p ≠ []) : ∀ t ∈ assignTrains paths numTrains, TrainOK t := by
  intro t ht
  unfold assignTrains at ht
  obtain ⟨i, -, rfl⟩ := List.mem_map.mp ht
  have hlen : 0 < paths.length := List.length_pos.mpr hne
  have hlt : i % paths.length < paths.length := Nat.mod_lt _ hlen
  have hmem : paths.getD (i % paths.length) [] ∈ paths := by
    rw [List.getD_eq_getElem _ _ hlt]
    exact List.getElem_mem _
  refine ⟨?_, by simp⟩
  simp only
  exact List.length_pos.mpr (hpaths _ hmem)

/-- The simulation returns for every non-empty list of non-empty routes. -/
theorem simulate_returns (paths : List (List String)) (end_ : String) (numTrains : Nat)
    (hne : paths ≠ []) (hpaths : ∀ p ∈ paths, p ≠ []) :
    ∃ turns, simulate paths end_ numTrains = some turns := by
  unfold simulate
  exact simLoop_returns end_ _ _ _ _ (assignTrains_ok paths numTrains hne hpaths)
    (remaining_lt_simFuel _)

/-! ## Walks, and how `FindTrainMovements` is put together -/

theorem isRoute_isWalk {network : Network} {start end_ : String} {p : List String}
    (h : IsRoute network start end_ p) : IsWalk network start end_ p :=
  ⟨h.1, h.2.1, h.2.2.2⟩

/-- Cutting the cycles out of a walk leaves a simple path that is no longer. -/
theorem walk_to_route (network : Network) (end_ : String) :
    ∀ (w : List String) (start : String), IsWalk network start end_ w →
      ∃ p, IsRoute network start end_ p ∧ p.length ≤ w.length := by
  intro w
  induction w with
  | nil => intro start h; simp [IsWalk] at h
  | cons a t ih =>
    intro start h
    obtain ⟨hh, hl, hc⟩ := h
    simp only [List.head?_cons, Option.some.injEq] at hh
    subst hh
    cases t with
    | nil =>
      simp only [List.getLast?_singleton, Option.some.injEq] at hl
      subst hl
      exact ⟨[a], ⟨rfl, rfl, by simp, by simp⟩, le_refl _⟩
    | cons b t =>
      rw [List.chain'_cons] at hc
      have hl' : (b :: t).getLast? = some end_ := by
        rw [List.getLast?_cons_cons] at hl
        exact hl
      obtain ⟨p, ⟨hp1, hp2, hp3, hp4⟩, hplen⟩ := ih b ⟨rfl, hl', hc.2⟩
      by_cases hmem : a ∈ p
      · obtain ⟨l1, l2, rfl⟩ := List.append_of_mem hmem
        refine ⟨a :: l2, ⟨rfl, ?_, ?_, ?_⟩, ?_⟩
        · rw [List.getLast?_append_of_ne_nil _ (List.cons_ne_nil a l2)] at hp2
          exact hp2
        · exact (List.nodup_append.mp hp3).2.1
        · exact (List.chain'_append.mp hp4).2.1
        · simp only [List.length_append, List.length_cons] at hplen ⊢
          omega
      · refine ⟨a :: p, ⟨rfl, ?_, ?_, ?_⟩, ?_⟩
        · cases p with
          | nil => simp at hp1
          | cons x p' =>
            rw [List.getLast?_cons_cons]
            exact hp2
        · exact List.nodup_cons.mpr ⟨hmem, hp3⟩
        · cases p with
          | nil => simp at hp1
          | cons x p' =>
            simp only [List.head?_cons, Option.some.injEq] at hp1
            subst hp1
            exact List.chain'_cons.mpr ⟨hc.1, hp4⟩
        · simp only [List.length_cons] at hplen ⊢
          omega

theorem exists_route_iff_exists_walk (network : Network) (start end_ : String) :
    (∃ p, IsRoute network start end_ p) ↔ ∃ w, IsWalk network start end_ w := by
  constructor
  · rintro ⟨p, hp⟩
    exact ⟨p, isRoute_isWalk hp⟩
  · rintro ⟨w, hw⟩
    obtain ⟨p, hp, -⟩ := walk_to_route network end_ w start hw
    exact ⟨p, hp⟩

/-- The enumeration is empty exactly when no route exists. -/
theorem findAllShortestPaths_eq_nil_iff (network : Network) (start end_ : String)
    (r : List (List String)) (h : findAllShortestPaths network start end_ = some r) :
    r = [] ↔ ¬ ∃ p, IsRoute network start end_ p := by
  obtain ⟨-, hmem⟩ := findAllShortestPaths_spec network start end_ r h
  constructor
  · rintro rfl ⟨p, hp⟩
    obtain ⟨q, hq, -⟩ := exists_shortest_of_route network start end_ p hp
    have := (hmem q).mpr hq
    simp at this
  · intro hno
    rw [List.eq_nil_iff_forall_not_mem]
    intro p hp
    exact hno ⟨p, ((hmem p).mp hp).1⟩

theorem findAllShortestPaths_ne_nil (network : Network) (start end_ : String)
    (r : List (List String)) (h : findAllShortestPaths network start end_ = some r) :
    ∀ p ∈ r, p ≠ [] := by
  intro p hp
  obtain ⟨-, hmem⟩ := findAllShortestPaths_spec network start end_ r h
  have := route_length_pos network start end_ p ((hmem p).mp hp).1
  exact List.length_pos.mp this

/-- How `FindTrainMovements` is put together from the enumeration and the simulation. -/
theorem FindTrainMovements_eq (network : Network) (start end_ : String) (numTrains : Nat)
    (paths : List (List String)) (h : findAllShortestPaths network start end_ = some paths) :
    (paths = [] ∧ FindTrainMovements network start end_ numTrains = some ([], some noPathError)) ∨
      (paths ≠ [] ∧ ∃ turns, simulate paths end_ numTrains = some turns ∧
        FindTrainMovements network start end_ numTrains = some (turns.map renderTurn, none)) := by
  unfold FindTrainMovements
  simp only [h]
  by_cases hp : paths = []
  · left
    exact ⟨hp, by simp [hp]⟩
  · right
    refine ⟨hp, ?_⟩
    obtain ⟨turns, hturns⟩ := simulate_returns paths end_ numTrains hp
      (findAllShortestPaths_ne_nil network start end_ paths h)
    refine ⟨turns, hturns, ?_⟩
    have : paths.length ≠ 0 := fun h0 => hp (List.length_eq_zero.mp h0)
    simp [this, hturns]

/-! ## Stations on shortest routes -/

theorem split_at_index (l : List String) (j : Nat) (s : String) (h : l[j]? = some s) :
    ∃ l1 l2, l = l1 ++ s :: l2 ∧ l1.length = j := by
  have hlt : j < l.length := by
    by_contra hge
    rw [List.getElem?_eq_none (by omega)] at h
    simp at h
  refine ⟨l.take j, l.drop (j + 1), ?_, ?_⟩
  · have hs : l[j] = s := by
      rw [List.getElem?_eq_getElem hlt] at h
      exact Option.some.inj h
    rw [← hs, ← List.drop_eq_getElem_cons hlt, List.take_append_drop]
  · rw [List.length_take]
    omega

theorem shortest_index_le (network : Network) (start end_ : String) (p q : List String)
    (hp : IsRoute network start end_ p) (hq : IsShortestRoute network start end_ q)
    (i j : Nat) (s : String) (hi : p[i]? = some s) (hj : q[j]? = some s) : j ≤ i := by
  by_contra hlt
  obtain ⟨p1, p2, rfl, hp1⟩ := split_at_index p i s hi
  obtain ⟨q1, q2, rfl, hq1⟩ := split_at_index q j s hj
  obtain ⟨hph, -, -, hpc⟩ := hp
  obtain ⟨⟨-, hql, -, hqc⟩, hmin⟩ := hq
  have hw : IsWalk network start end_ (p1 ++ s :: q2) := by
    refine ⟨?_, ?_, ?_⟩
    · cases p1 with
      | nil => simpa using hph
      | cons a t => simpa using hph
    · rw [List.getLast?_append_of_ne_nil _ (List.cons_ne_nil s q2)]
      rw [List.getLast?_append_of_ne_nil _ (List.cons_ne_nil s q2)] at hql
      exact hql
    · rw [List.chain'_append] at hpc hqc ⊢
      refine ⟨hpc.1, hqc.2.1, ?_⟩
      intro x hx y hy
      simp only [List.head?_cons, Option.mem_def, Option.some.injEq] at hy
      rw [← hy]
      exact hpc.2.2 x hx s (by simp)
  obtain ⟨r, hr, hrlen⟩ := walk_to_route network end_ _ start hw
  have := hmin r hr
  simp only [List.length_append, List.length_cons] at this hrlen
  omega

/-- A station has the same index on every shortest route through it. -/
theorem shortest_index_unique (network : Network) (start end_ : String) (p q : List String)
    (hp : IsShortestRoute network start end_ p) (hq : IsShortestRoute network start end_ q)
    (i j : Nat) (s : String) (hi : p[i]? = some s) (hj : q[j]? = some s) : i = j :=
  le_antisymm (shortest_index_le network start end_ q p hq.1 hp j i s hj hi)
    (shortest_index_le network start end_ p q hp.1 hq i j s hi hj)

theorem shortest_length_eq (network : Network) (start end_ : String) (p q : List String)
    (hp : IsShortestRoute network start end_ p) (hq : IsShortestRoute network start end_ q) :
    p.length = q.length :=
  le_antisymm (hp.2 q hq.1) (hq.2 p hp.1)

theorem route_last (network : Network) (start end_ : String) (p : List String)
    (hp : IsRoute network start end_ p) (k : Nat) (hk : k + 1 = p.length) :
    p[k]? = some end_ := by
  have := hp.2.1
  rw [List.getLast?_eq_getElem?] at this
  rw [← this]
  congr 1
  omega

theorem route_first (network : Network) (start end_ : String) (p : List String)
    (hp : IsRoute network start end_ p) : p[0]? = some start := by
  have := hp.1
  cases p with
  | nil => simp at this
  | cons a t => simpa using this

/-! ## The run of the simulation -/

theorem evalRel_init_moves {end_ : String} {occ : List (String × Nat)}
    {acc : TurnState} {ts ts' : List Train} {steps : List Step}
    (h : EvalRel end_ occ 0 TurnState.init ts ts' acc steps) :
    acc.moveThisTurn = steps.map Step.move ∧ acc.progress = !steps.isEmpty := by
  have h1 := evalRel_moves h
  have h2 := evalRel_progress h
  simp only [TurnState.init, List.nil_append, Bool.false_or] at h1 h2
  exact ⟨h1, h2⟩

/-- Induction over the turns of `simLoop`: a property of the loop variables that every
turn with moves preserves holds when the loop returns, and the turn evaluated last
made no move. -/
theorem simLoop_invariant (end_ : String)
    (Inv : List Train → List (String × Nat) → List (List (Nat × String)) → Prop)
    (hstep : ∀ trains occ turns trains' acc steps, Inv trains occ turns →
      EvalRel end_ occ 0 TurnState.init trains trains' acc steps → steps ≠ [] →
      Inv trains' acc.stationNextOccupied (turns ++ [steps.map Step.move])) :
    ∀ (fuel : Nat) (trains : List Train) (occ : List (String × Nat))
      (turns out : List (List (Nat × String))),
      Inv trains occ turns → simLoop end_ fuel trains occ turns = some out →
      ∃ trainsF occF trains' acc, Inv trainsF occF out ∧
        EvalRel end_ occF 0 TurnState.init trainsF trains' acc [] := by
  intro fuel
  induction fuel with
  | zero => intro _ _ _ _ _ h; simp [simLoop] at h
  | succ fuel ih =>
    intro trains occ turns out hinv h
    rw [simLoop_succ] at h
    cases hev : evalTrains end_ occ 0 trains TurnState.init with
    | none => simp [hev] at h
    | some r =>
      obtain ⟨trains', acc⟩ := r
      simp only [hev, Option.some_bind] at h
      obtain ⟨steps, hrel⟩ := evalTrains_rel end_ occ trains 0 TurnState.init trains' acc hev
      obtain ⟨hm, hp⟩ := evalRel_init_moves hrel
      cases steps with
      | nil =>
        simp only [List.isEmpty_nil, Bool.not_true] at hp
        simp only [List.map_nil] at hm
        simp only [hp, hm, Bool.not_false, ↓reduceIte, List.length_nil, gt_iff_lt,
          lt_self_iff_false, Option.some.injEq] at h
        subst h
        exact ⟨trains, occ, trains', acc, hinv, hrel⟩
      | cons s steps =>
        simp only [List.isEmpty_cons, Bool.not_false] at hp
        have hlen : 0 < acc.moveThisTurn.length := by simp [hm]
        simp only [hp, Bool.not_true, Bool.false_eq_true, ↓reduceIte, gt_iff_lt, hlen] at h
        have hinv' := hstep trains occ turns trains' acc (s :: steps) hinv hrel (by simp)
        rw [← hm] at hinv'
        exact ih trains' acc.stationNextOccupied _ out hinv' h

theorem evalRel_goodRecord {end_ : String} {occ : List (String × Nat)}
    {acc : TurnState} {ts ts' : List Train} {steps : List Step}
    (h : EvalRel end_ occ 0 TurnState.init ts ts' acc steps) (hne : steps ≠ []) :
    GoodRecord end_ ts.length (steps.map Step.move) := by
  obtain ⟨hidx, hpw⟩ := evalRel_index h
  have hex := evalRel_exclusive h
  refine ⟨by simpa using hne, ?_, ?_, ?_⟩
  · rw [List.pairwise_map]
    refine hpw.imp ?_
    intro a b hab
    simp only [Step.move]
    omega
  · intro m hm
    obtain ⟨s, hs, rfl⟩ := List.mem_map.mp hm
    have := hidx s hs
    simp only [Step.move]
    omega
  · intro m1 hm1 m2 hm2 heq hne'
    obtain ⟨s1, hs1, rfl⟩ := List.mem_map.mp hm1
    obtain ⟨s2, hs2, rfl⟩ := List.mem_map.mp hm2
    simp only [Step.move] at heq hne' ⊢
    by_contra hne2
    have hs : s1 ≠ s2 := fun e => hne2 (by rw [e])
    have hsymm : Symmetric (fun a b : Step => (a.dst = b.dst → a.dst = end_) ∧ a.key ≠ b.key) := by
      intro a b hab
      exact ⟨fun e => e ▸ hab.1 e.symm, fun e => hab.2 e.symm⟩
    have := (hex.forall hsymm hs1 hs2 hs).1 heq
    exact hne' this

/-- Every record that the simulation returns is a good record. -/
theorem simulate_goodRecord (paths : List (List String)) (end_ : String) (numTrains : Nat)
    (turns : List (List (Nat × String))) (h : simulate paths end_ numTrains = some turns) :
    ∀ rec ∈ turns, GoodRecord end_ numTrains rec := by
  unfold simulate at h
  obtain ⟨trainsF, occF, trains', acc, ⟨-, hinv⟩, -⟩ :=
    simLoop_invariant end_
      (fun trains _ turns => trains.length = numTrains ∧ ∀ rec ∈ turns, GoodRecord end_ numTrains rec)
      (by
        intro trains occ turns trains' acc steps ⟨hlen, hgood⟩ hrel hne
        refine ⟨by rw [evalRel_length hrel, hlen], ?_⟩
        intro rec hrec
        rcases List.mem_append.mp hrec with hrec | hrec
        · exact hgood rec hrec
        · simp only [List.mem_singleton] at hrec
          subst hrec
          rw [← hlen]
          exact evalRel_goodRecord hrel hne)
      _ _ _ _ turns ⟨by simp [assignTrains], by simp⟩ h
  exact hinv

theorem trainDests_append (turns : List (List (Nat × String))) (rec : List (Nat × String))
    (i : Nat) :
    trainDests (turns ++ [rec]) i
      = trainDests turns i ++ (rec.filter (fun m => decide (m.1 = i))).map Prod.snd := by
  simp [trainDests]

theorem filter_train_eq_nil (l : List (Nat × String)) (i : Nat) (h : ∀ m ∈ l, m.1 ≠ i) :
    l.filter (fun m => decide (m.1 = i)) = [] := by
  rw [List.filter_eq_nil_iff]
  intro m hm
  simpa using h m hm

theorem take_succ_drop_one (p : List String) (k : Nat) (x : String) (h : p[k + 1]? = some x) :
    (p.take (k + 1 + 1)).drop 1 = (p.take (k + 1)).drop 1 ++ [x] := by
  rw [List.take_succ, h]
  simp only [Option.toList_some]
  rw [List.drop_append_of_le_length]
  have hlt : k + 1 < p.length := by
    by_contra hge
    rw [List.getElem?_eq_none (by omega)] at h
    simp at h
  simp only [List.length_take]
  omega

/-- One turn extends the history of every train by the move it makes. -/
theorem traced_step {end_ : String} {occ : List (String × Nat)} {i : Nat}
    {acc acc' : TurnState} {ts ts' : List Train} {steps : List Step}
    (h : EvalRel end_ occ i acc ts ts' acc' steps) :
    ∀ (turns : List (List (Nat × String))) (pre : List (Nat × String)),
      (∀ m ∈ pre, m.1 ≤ i) → Traced turns i ts →
      Traced (turns ++ [pre ++ steps.map Step.move]) i ts' := by
  induction h with
  | nil i acc => intro _ _ _ _; trivial
  | rest i acc acc' t t' ts ts' steps hpath hpos _ _ htail ih =>
    intro turns pre hpre htr
    obtain ⟨h1, h2⟩ := htr
    refine ⟨?_, ih turns pre (fun m hm => Nat.le_succ_of_le (hpre m hm)) h2⟩
    rw [trainDests_append, hpath, hpos, ← h1, filter_train_eq_nil, List.map_nil, List.append_nil]
    intro m hm
    rcases List.mem_append.mp hm with hm | hm
    · have := hpre m hm
      omega
    · obtain ⟨s, hs, rfl⟩ := List.mem_map.mp hm
      have := (evalRel_index htail).1 s hs
      simp only [Step.move]
      omega
  | block i acc acc' t ts ts' steps _ _ htail ih =>
    intro turns pre hpre htr
    obtain ⟨h1, h2⟩ := htr
    refine ⟨?_, ih turns pre (fun m hm => Nat.le_succ_of_le (hpre m hm)) h2⟩
    rw [trainDests_append, ← h1, filter_train_eq_nil, List.map_nil, List.append_nil]
    intro m hm
    rcases List.mem_append.mp hm with hm | hm
    · have := hpre m hm
      omega
    · obtain ⟨s, hs, rfl⟩ := List.mem_map.mp hm
      have := (evalRel_index htail).1 s hs
      simp only [Step.move]
      omega
  | move i acc acc' t ts ts' steps cur nextStation hmove htail ih =>
    intro turns pre hpre htr
    obtain ⟨h1, h2⟩ := htr
    have ih' := ih turns (pre ++ [(i + 1, nextStation)]) (by
      intro m hm
      rcases List.mem_append.mp hm with hm | hm
      · exact Nat.le_succ_of_le (hpre m hm)
      · simp only [List.mem_singleton] at hm
        subst hm
        exact le_refl _) h2
    have hrec : pre ++ List.map Step.move ({ train := i, src := cur, dst := nextStation } :: steps)
        = (pre ++ [(i + 1, nextStation)]) ++ steps.map Step.move := by
      simp [Step.move]
    rw [hrec]
    refine ⟨?_, ih'⟩
    rw [trainDests_append]
    simp only
    rw [take_succ_drop_one t.path t.pos nextStation hmove.2.2.1, ← h1]
    congr 1
    rw [List.filter_append, List.filter_append, filter_train_eq_nil pre, filter_train_eq_nil
      (steps.map Step.move)]
    · simp
    · intro m hm
      obtain ⟨s, hs, rfl⟩ := List.mem_map.mp hm
      have := (evalRel_index htail).1 s hs
      simp only [Step.move]
      omega
    · intro m hm
      have := hpre m hm
      omega

/-- The history of train `j + 1`, read off the list of trains. -/
theorem traced_get (turns : List (List (Nat × String))) :
    ∀ (ts : List Train) (i j : Nat) (t : Train), Traced turns i ts → ts[j]? = some t →
      trainDests turns (i + j + 1) = (t.path.take (t.pos + 1)).drop 1 := by
  intro ts
  induction ts with
  | nil => intro i j t _ h; simp at h
  | cons a ts ih =>
    intro i j t htr h
    cases j with
    | zero =>
      simp only [List.getElem?_cons_zero, Option.some.injEq] at h
      subst h
      exact htr.1
    | succ j =>
      simp only [List.getElem?_cons_succ] at h
      have := ih (i + 1) j t htr.2 h
      rw [← this]
      congr 1
      omega

theorem evalRel_paths {end_ : String} {occ : List (String × Nat)} {i : Nat}
    {acc acc' : TurnState} {ts ts' : List Train} {steps : List Step}
    (h : EvalRel end_ occ i acc ts ts' acc' steps) :
    ts'.map Train.path = ts.map Train.path := by
  induction h with
  | nil i acc => rfl
  | rest i acc acc' t t' ts ts' steps hpath _ _ _ _ ih => simp [ih, hpath]
  | block i acc acc' t ts ts' steps _ _ _ ih => simp [ih]
  | move i acc acc' t ts ts' steps cur nextStation _ _ ih => simp [ih]

/-- After the turn, the train of every move stands on the destination of the move. -/
theorem evalRel_dst {end_ : String} {occ : List (String × Nat)} {i : Nat}
    {acc acc' : TurnState} {ts ts' : List Train} {steps : List Step}
    (h : EvalRel end_ occ i acc ts ts' acc' steps) :
    ∀ s ∈ steps, ∃ t ∈ ts', t.path[t.pos]? = some s.dst := by
  induction h with
  | nil i acc => simp
  | rest i acc acc' t t' ts ts' steps _ _ _ _ _ ih =>
    intro s hs
    obtain ⟨x, hx, hxs⟩ := ih s hs
    exact ⟨x, List.mem_cons_of_mem _ hx, hxs⟩
  | block i acc acc' t ts ts' steps _ _ _ ih =>
    intro s hs
    obtain ⟨x, hx, hxs⟩ := ih s hs
    exact ⟨x, List.mem_cons_of_mem _ hx, hxs⟩
  | move i acc acc' t ts ts' steps cur nextStation hmove _ ih =>
    intro s hs
    rcases List.mem_cons.mp hs with rfl | hs
    · exact ⟨_, List.mem_cons_self _ _, hmove.2.2.1⟩
    · obtain ⟨x, hx, hxs⟩ := ih s hs
      exact ⟨x, List.mem_cons_of_mem _ hx, hxs⟩

theorem getLast?_take_drop_one (p : List String) (k : Nat) (start x : String)
    (h0 : p[0]? = some start) (hk : p[k]? = some x) :
    ((p.take (k + 1)).drop 1).getLast?.getD start = x := by
  cases k with
  | zero =>
    rw [h0] at hk
    cases p with
    | nil => simp at h0
    | cons a t =>
      simp only [List.take_succ_cons, List.take_zero, List.drop_one, List.tail_cons,
        List.getLast?_nil, Option.getD_none]
      exact Option.some.inj hk
  | succ k =>
    have hlt : k + 1 < p.length := by
      by_contra hge
      rw [List.getElem?_eq_none (by omega)] at hk
      simp at hk
    have hlt' : k < p.length := by omega
    rw [List.take_succ, hk]
    simp only [Option.toList_some]
    rw [List.drop_append_of_le_length (by simp only [List.length_take]; omega)]
    simp

/-- Before the turn, the train of every move stands on the source of the move, which is
where the records so far have left it, and the move follows its path. -/
theorem evalRel_src {end_ : String} {occ : List (String × Nat)} {i : Nat}
    {acc acc' : TurnState} {ts ts' : List Train} {steps : List Step}
    (h : EvalRel end_ occ i acc ts ts' acc' steps) (start : String)
    (turns : List (List (Nat × String))) (htr : Traced turns i ts)
    (hstart : ∀ t ∈ ts, t.path[0]? = some start) :
    ∀ s ∈ steps, trainAt start turns (s.train + 1) = s.src ∧
      ∃ t ∈ ts, t.path[t.pos]? = some s.src ∧ t.path[t.pos + 1]? = some s.dst := by
  induction h with
  | nil i acc => simp
  | rest i acc acc' t t' ts ts' steps _ _ _ _ _ ih =>
    intro s hs
    obtain ⟨h1, x, hx, hxs⟩ := ih htr.2 (fun t ht => hstart t (List.mem_cons_of_mem _ ht)) s hs
    exact ⟨h1, x, List.mem_cons_of_mem _ hx, hxs⟩
  | block i acc acc' t ts ts' steps _ _ _ ih =>
    intro s hs
    obtain ⟨h1, x, hx, hxs⟩ := ih htr.2 (fun t ht => hstart t (List.mem_cons_of_mem _ ht)) s hs
    exact ⟨h1, x, List.mem_cons_of_mem _ hx, hxs⟩
  | move i acc acc' t ts ts' steps cur nextStation hmove _ ih =>
    intro s hs
    rcases List.mem_cons.mp hs with rfl | hs
    · refine ⟨?_, t, List.mem_cons_self _ _, hmove.2.1, hmove.2.2.1⟩
      simp only [trainAt]
      rw [htr.1]
      exact getLast?_take_drop_one t.path t.pos start cur
        (hstart t (List.mem_cons_self _ _)) hmove.2.1
    · obtain ⟨h1, x, hx, hxs⟩ :=
        ih htr.2 (fun t ht => hstart t (List.mem_cons_of_mem _ ht)) s hs
      exact ⟨h1, x, List.mem_cons_of_mem _ hx, hxs⟩

/-- In a turn without moves every train is on its last station or blocked. -/
theorem evalRel_stuck {end_ : String} {occ : List (String × Nat)} {i : Nat}
    {acc acc' : TurnState} {ts ts' : List Train} {steps : List Step}
    (h : EvalRel end_ occ i acc ts ts' acc' steps) (hnil : steps = []) :
    ∀ t ∈ ts, (t.arrived = true ∨ t.pos + 1 = t.path.length) ∨ Blocked end_ occ acc t := by
  induction h with
  | nil i acc => simp
  | rest i acc acc' t t' ts ts' steps _ _ hdone _ _ ih =>
    intro x hx
    rcases List.mem_cons.mp hx with rfl | hx
    · exact Or.inl hdone
    · exact ih hnil x hx
  | block i acc acc' t ts ts' steps _ hblock _ ih =>
    intro x hx
    rcases List.mem_cons.mp hx with rfl | hx
    · exact Or.inr hblock
    · exact ih hnil x hx
  | move i acc acc' t ts ts' steps cur nextStation _ _ _ => simp at hnil

theorem trackExclusive_snoc (start : String) (turns : List (List (Nat × String)))
    (rec : List (Nat × String)) (h : TrackExclusive start turns)
    (hrec : TurnTrackExclusive start turns rec) : TrackExclusive start (turns ++ [rec]) := by
  intro pre r post heq
  rcases List.eq_nil_or_concat post with rfl | ⟨post', x, rfl⟩
  · have := List.append_inj' heq (by simp)
    obtain ⟨h1, h2⟩ := this
    simp only [List.cons.injEq, and_true] at h2
    subst h1 h2
    exact hrec
  · have heq' : turns ++ [rec] = (pre ++ r :: post') ++ [x] := by
      rw [heq]; simp
    have := List.append_inj' heq' (by simp)
    exact h pre r post' this.1

theorem mem_of_map_path_eq {ts ts' : List Train} (h : ts'.map Train.path = ts.map Train.path)
    (t : Train) (ht : t ∈ ts') : ∃ x ∈ ts, x.path = t.path := by
  have : t.path ∈ ts.map Train.path := by
    rw [← h]
    exact List.mem_map.mpr ⟨t, ht, rfl⟩
  obtain ⟨x, hx, hxp⟩ := List.mem_map.mp this
  exact ⟨x, hx, hxp⟩

/-- Two moves of one turn do not run over the same track. -/
theorem turn_track_exclusive (network : Network) (start end_ : String) (trains trains' : List Train)
    (occ : List (String × Nat)) (turns : List (List (Nat × String))) (acc : TurnState)
    (steps : List Step) (inv : RunInv network start end_ trains occ turns)
    (hrel : EvalRel end_ occ 0 TurnState.init trains trains' acc steps) :
    TurnTrackExclusive start turns (steps.map Step.move) := by
  intro m1 hm1 m2 hm2 hne hsame
  obtain ⟨s1, hs1, rfl⟩ := List.mem_map.mp hm1
  obtain ⟨s2, hs2, rfl⟩ := List.mem_map.mp hm2
  simp only [Step.move] at hne hsame
  have hstart : ∀ t ∈ trains, t.path[0]? = some start := fun t ht =>
    route_first network start end_ t.path (inv.routes t ht).1
  obtain ⟨ha1, t1, ht1, hsrc1, hdst1⟩ := evalRel_src hrel start turns inv.traced hstart s1 hs1
  obtain ⟨ha2, t2, ht2, hsrc2, hdst2⟩ := evalRel_src hrel start turns inv.traced hstart s2 hs2
  rw [ha1, ha2] at hsame
  have hs : s1 ≠ s2 := fun e => hne (by rw [e])
  have hsymm : Symmetric (fun a b : Step => (a.dst = b.dst → a.dst = end_) ∧ a.key ≠ b.key) := by
    intro a b hab
    exact ⟨fun e => e ▸ hab.1 e.symm, fun e => hab.2 e.symm⟩
  have hkey := ((evalRel_exclusive hrel).forall hsymm hs1 hs2 hs).2
  rcases hsame with ⟨h1, h2⟩ | ⟨h1, h2⟩
  · apply hkey
    simp only [Step.key, h1, h2]
  · have e1 := shortest_index_unique network start end_ t1.path t2.path (inv.routes t1 ht1)
      (inv.routes t2 ht2) t1.pos (t2.pos + 1) s1.src hsrc1 (h1 ▸ hdst2)
    have e2 := shortest_index_unique network start end_ t1.path t2.path (inv.routes t1 ht1)
      (inv.routes t2 ht2) (t1.pos + 1) t2.pos s1.dst hdst1 (h2 ▸ hsrc2)
    omega

/-- Every turn with moves keeps the invariant. -/
theorem runInv_step (network : Network) (start end_ : String) (trains trains' : List Train)
    (occ : List (String × Nat)) (turns : List (List (Nat × String))) (acc : TurnState)
    (steps : List Step) (inv : RunInv network start end_ trains occ turns)
    (hrel : EvalRel end_ occ 0 TurnState.init trains trains' acc steps) :
    RunInv network start end_ trains' acc.stationNextOccupied (turns ++ [steps.map Step.move]) where
  routes := by
    intro t ht
    obtain ⟨x, hx, hxp⟩ := mem_of_map_path_eq (evalRel_paths hrel) t ht
    rw [← hxp]
    exact inv.routes x hx
  ok := evalRel_ok hrel inv.ok
  traced := by
    have := traced_step hrel turns [] (by simp) inv.traced
    simpa using this
  held := by
    intro k hk
    have := (evalRel_occupied hrel k).mp hk
    simp only [TurnState.init, mapHas_nil, Bool.false_eq_true, false_or] at this
    obtain ⟨hne, s, hs, rfl⟩ := this
    exact ⟨hne, evalRel_dst hrel s hs⟩
  exclusive :=
    trackExclusive_snoc start turns _ inv.exclusive
      (turn_track_exclusive network start end_ trains trains' occ turns acc steps inv hrel)

/-- No deadlock: when a turn makes no move, every train is on its last station. -/
theorem runInv_stuck (network : Network) (start end_ : String) (trains trains' : List Train)
    (occ : List (String × Nat)) (turns : List (List (Nat × String))) (acc : TurnState)
    (inv : RunInv network start end_ trains occ turns)
    (hrel : EvalRel end_ occ 0 TurnState.init trains trains' acc []) :
    ∀ t ∈ trains, t.pos + 1 = t.path.length := by
  have hstuck := evalRel_stuck hrel rfl
  have key : ∀ (d : Nat) (t : Train), t ∈ trains → t.path.length - (t.pos + 1) = d →
      t.pos + 1 = t.path.length := by
    intro d
    induction d using Nat.strong_induction_on with
    | _ d ih =>
      intro t ht hd
      have hok := inv.ok t ht
      rcases hstuck t ht with (h1 | h1) | hb
      · exact hok.2 h1
      · exact h1
      · obtain ⟨cur, nextStation, -, hn, hblock⟩ := hb
        simp only [TurnState.init, mapHas_nil, Bool.false_eq_true, or_false, mapGetBool_nil,
          or_false] at hblock
        obtain ⟨hne, hocc⟩ := hblock
        obtain ⟨-, t2, ht2, hpos2⟩ := inv.held nextStation hocc
        have e := shortest_index_unique network start end_ t.path t2.path (inv.routes t ht)
          (inv.routes t2 ht2) (t.pos + 1) t2.pos nextStation hn hpos2
        have hlen := shortest_length_eq network start end_ t.path t2.path (inv.routes t ht)
          (inv.routes t2 ht2)
        have hlt : t.pos + 1 < t.path.length := by
          by_contra hge
          rw [List.getElem?_eq_none (by omega)] at hn
          simp at hn
        have h2 := ih (t2.path.length - (t2.pos + 1)) (by omega) t2 ht2 rfl
        have hend := route_last network start end_ t2.path (inv.routes t2 ht2).1 t2.pos h2
        rw [hend] at hpos2
        exact absurd (Option.some.inj hpos2).symm hne
  intro t ht
  exact key _ t ht rfl

theorem traced_nil (ts : List Train) (h : ∀ t ∈ ts, t.pos = 0) : ∀ i, Traced [] i ts := by
  induction ts with
  | nil => intro i; trivial
  | cons t ts ih =>
    intro i
    refine ⟨?_, ih (fun x hx => h x (List.mem_cons_of_mem _ hx)) (i + 1)⟩
    rw [h t (List.mem_cons_self _ _)]
    cases ht : t.path with
    | nil => simp [trainDests]
    | cons a l => simp [trainDests]

theorem assignTrains_path_mem (paths : List (List String)) (numTrains : Nat) (hne : paths ≠ []) :
    ∀ t ∈ assignTrains paths numTrains, t.path ∈ paths ∧ t.pos = 0 := by
  intro t ht
  unfold assignTrains at ht
  obtain ⟨i, -, rfl⟩ := List.mem_map.mp ht
  have hlen : 0 < paths.length := List.length_pos.mpr hne
  have hlt : i % paths.length < paths.length := Nat.mod_lt _ hlen
  refine ⟨?_, rfl⟩
  simp only
  rw [List.getD_eq_getElem _ _ hlt]
  exact List.getElem_mem _

theorem assignTrains_get (paths : List (List String)) (numTrains j : Nat) (hj : j < numTrains) :
    ((assignTrains paths numTrains).map Train.path)[j]?
      = some (paths.getD (j % paths.length) []) := by
  unfold assignTrains
  rw [List.map_map, List.getElem?_map, List.getElem?_range hj]
  rfl

theorem runInv_init (network : Network) (start end_ : String) (paths : List (List String))
    (numTrains : Nat) (hpaths : findAllShortestPaths network start end_ = some paths)
    (hne : paths ≠ []) :
    RunInv network start end_ (assignTrains paths numTrains) [] [] where
  routes := by
    intro t ht
    obtain ⟨-, hmem⟩ := findAllShortestPaths_spec network start end_ paths hpaths
    exact (hmem t.path).mp (assignTrains_path_mem paths numTrains hne t ht).1
  ok := assignTrains_ok paths numTrains hne
    (findAllShortestPaths_ne_nil network start end_ paths hpaths)
  traced := traced_nil _ (fun t ht => (assignTrains_path_mem paths numTrains hne t ht).2) 0
  held := by
    intro k hk
    simp [mapHas_nil] at hk
  exclusive := by
    intro pre rec post h
    simp at h

/-- The run of the simulation over the enumerated routes: when it returns, the
invariant holds of the returned records, every train still has the path it was
assigned, and every train is on the last station of its path. -/
theorem simulate_run (network : Network) (start end_ : String) (paths : List (List String))
    (numTrains : Nat) (turns : List (List (Nat × String)))
    (hpaths : findAllShortestPaths network start end_ = some paths) (hne : paths ≠ [])
    (hsim : simulate paths end_ numTrains = some turns) :
    ∃ trainsF occF, RunInv network start end_ trainsF occF turns ∧
      trainsF.map Train.path = (assignTrains paths numTrains).map Train.path ∧
      ∀ t ∈ trainsF, t.pos + 1 = t.path.length := by
  unfold simulate at hsim
  obtain ⟨trainsF, occF, trains', acc, ⟨hinv, hp⟩, hrel⟩ :=
    simLoop_invariant end_
      (fun trains occ turns => RunInv network start end_ trains occ turns ∧
        trains.map Train.path = (assignTrains paths numTrains).map Train.path)
      (by
        intro trains occ turns trains' acc steps ⟨hinv, hp⟩ hrel _
        exact ⟨runInv_step network start end_ trains trains' occ turns acc steps hinv hrel,
          by rw [evalRel_paths hrel, hp]⟩)
      _ _ _ _ turns ⟨runInv_init network start end_ paths numTrains hpaths hne, rfl⟩ hsim
  exact ⟨trainsF, occF, hinv, hp,
    runInv_stuck network start end_ trainsF trains' occF turns acc hinv hrel⟩

/-- The moves of every train, read off the records, are its round-robin route without
the first station. -/
theorem simulate_trainDests (network : Network) (start end_ : String)
    (paths : List (List String)) (numTrains : Nat) (turns : List (List (Nat × String)))
    (hpaths : findAllShortestPaths network start end_ = some paths) (hne : paths ≠ [])
    (hsim : simulate paths end_ numTrains = some turns) (i : Nat) (h1 : 1 ≤ i)
    (h2 : i ≤ numTrains) :
    trainDests turns i = (paths.getD ((i - 1) % paths.length) []).tail := by
  obtain ⟨trainsF, occF, hinv, hp, hend⟩ :=
    simulate_run network start end_ paths numTrains turns hpaths hne hsim
  have hget := assignTrains_get paths numTrains (i - 1) (by omega)
  rw [← hp, List.getElem?_map] at hget
  cases ht : trainsF[i - 1]? with
  | none => simp [ht] at hget
  | some t =>
    simp only [ht, Option.map_some', Option.some.injEq] at hget
    have htr := traced_get turns trainsF 0 (i - 1) t hinv.traced ht
    have hi : 0 + (i - 1) + 1 = i := by omega
    rw [hi] at htr
    have hmem : t ∈ trainsF := List.getElem?_mem ht
    rw [htr, hend t hmem, List.take_length, hget, List.drop_one]

theorem filter_train_length_le_one (rec : List (Nat × String)) (i : Nat)
    (h : rec.Pairwise (fun a b => a.1 < b.1)) :
    (rec.filter (fun m => decide (m.1 = i))).length ≤ 1 := by
  have hp : (rec.filter (fun m => decide (m.1 = i))).Pairwise (fun a b => a.1 < b.1) :=
    h.sublist (List.filter_sublist _)
  have hall : ∀ m ∈ rec.filter (fun m => decide (m.1 = i)), m.1 = i := by
    intro m hm
    simpa using (List.mem_filter.mp hm).2
  cases hl : rec.filter (fun m => decide (m.1 = i)) with
  | nil => simp
  | cons a l =>
    cases l with
    | nil => simp
    | cons b l =>
      rw [hl] at hp hall
      have := (List.pairwise_cons.mp hp).1 b (by simp)
      have ha := hall a (by simp)
      have hb := hall b (by simp)
      omega

theorem route_tail_count_end (network : Network) (start end_ : String) (p : List String)
    (hp : IsRoute network start end_ p) (hne : start ≠ end_) : p.tail.count end_ = 1 := by
  obtain ⟨h1, h2, h3, -⟩ := hp
  cases p with
  | nil => simp at h1
  | cons a t =>
    simp only [List.head?_cons, Option.some.injEq] at h1
    subst h1
    simp only [List.tail_cons]
    have hmem : end_ ∈ t := by
      cases t with
      | nil =>
        simp only [List.getLast?_singleton, Option.some.injEq] at h2
        exact absurd h2 hne
      | cons b t' =>
        rw [List.getLast?_cons_cons] at h2
        exact List.mem_of_getLast?_eq_some h2
    exact List.count_eq_one_of_mem (List.nodup_cons.mp h3).2 hmem

/-- The pieces of a successful call of `FindTrainMovements`: the routes, the turns of
the simulation over them, and the result that renders the turns. -/
theorem FindTrainMovements_connected (network : Network) (start end_ : String)
    (numTrains : Nat) (hconn : ∃ w, IsWalk network start end_ w) :
    ∃ routes turns, findAllShortestPaths network start end_ = some routes ∧ routes ≠ [] ∧
      simulate routes end_ numTrains = some turns ∧
      FindTrainMovements network start end_ numTrains = some (turns.map renderTurn, none) := by
  obtain ⟨routes, hroutes⟩ := findAllShortestPaths_returns network start end_
  have hnil := findAllShortestPaths_eq_nil_iff network start end_ routes hroutes
  rw [exists_route_iff_exists_walk] at hnil
  rcases FindTrainMovements_eq network start end_ numTrains routes hroutes with
    ⟨hp, -⟩ | ⟨hp, turns, hsim, hres⟩
  · exact absurd hconn (hnil.mp hp)
  · exact ⟨routes, turns, hroutes, hp, hsim, hres⟩

theorem diamond_connected : ∃ w, IsWalk diamond "a" "c" w :=
  ⟨["a", "b", "c"], rfl, rfl,
    List.chain'_cons.mpr ⟨by decide, List.chain'_cons.mpr ⟨by decide, List.chain'_singleton _⟩⟩⟩

/-! ## Rendering of the records, and dependence on the iteration order -/

/-- A larger budget does not change what `bfsLoop` returns. -/
theorem bfsLoop_mono (network : Network) (end_ : String) :
    ∀ (fuel : Nat) (s : BfsState) (r : List (List String)),
      bfsLoop network end_ fuel s = some r →
      ∀ fuel', fuel ≤ fuel' → bfsLoop network end_ fuel' s = some r := by
  intro fuel
  induction fuel with
  | zero =>
    intro s r h fuel' _
    obtain ⟨queue, results, minLen⟩ := s
    cases queue with
    | nil =>
      rw [bfsLoop_nil] at h ⊢
      exact h
    | cons n queue => simp [bfsLoop] at h
  | succ fuel ih =>
    intro s r h fuel' hle
    obtain ⟨queue, results, minLen⟩ := s
    cases queue with
    | nil =>
      rw [bfsLoop_nil] at h ⊢
      exact h
    | cons n queue =>
      obtain ⟨k, rfl⟩ : ∃ k, fuel' = k + 1 := ⟨fuel' - 1, by omega⟩
      rw [bfsLoop_cons] at h ⊢
      cases hstep : bfsStep network end_ n queue results minLen with
      | none => simp [hstep] at h
      | some s' =>
        simp only [hstep, Option.some_bind] at h ⊢
        exact ih s' r h k (by omega)

theorem bfsLoop_congr (n1 n2 : Network) (h : SameIteration n1 n2) (end_ : String) :
    ∀ (fuel : Nat) (s : BfsState), bfsLoop n1 end_ fuel s = bfsLoop n2 end_ fuel s := by
  have hstep : ∀ n queue results minLen,
      bfsStep n1 end_ n queue results minLen = bfsStep n2 end_ n queue results minLen := by
    intro n queue results minLen
    unfold bfsStep expand
    simp only [h _]
  intro fuel
  induction fuel with
  | zero =>
    intro s
    obtain ⟨queue, results, minLen⟩ := s
    cases queue with
    | nil => rw [bfsLoop_nil, bfsLoop_nil]
    | cons n queue => simp [bfsLoop]
  | succ fuel ih =>
    intro s
    obtain ⟨queue, results, minLen⟩ := s
    cases queue with
    | nil => rw [bfsLoop_nil, bfsLoop_nil]
    | cons n queue =>
      rw [bfsLoop_cons, bfsLoop_cons, hstep]
      cases bfsStep n2 end_ n queue results minLen with
      | none => rfl
      | some s' => exact ih s'

/-- With the same iteration order, the enumeration returns the same list. -/
theorem findAllShortestPaths_congr (n1 n2 : Network) (h : SameIteration n1 n2)
    (start end_ : String) :
    findAllShortestPaths n1 start end_ = findAllShortestPaths n2 start end_ := by
  obtain ⟨r1, h1⟩ := findAllShortestPaths_returns n1 start end_
  obtain ⟨r2, h2⟩ := findAllShortestPaths_returns n2 start end_
  rw [h1, h2]
  unfold findAllShortestPaths at h1 h2
  have e1 := bfsLoop_mono n1 end_ _ _ r1 h1 (max (bfsFuel n1) (bfsFuel n2)) (le_max_left _ _)
  have e2 := bfsLoop_mono n2 end_ _ _ r2 h2 (max (bfsFuel n1) (bfsFuel n2)) (le_max_right _ _)
  rw [bfsLoop_congr n1 n2 h] at e1
  rw [e1] at e2
  exact e2

theorem isRoute_sameGraph (n1 n2 : Network) (h : SameGraph n1 n2) (start end_ : String)
    (p : List String) (hp : IsRoute n1 start end_ p) : IsRoute n2 start end_ p := by
  obtain ⟨h1, h2, h3, h4⟩ := hp
  refine ⟨h1, h2, h3, h4.imp ?_⟩
  intro u v huv
  exact (h u).mem_iff.mp huv

theorem sameGraph_symm {n1 n2 : Network} (h : SameGraph n1 n2) : SameGraph n2 n1 :=
  fun s => (h s).symm

theorem isShortestRoute_sameGraph (n1 n2 : Network) (h : SameGraph n1 n2) (start end_ : String)
    (p : List String) (hp : IsShortestRoute n1 start end_ p) : IsShortestRoute n2 start end_ p :=
  ⟨isRoute_sameGraph n1 n2 h start end_ p hp.1,
    fun q hq => hp.2 q (isRoute_sameGraph n2 n1 (sameGraph_symm h) start end_ q hq)⟩

theorem diamond_sameGraph : SameGraph diamond diamondRev := by
  intro s
  unfold Network.neighbors diamond diamondRev diamondWith
  simp only [List.lookup]
  split
  · exact List.Perm.swap _ _ _
  · exact List.Perm.refl _

/-! ## Direct connections and the states that the loop reaches -/

theorem direct_route (network : Network) (start end_ : String) (hne : start ≠ end_)
    (hadj : end_ ∈ network.neighbors start) : IsRoute network start end_ [start, end_] := by
  refine ⟨rfl, rfl, ?_, ?_⟩
  · simp [hne]
  · exact List.chain'_cons.mpr ⟨hadj, List.chain'_singleton _⟩

theorem route_length_two_le (network : Network) (start end_ : String) (hne : start ≠ end_)
    (p : List String) (hp : IsRoute network start end_ p) : 2 ≤ p.length := by
  obtain ⟨h1, h2, -, -⟩ := hp
  cases p with
  | nil => simp at h1
  | cons a t =>
    cases t with
    | nil =>
      simp only [List.head?_cons, Option.some.injEq, List.getLast?_singleton] at h1 h2
      exact absurd (h1.symm.trans h2) hne
    | cons b t => simp

/-- When `end_` is a neighbour of `start`, the shortest routes are the one route
`[start, end_]`. -/
theorem shortestRoute_direct_iff (network : Network) (start end_ : String) (hne : start ≠ end_)
    (hadj : end_ ∈ network.neighbors start) (p : List String) :
    IsShortestRoute network start end_ p ↔ p = [start, end_] := by
  constructor
  · rintro ⟨hp, hmin⟩
    have h2 := route_length_two_le network start end_ hne p hp
    have h3 := hmin _ (direct_route network start end_ hne hadj)
    simp only [List.length_cons, List.length_nil] at h3
    obtain ⟨h1, hl, -, -⟩ := hp
    cases p with
    | nil => simp at h1
    | cons a t =>
      cases t with
      | nil => simp at h2
      | cons b t =>
        cases t with
        | nil =>
          simp only [List.head?_cons, Option.some.injEq] at h1
          rw [List.getLast?_cons_cons, List.getLast?_singleton] at hl
          simp only [Option.some.injEq] at hl
          rw [h1, hl]
        | cons c t =>
          simp only [List.length_cons] at h3
          omega
  · rintro rfl
    refine ⟨direct_route network start end_ hne hadj, ?_⟩
    intro q hq
    exact route_length_two_le network start end_ hne q hq

theorem eq_singleton_of_nodup_of_mem_iff {α : Type} (r : List α) (a : α) (hnd : r.Nodup)
    (h : ∀ p, p ∈ r ↔ p = a) : r = [a] := by
  cases r with
  | nil =>
    have := (h a).mpr rfl
    simp at this
  | cons x t =>
    have hx : x = a := (h x).mp (List.mem_cons_self _ _)
    subst hx
    cases t with
    | nil => rfl
    | cons y t =>
      have hy : y = x := (h y).mp (by simp)
      subst hy
      simp at hnd

theorem findAllShortestPaths_direct (network : Network) (hnet : network.DistinctNeighbors)
    (start end_ : String) (hne : start ≠ end_) (hadj : end_ ∈ network.neighbors start) :
    findAllShortestPaths network start end_ = some [[start, end_]] := by
  obtain ⟨r, hr⟩ := findAllShortestPaths_returns network start end_
  obtain ⟨hnd, hmem⟩ := findAllShortestPaths_spec network start end_ r hr
  rw [hr]
  congr 1
  apply eq_singleton_of_nodup_of_mem_iff r _ (hnd hnet)
  intro p
  rw [hmem, shortestRoute_direct_iff network start end_ hne hadj]

/-- Every state that the loop reaches over the enumerated routes satisfies the
invariant. -/
theorem loopReach_runInv (network : Network) (start end_ : String) (paths : List (List String))
    (numTrains : Nat) (hpaths : findAllShortestPaths network start end_ = some paths)
    (hne : paths ≠ []) (k : Nat) (trains : List Train) (occ : List (String × Nat))
    (turns : List (List (Nat × String)))
    (h : LoopReach end_ (assignTrains paths numTrains) k trains occ turns) :
    RunInv network start end_ trains occ turns := by
  induction h with
  | start => exact runInv_init network start end_ paths numTrains hpaths hne
  | turn k trains trains' occ turns acc _ heval hprogress ih =>
    obtain ⟨steps, hrel⟩ := evalTrains_rel end_ occ trains 0 TurnState.init trains' acc heval
    obtain ⟨hm, hp⟩ := evalRel_init_moves hrel
    have hne' : steps ≠ [] := by
      intro h
      rw [hprogress, h] at hp
      simp at hp
    have hlen : 0 < acc.moveThisTurn.length := by
      rw [hm, List.length_map]
      exact List.length_pos.mpr hne'
    rw [if_pos hlen, hm]
    exact runInv_step network start end_ trains trains' occ turns acc steps ih hrel

/-- Over the enumerated routes, a turn evaluated while a train is off the end station
makes a move. -/
theorem runInv_progress (network : Network) (start end_ : String) (trains : List Train)
    (occ : List (String × Nat)) (turns : List (List (Nat × String)))
    (inv : RunInv network start end_ trains occ turns)
    (hoff : ∃ t ∈ trains, t.path[t.pos]? ≠ some end_) :
    ∃ trains' acc, evalTrains end_ occ 0 trains TurnState.init = some (trains', acc) ∧
      acc.moveThisTurn ≠ [] ∧ acc.progress = true := by
  obtain ⟨⟨trains', acc⟩, hev⟩ := evalTrains_returns end_ occ trains 0 TurnState.init inv.ok
  obtain ⟨steps, hrel⟩ := evalTrains_rel end_ occ trains 0 TurnState.init trains' acc hev
  obtain ⟨hm, hp⟩ := evalRel_init_moves hrel
  have hne : steps ≠ [] := by
    rintro rfl
    obtain ⟨t, ht, hoff⟩ := hoff
    have hlast := runInv_stuck network start end_ trains trains' occ turns acc inv hrel t ht
    exact hoff (route_last network start end_ t.path (inv.routes t ht).1 t.pos hlast)
  refine ⟨trains', acc, hev, ?_, ?_⟩
  · rw [hm]
    simpa using hne
  · rw [hp]
    cases steps with
    | nil => exact absurd rfl hne
    | cons s l => rfl

theorem remaining_assignTrains (paths : List (List String)) (numTrains L : Nat)
    (hne : paths ≠ []) (hL : ∀ p ∈ paths, edgeCount p = L) :
    remaining (assignTrains paths numTrains) = numTrains * L := by
  unfold remaining
  have hall : ∀ x ∈ (assignTrains paths numTrains).map (fun t => t.path.length - 1 - t.pos),
      x = L := by
    intro x hx
    obtain ⟨t, ht, rfl⟩ := List.mem_map.mp hx
    obtain ⟨hmem, hpos⟩ := assignTrains_path_mem paths numTrains hne t ht
    have := hL t.path hmem
    unfold edgeCount at this
    rw [hpos]
    omega
  rw [List.eq_replicate_of_mem hall]
  simp [assignTrains]

/-- The simulation returns at most as many records as the trains have moves to make. -/
theorem simulate_length_le (paths : List (List String)) (end_ : String) (numTrains : Nat)
    (turns : List (List (Nat × String))) (h : simulate paths end_ numTrains = some turns) :
    turns.length ≤ remaining (assignTrains paths numTrains) := by
  unfold simulate at h
  obtain ⟨trainsF, occF, trains', acc, hinv, -⟩ :=
    simLoop_invariant end_
      (fun trains _ turns =>
        turns.length + remaining trains ≤ remaining (assignTrains paths numTrains))
      (by
        intro trains occ turns trains' acc steps hinv hrel hne
        have h1 := evalRel_remaining hrel
        have h2 := List.length_pos.mpr hne
        simp only [List.length_append, List.length_singleton]
        omega)
      _ _ _ _ turns (by simp) h
  omega

theorem trainAt_of_dests_tail (network : Network) (start end_ : String) (p : List String)
    (hp : IsRoute network start end_ p) (turns : List (List (Nat × String))) (i : Nat)
    (h : trainDests turns i = p.tail) : trainAt start turns i = end_ := by
  unfold trainAt
  rw [h]
  obtain ⟨h1, h2, -, -⟩ := hp
  cases p with
  | nil => simp at h1
  | cons a t =>
    simp only [List.head?_cons, Option.some.injEq] at h1
    subst h1
    cases t with
    | nil =>
      simp only [List.getLast?_singleton, Option.some.injEq] at h2
      simp [h2]
    | cons b t =>
      rw [List.getLast?_cons_cons] at h2
      simp [h2]

theorem loopReach_length (end_ : String) (trains0 : List Train) (k : Nat) (trains : List Train)
    (occ : List (String × Nat)) (turns : List (List (Nat × String)))
    (h : LoopReach end_ trains0 k trains occ turns) : turns.length = k := by
  induction h with
  | start => rfl
  | turn k trains trains' occ turns acc _ heval hprogress ih =>
    obtain ⟨steps, hrel⟩ := evalTrains_rel end_ occ trains 0 TurnState.init trains' acc heval
    obtain ⟨hm, hp⟩ := evalRel_init_moves hrel
    have hne : steps ≠ [] := by
      intro h
      rw [hprogress, h] at hp
      simp at hp
    have hlen : 0 < acc.moveThisTurn.length := by
      rw [hm, List.length_map]
      exact List.length_pos.mpr hne
    rw [if_pos hlen, List.length_append, ih]
    rfl

/-- When `simLoop` returns, the loop has reached a state whose turn makes no progress,
and the records of that state are what is returned. -/
theorem simLoop_reach (end_ : String) (trains0 : List Train) :
    ∀ (fuel k : Nat) (trains : List Train) (occ : List (String × Nat))
      (turns out : List (List (Nat × String))),
      LoopReach end_ trains0 k trains occ turns →
      simLoop end_ fuel trains occ turns = some out →
      ∃ kF trainsF occF trains' acc, LoopReach end_ trains0 kF trainsF occF out ∧
        evalTrains end_ occF 0 trainsF TurnState.init = some (trains', acc) ∧
        acc.progress = false := by
  intro fuel
  induction fuel with
  | zero => intro _ _ _ _ _ _ h; simp [simLoop] at h
  | succ fuel ih =>
    intro k trains occ turns out hreach h
    rw [simLoop_succ] at h
    cases hev : evalTrains end_ occ 0 trains TurnState.init with
    | none => simp [hev] at h
    | some r =>
      obtain ⟨trains', acc⟩ := r
      simp only [hev, Option.some_bind] at h
      cases hp : acc.progress with
      | false =>
        obtain ⟨steps, hrel⟩ := evalTrains_rel end_ occ trains 0 TurnState.init trains' acc hev
        obtain ⟨hm, hp'⟩ := evalRel_init_moves hrel
        have hnil : steps = [] := by
          rw [hp] at hp'
          cases steps with
          | nil => rfl
          | cons s l => simp at hp'
        rw [hnil] at hm
        simp only [hp, hm, Bool.not_false, ↓reduceIte, List.map_nil, List.length_nil,
          gt_iff_lt, lt_self_iff_false, Option.some.injEq] at h
        subst h
        exact ⟨k, trains, occ, trains', acc, hreach, hev, hp⟩
      | true =>
        simp only [hp, Bool.not_true, Bool.false_eq_true, ↓reduceIte] at h
        exact ih (k + 1) trains' acc.stationNextOccupied _ out
          (LoopReach.turn k trains trains' occ turns acc hreach hev hp) h

/-- What a turn does with the occupancy maps: no move enters a station that the map
of the previous turn holds, and the map handed to the next turn holds exactly the
stations other than `end_` that the moves of this turn enter. -/
theorem evalTrains_occupancy (end_ : String) (occ : List (String × Nat))
    (trains trains' : List Train) (acc : TurnState)
    (h : evalTrains end_ occ 0 trains TurnState.init = some (trains', acc)) :
    (∀ m ∈ acc.moveThisTurn, m.2 ≠ end_ → mapHas occ m.2 = false) ∧
      ∀ k, mapHas acc.stationNextOccupied k = true ↔
        k ≠ end_ ∧ ∃ m ∈ acc.moveThisTurn, m.2 = k := by
  obtain ⟨steps, hrel⟩ := evalTrains_rel end_ occ trains 0 TurnState.init trains' acc h
  obtain ⟨hm, -⟩ := evalRel_init_moves hrel
  constructor
  · intro m hmem hne
    rw [hm] at hmem
    obtain ⟨s, hs, rfl⟩ := List.mem_map.mp hmem
    exact ((evalRel_free hrel s hs).1 hne).1
  · intro k
    rw [evalRel_occupied hrel k, hm]
    simp only [TurnState.init, mapHas_nil, Bool.false_eq_true, false_or, List.mem_map,
      exists_exists_and_eq_and, Step.move]

/-- In the records that the simulation returns, no station other than `end_` is a
destination in two consecutive records. -/
theorem simulate_noReentry (paths : List (List String)) (end_ : String) (numTrains : Nat)
    (turns : List (List (Nat × String))) (h : simulate paths end_ numTrains = some turns) :
    turns.Chain' (NoReentry end_) := by
  unfold simulate at h
  obtain ⟨trainsF, occF, trains', acc, ⟨hinv, -⟩, -⟩ :=
    simLoop_invariant end_
      (fun _ occ turns => turns.Chain' (NoReentry end_) ∧
        ∀ r, turns.getLast? = some r → ∀ m ∈ r, m.2 ≠ end_ → mapHas occ m.2 = true)
      (by
        intro trains occ turns trains' acc steps ⟨hchain, hlast⟩ hrel _
        constructor
        · rw [List.chain'_append]
          refine ⟨hchain, List.chain'_singleton _, ?_⟩
          intro r hr r' hr'
          simp only [List.head?_cons, Option.mem_def, Option.some.injEq] at hr'
          subst hr'
          intro m hm m' hm' hne heq
          obtain ⟨s, hs, rfl⟩ := List.mem_map.mp hm'
          have h1 := hlast r hr m hm hne
          have heq' : s.dst = m.2 := heq
          have h2 := ((evalRel_free hrel s hs).1 (by rw [heq']; exact hne)).1
          rw [heq', h1] at h2
          exact absurd h2 (by simp)
        · intro r hr m hm hne
          rw [List.getLast?_append_of_ne_nil _ (List.cons_ne_nil _ _),
            List.getLast?_singleton] at hr
          simp only [Option.some.injEq] at hr
          subst hr
          obtain ⟨s, hs, rfl⟩ := List.mem_map.mp hm
          rw [evalRel_occupied hrel]
          right
          exact ⟨hne, s, hs, rfl⟩)
      _ _ _ _ turns ⟨List.chain'_nil, by simp⟩ h
  exact hinv

/-! ## The schedule of a single route, and priority within a turn -/

theorem directTrain_step (start end_ : String) (t k : Nat) :
    stepTrain end_ [] k (directTrain start end_ t k) (directAcc start end_ t k)
      = some (directTrain start end_ (t + 1) k, directAcc start end_ t (k + 1)) := by
  rcases Nat.lt_trichotomy k t with hlt | heq | hgt
  · by_cases h1 : k + 1 < t
    · have e1 : k < t + 1 := by omega
      have e2 : k + 1 ≤ t := by omega
      have e3 : k ≤ t := by omega
      simp [stepTrain, directTrain, directAcc, hlt, h1, e1, e2, e3]
    · have e1 : k < t + 1 := by omega
      have e2 : k + 1 ≤ t := by omega
      have e3 : k ≤ t := by omega
      simp [stepTrain, directTrain, directAcc, hlt, h1, e1, e2, e3]
  · subst heq
    simp [stepTrain, directTrain, directAcc, TurnState.move, TurnState.init, mapGetBool]
  · have e1 : ¬ k < t := by omega
    have e2 : ¬ k + 1 < t := by omega
    have e3 : ¬ k ≤ t := by omega
    have e4 : ¬ k < t + 1 := by omega
    have e5 : ¬ k + 1 ≤ t := by omega
    have hused : mapGetBool (mapSet [] (start ++ ":" ++ end_) true) (start ++ ":" ++ end_)
        = true := (mapGetBool_mapSet [] _ _).mpr (Or.inl rfl)
    simp [stepTrain, directTrain, directAcc, TurnState.move, TurnState.init, e1, e2, e3, e4,
      e5, hused]

theorem directTrain_eval (start end_ : String) (t : Nat) :
    ∀ (m k : Nat),
      evalTrains end_ [] k ((List.range' k m).map (directTrain start end_ t))
          (directAcc start end_ t k)
        = some ((List.range' k m).map (directTrain start end_ (t + 1)),
            directAcc start end_ t (k + m)) := by
  intro m
  induction m with
  | zero => intro k; simp [evalTrains]
  | succ m ih =>
    intro k
    simp only [List.range'_succ, List.map_cons]
    have hk : k + 1 + m = k + (m + 1) := by omega
    rw [evalTrains_cons, directTrain_step, Option.some_bind, ih (k + 1), Option.some_bind, hk]

theorem directTrains_turn (start end_ : String) (numTrains t : Nat) :
    evalTrains end_ [] 0 (directTrains start end_ numTrains t) TurnState.init
      = some (directTrains start end_ numTrains (t + 1), directAcc start end_ t numTrains) := by
  have := directTrain_eval start end_ t numTrains 0
  simp only [directAcc, Nat.zero_le, ↓reduceIte, Nat.zero_add] at this
  exact this

/-- On the one-track route the loop plays one turn for each train that has not moved,
and records the move of train `t + 1` in turn `t + 1`. -/
theorem directTrains_loop (start end_ : String) (numTrains : Nat) :
    ∀ (fuel t : Nat) (turns : List (List (Nat × String))), t ≤ numTrains →
      numTrains + 1 ≤ fuel + t →
      simLoop end_ fuel (directTrains start end_ numTrains t) [] turns
        = some (turns ++ (List.range' t (numTrains - t)).map (fun j => [(j + 1, end_)])) := by
  intro fuel
  induction fuel with
  | zero =>
    intro t turns h1 h2
    omega
  | succ fuel ih =>
    intro t turns h1 h2
    rw [simLoop_succ, directTrains_turn, Option.some_bind]
    by_cases hlt : t < numTrains
    · have hle : ¬ numTrains ≤ t := by omega
      have hr : numTrains - t = (numTrains - (t + 1)) + 1 := by omega
      simp only [directAcc, hle, ↓reduceIte, TurnState.move, TurnState.init, List.nil_append,
        Bool.not_true, Bool.false_eq_true, List.length_singleton, gt_iff_lt, Nat.lt_one_iff,
        Nat.pos_of_ne_zero, ne_eq, not_true_eq_false, Nat.zero_lt_one]
      rw [ih (t + 1) _ (by omega) (by omega), hr, List.range'_succ]
      simp
    · have hle : numTrains ≤ t := by omega
      have hr : numTrains - t = 0 := by omega
      simp [directAcc, hle, TurnState.init, hr]

theorem assignTrains_direct (start end_ : String) (numTrains : Nat) :
    assignTrains [[start, end_]] numTrains = directTrains start end_ numTrains 0 := by
  unfold assignTrains directTrains directTrain
  rw [List.range_eq_range']
  apply List.map_congr_left
  intro i _
  simp [Nat.mod_one]

theorem simFuel_direct (start end_ : String) (numTrains : Nat) :
    simFuel (directTrains start end_ numTrains 0) = 2 * numTrains + 1 := by
  unfold simFuel directTrains directTrain
  simp [List.map_map, Function.comp_def]
  ring

/-- Over the single route `[start, end_]` the simulation records one move per turn, the
trains in index order. -/
theorem simulate_direct (start end_ : String) (numTrains : Nat) :
    simulate [[start, end_]] end_ numTrains
      = some ((List.range numTrains).map (fun t => [(t + 1, end_)])) := by
  unfold simulate
  rw [assignTrains_direct, simFuel_direct,
    directTrains_loop start end_ numTrains _ 0 [] (by omega) (by omega)]
  simp [List.range_eq_range']

theorem FindTrainMovements_direct (network : Network) (hnet : network.DistinctNeighbors)
    (start end_ : String) (hne : start ≠ end_) (hadj : Adj network start end_)
    (numTrains : Nat) :
    FindTrainMovements network start end_ numTrains
      = some ((List.range numTrains).map (fun t => "T" ++ toString (t + 1) ++ "-" ++ end_),
          none) := by
  unfold FindTrainMovements
  rw [findAllShortestPaths_direct network hnet start end_ hne hadj]
  simp only [List.length_singleton, Nat.succ_ne_zero, ↓reduceIte, simulate_direct, List.map_map,
    one_ne_zero]
  rfl

theorem append_cons_inj {α : Type} (x : α) :
    ∀ (l1 l2 r1 r2 : List α), x ∉ l1 → x ∉ l2 → l1 ++ x :: r1 = l2 ++ x :: r2 →
      l1 = l2 ∧ r1 = r2 := by
  intro l1
  induction l1 with
  | nil =>
    intro l2 r1 r2 _ h2 h
    cases l2 with
    | nil => simpa using h
    | cons b l2 =>
      simp only [List.nil_append, List.cons_append, List.cons.injEq] at h
      exact absurd (by rw [h.1]; exact List.mem_cons_self _ _) h2
  | cons a l1 ih =>
    intro l2 r1 r2 h1 h2 h
    cases l2 with
    | nil =>
      simp only [List.nil_append, List.cons_append, List.cons.injEq] at h
      exact absurd (by rw [← h.1]; exact List.mem_cons_self _ _) h1
    | cons b l2 =>
      simp only [List.cons_append, List.cons.injEq] at h
      obtain ⟨e1, e2⟩ := ih l2 r1 r2 (fun hx => h1 (List.mem_cons_of_mem _ hx))
        (fun hx => h2 (List.mem_cons_of_mem _ hx)) h.2
      exact ⟨by rw [h.1, e1], e2⟩

/-- The keys of `trackUsed` tell the tracks apart when the names of the stations hold
no colon. -/
theorem trackKey_inj (a b c d : String) (ha : NoColon a) (hc : NoColon c)
    (h : a ++ ":" ++ b = c ++ ":" ++ d) : a = c ∧ b = d := by
  have hd := congrArg String.data h
  simp only [String.data_append] at hd
  simp only [List.append_assoc, List.singleton_append] at hd
  obtain ⟨e1, e2⟩ := append_cons_inj ':' a.data c.data b.data d.data ha hc hd
  exact ⟨String.ext e1, String.ext e2⟩

theorem nodup_index_unique (p : List String) (hnd : p.Nodup) (i j : Nat) (x : String)
    (hi : p[i]? = some x) (hj : p[j]? = some x) : i = j := by
  have hlt : i < p.length := by
    by_contra hge
    rw [List.getElem?_eq_none (by omega)] at hi
    simp at hi
  exact List.getElem?_inj hlt hnd (hi.trans hj.symm)

/-- The loop body moves a train whose next station is `end_` or free and whose track is
unused. -/
theorem stepTrain_move (end_ : String) (occ : List (String × Nat)) (i : Nat) (t : Train)
    (acc : TurnState) (cur nextStation : String) (harr : t.arrived = false)
    (hpos : t.pos + 1 ≠ t.path.length) (hn : t.path[t.pos + 1]? = some nextStation)
    (hc : t.path[t.pos]? = some cur)
    (hfree : nextStation ≠ end_ →
      mapHas occ nextStation = false ∧ mapHas acc.stationNextOccupied nextStation = false)
    (htrack : mapGetBool acc.trackUsed (cur ++ ":" ++ nextStation) = false) :
    stepTrain end_ occ i t acc
      = some ({ t with pos := t.pos + 1 }, acc.move end_ i cur nextStation) := by
  have hpos' : ¬ ((t.pos : Int) = (t.path.length : Int) - 1) := by omega
  unfold stepTrain
  simp only [harr, Bool.false_eq_true, ↓reduceIte, hpos', hn, hc, htrack]
  by_cases he : nextStation = end_
  · simp [he, TurnState.move]
  · have := hfree he
    simp [he, this.1, this.2, TurnState.move]

/-- The loop body leaves a train where it is when its next station is taken or its
track is used. -/
theorem stepTrain_blocked (end_ : String) (occ : List (String × Nat)) (i : Nat) (t : Train)
    (acc : TurnState) (cur nextStation : String) (harr : t.arrived = false)
    (hpos : t.pos + 1 ≠ t.path.length) (hn : t.path[t.pos + 1]? = some nextStation)
    (hc : t.path[t.pos]? = some cur)
    (hblock : (nextStation ≠ end_ ∧
        (mapHas occ nextStation = true ∨ mapHas acc.stationNextOccupied nextStation = true)) ∨
      mapGetBool acc.trackUsed (cur ++ ":" ++ nextStation) = true) :
    stepTrain end_ occ i t acc = some (t, acc) := by
  have hpos' : ¬ ((t.pos : Int) = (t.path.length : Int) - 1) := by omega
  unfold stepTrain
  simp only [harr, Bool.false_eq_true, ↓reduceIte, hpos', hn, hc]
  by_cases hs : nextStation ≠ end_ ∧
      (mapHas occ nextStation = true ∨ mapHas acc.stationNextOccupied nextStation = true)
  · rw [if_pos hs]
  · rcases hblock with h | h
    · exact absurd h hs
    · rw [if_neg hs]
      simp [h]

theorem lineRoute_get (p : List String) (end_ : String) (L : Nat) (hr : LineRoute p end_ L)
    (a : Nat) (ha : a ≤ L) : ∃ x, p[a]? = some x ∧ NoColon x ∧ (x = end_ ↔ a = L) := by
  have hlt : a < p.length := by rw [hr.len]; omega
  refine ⟨p[a], List.getElem?_eq_getElem hlt, hr.names _ (List.getElem_mem _), ?_⟩
  constructor
  · intro h
    exact nodup_index_unique p hr.nodup a L end_ (by rw [List.getElem?_eq_getElem hlt, h]) hr.last
  · intro h
    subst h
    have := hr.last
    rw [List.getElem?_eq_getElem hlt] at this
    exact Option.some.inj this

theorem lineAcc_skip (p : List String) (L t k : Nat) (acc : TurnState)
    (hacc : LineAcc p L t k acc) (hk : ¬ (2 * k ≤ t ∧ t < 2 * k + L)) :
    LineAcc p L t (k + 1) acc := by
  have key : ∀ (P : Nat → Prop), (∀ j, P j → 2 * j ≤ t ∧ t < 2 * j + L) →
      ((∃ j, j < k ∧ P j) ↔ ∃ j, j < k + 1 ∧ P j) := by
    intro P hP
    constructor
    · rintro ⟨j, hj, h⟩
      exact ⟨j, by omega, h⟩
    · rintro ⟨j, hj, h⟩
      have hjk : j ≠ k := by
        rintro rfl
        exact hk (hP j h)
      exact ⟨j, by omega, h⟩
  constructor
  · intro s
    rw [hacc.sno s]
    exact key (fun j => 2 * j ≤ t ∧ t + 1 - 2 * j < L ∧ p[t + 1 - 2 * j]? = some s)
      (fun j h => ⟨h.1, by omega⟩)
  · intro s
    rw [hacc.track s]
    exact key (fun j => 2 * j ≤ t ∧ t - 2 * j < L ∧
      ∃ c d, p[t - 2 * j]? = some c ∧ p[t - 2 * j + 1]? = some d ∧ s = c ++ ":" ++ d)
      (fun j h => ⟨h.1, by omega⟩)
  · rw [hacc.progress]
    exact key (fun j => 2 * j ≤ t ∧ t < 2 * j + L) (fun j h => h)
  · rw [hacc.moves]
    exact key (fun j => 2 * j ≤ t ∧ t < 2 * j + L) (fun j h => h)

theorem lineTrain_eq (p : List String) (L t k a : Nat) (b : Bool) (ha : min (t - 2 * k) L = a)
    (hb : (2 * k + L < t) ↔ b = true) :
    lineTrain p L t k = { path := p, pos := a, arrived := b } := by
  unfold lineTrain
  congr 1
  cases b with
  | false => simpa using hb
  | true => simpa using hb

/-- One pass of the loop body on the single route does what the schedule says. -/
theorem lineTrain_step (p : List String) (end_ : String) (L n t k : Nat)
    (occ : List (String × Nat)) (acc : TurnState) (hr : LineRoute p end_ L)
    (hocc : LineOcc p L n t occ) (hacc : LineAcc p L t k acc) (hk : k < n) :
    ∃ acc', stepTrain end_ occ k (lineTrain p L t k) acc
        = some (lineTrain p L (t + 1) k, acc') ∧ LineAcc p L t (k + 1) acc' := by
  have hL := hr.two
  have hlen := hr.len
  by_cases hdone : 2 * k + L ≤ t
  · -- the train is on the last station
    refine ⟨acc, ?_, lineAcc_skip p L t k acc hacc (by omega)⟩
    rw [lineTrain_eq p L (t + 1) k L true (by omega) (by simp; omega)]
    by_cases hlt : 2 * k + L < t
    · rw [lineTrain_eq p L t k L true (by omega) (by simp; omega)]
      simp [stepTrain]
    · rw [lineTrain_eq p L t k L false (by omega) (by simp; omega)]
      simp [stepTrain, hlen]
  · by_cases hstart : 2 * k ≤ t
    · -- the train moves from index `t - 2 * k`
      obtain ⟨cur, hc, hcn, -⟩ := lineRoute_get p end_ L hr (t - 2 * k) (by omega)
      obtain ⟨nx, hn, -, hne⟩ := lineRoute_get p end_ L hr (t - 2 * k + 1) (by omega)
      refine ⟨acc.move end_ k cur nx, ?_, ?_⟩
      · rw [lineTrain_eq p L t k (t - 2 * k) false (by omega) (by simp; omega),
          lineTrain_eq p L (t + 1) k (t - 2 * k + 1) false (by omega) (by simp; omega)]
        apply stepTrain_move end_ occ k _ acc cur nx rfl (by simp only; omega) hn hc
        · intro _
          constructor
          · by_contra hx
            have hx' : mapHas occ nx = true := by simpa using hx
            obtain ⟨j, -, hj1, hj2, hj3⟩ := (hocc nx).mp hx'
            have := nodup_index_unique p hr.nodup _ _ nx hj3 hn
            omega
          · by_contra hx
            have hx' : mapHas acc.stationNextOccupied nx = true := by simpa using hx
            obtain ⟨j, hjk, hj1, hj2, hj3⟩ := (hacc.sno nx).mp hx'
            have := nodup_index_unique p hr.nodup _ _ nx hj3 hn
            omega
        · by_contra hx
          have hx' : mapGetBool acc.trackUsed (cur ++ ":" ++ nx) = true := by simpa using hx
          obtain ⟨j, hjk, hj1, hj2, c, d, hjc, -, hkey⟩ := (hacc.track _).mp hx'
          obtain ⟨c', hc', hcn', -⟩ := lineRoute_get p end_ L hr (t - 2 * j) (by omega)
          rw [hc'] at hjc
          obtain rfl := Option.some.inj hjc
          obtain ⟨e1, -⟩ := trackKey_inj cur nx c' d hcn hcn' hkey
          subst e1
          have := nodup_index_unique p hr.nodup _ _ cur hc hc'
          omega
      · constructor
        · intro s
          simp only [TurnState.move]
          by_cases he : nx = end_
          · have haL : t - 2 * k + 1 = L := hne.mp he
            simp only [he, ne_eq, not_true_eq_false, ↓reduceIte]
            rw [hacc.sno s]
            constructor
            · rintro ⟨j, hj, h⟩
              exact ⟨j, by omega, h⟩
            · rintro ⟨j, hj, h1, h2, h3⟩
              have hjk : j ≠ k := by
                rintro rfl
                omega
              exact ⟨j, by omega, h1, h2, h3⟩
          · have haL : t - 2 * k + 1 ≠ L := fun h => he (hne.mpr h)
            simp only [ne_eq, he, not_false_eq_true, ↓reduceIte, mapHas_mapSet]
            rw [hacc.sno s]
            constructor
            · rintro (rfl | ⟨j, hj, h⟩)
              · refine ⟨k, by omega, hstart, by omega, ?_⟩
                rw [← hn]
                congr 1
                omega
              · exact ⟨j, by omega, h⟩
            · rintro ⟨j, hj, h1, h2, h3⟩
              by_cases hjk : j = k
              · subst hjk
                left
                have e : t + 1 - 2 * j = t - 2 * j + 1 := by omega
                rw [e, hn] at h3
                exact (Option.some.inj h3).symm
              · right
                exact ⟨j, by omega, h1, h2, h3⟩
        · intro key
          simp only [TurnState.move, mapGetBool_mapSet]
          rw [hacc.track key]
          constructor
          · rintro (rfl | ⟨j, hj, h⟩)
            · exact ⟨k, by omega, hstart, by omega, cur, nx, hc, hn, rfl⟩
            · exact ⟨j, by omega, h⟩
          · rintro ⟨j, hj, h1, h2, c, d, h3, h4, h5⟩
            by_cases hjk : j = k
            · subst hjk
              left
              rw [hc] at h3
              rw [hn] at h4
              rw [h5, Option.some.inj h3, Option.some.inj h4]
            · right
              exact ⟨j, by omega, h1, h2, c, d, h3, h4, h5⟩
        · simp only [TurnState.move, true_iff]
          exact ⟨k, by omega, hstart, by omega⟩
        · simp only [TurnState.move, ne_eq, List.append_eq_nil, List.cons_ne_self, and_false,
            not_false_eq_true, true_iff]
          exact ⟨k, by omega, hstart, by omega⟩
    · -- the train waits on the first station
      obtain ⟨cur, hc, -, -⟩ := lineRoute_get p end_ L hr 0 (by omega)
      obtain ⟨nx, hn, -, hne⟩ := lineRoute_get p end_ L hr 1 (by omega)
      refine ⟨acc, ?_, lineAcc_skip p L t k acc hacc (by omega)⟩
      rw [lineTrain_eq p L t k 0 false (by omega) (by simp; omega),
        lineTrain_eq p L (t + 1) k 0 false (by omega) (by simp; omega)]
      apply stepTrain_blocked end_ occ k _ acc cur nx rfl (by simp only; omega) hn hc
      left
      refine ⟨fun h => by have := hne.mp h; omega, ?_⟩
      rcases Nat.even_or_odd t with ⟨u, hu⟩ | ⟨u, hu⟩
      · right
        rw [hacc.sno nx]
        refine ⟨u, by omega, by omega, by omega, ?_⟩
        rw [← hn]
        congr 1
        omega
      · left
        rw [hocc nx]
        refine ⟨u, by omega, by omega, by omega, ?_⟩
        rw [← hn]
        congr 1
        omega

theorem lineTrain_eval (p : List String) (end_ : String) (L n t : Nat)
    (occ : List (String × Nat)) (hr : LineRoute p end_ L) (hocc : LineOcc p L n t occ) :
    ∀ (m k : Nat) (acc : TurnState), k + m ≤ n → LineAcc p L t k acc →
      ∃ acc', evalTrains end_ occ k ((List.range' k m).map (lineTrain p L t)) acc
          = some ((List.range' k m).map (lineTrain p L (t + 1)), acc') ∧
        LineAcc p L t (k + m) acc' := by
  intro m
  induction m with
  | zero =>
    intro k acc _ hacc
    exact ⟨acc, by simp [evalTrains], hacc⟩
  | succ m ih =>
    intro k acc hk hacc
    obtain ⟨acc1, h1, hacc1⟩ := lineTrain_step p end_ L n t k occ acc hr hocc hacc (by omega)
    obtain ⟨acc2, h2, hacc2⟩ := ih (k + 1) acc1 (by omega) hacc1
    have hk' : k + 1 + m = k + (m + 1) := by omega
    rw [hk'] at hacc2
    refine ⟨acc2, ?_, hacc2⟩
    simp only [List.range'_succ, List.map_cons]
    rw [evalTrains_cons, h1, Option.some_bind, h2, Option.some_bind]

theorem lineAcc_init (p : List String) (L t : Nat) : LineAcc p L t 0 TurnState.init := by
  constructor <;> simp [TurnState.init, mapHas_nil, mapGetBool_nil]

/-- One turn on the single route: the trains follow the schedule, and the turn makes a
move exactly when some train `j` has `2 * j ≤ t < 2 * j + L`. -/
theorem lineTrains_turn (p : List String) (end_ : String) (L n t : Nat)
    (occ : List (String × Nat)) (hr : LineRoute p end_ L) (hocc : LineOcc p L n t occ) :
    ∃ acc, evalTrains end_ occ 0 (lineTrains p L n t) TurnState.init
        = some (lineTrains p L n (t + 1), acc) ∧
      LineOcc p L n (t + 1) acc.stationNextOccupied ∧
      (acc.progress = true ↔ ∃ j, j < n ∧ 2 * j ≤ t ∧ t < 2 * j + L) ∧
      (acc.moveThisTurn ≠ [] ↔ ∃ j, j < n ∧ 2 * j ≤ t ∧ t < 2 * j + L) := by
  obtain ⟨acc, h, hacc⟩ :=
    lineTrain_eval p end_ L n t occ hr hocc n 0 TurnState.init (by omega) (lineAcc_init p L t)
  rw [Nat.zero_add] at hacc
  refine ⟨acc, h, ?_, hacc.progress, hacc.moves⟩
  intro s
  rw [hacc.sno s]
  constructor
  · rintro ⟨j, h1, h2, h3, h4⟩
    exact ⟨j, h1, by omega, h3, h4⟩
  · rintro ⟨j, h1, h2, h3, h4⟩
    exact ⟨j, h1, by omega, h3, h4⟩

theorem line_mover_iff (L n t : Nat) (hL : 2 ≤ L) (hn : 1 ≤ n) :
    (∃ j, j < n ∧ 2 * j ≤ t ∧ t < 2 * j + L) ↔ t < L + 2 * (n - 1) := by
  constructor
  · rintro ⟨j, h1, h2, h3⟩
    omega
  · intro h
    by_cases h2 : 2 * (n - 1) ≤ t
    · exact ⟨n - 1, by omega, h2, by omega⟩
    · exact ⟨t / 2, by omega, by omega, by omega⟩

/-- On the single route the loop records a turn for every `t` below `L + 2 * (n - 1)`
and then stops. -/
theorem lineTrains_loop (p : List String) (end_ : String) (L n : Nat)
    (hr : LineRoute p end_ L) (hn : 1 ≤ n) :
    ∀ (fuel t : Nat) (occ : List (String × Nat)) (turns out : List (List (Nat × String))),
      LineOcc p L n t occ → t ≤ L + 2 * (n - 1) →
      simLoop end_ fuel (lineTrains p L n t) occ turns = some out →
      out.length = turns.length + (L + 2 * (n - 1) - t) := by
  intro fuel
  induction fuel with
  | zero => intro _ _ _ _ _ _ h; simp [simLoop] at h
  | succ fuel ih =>
    intro t occ turns out hocc ht h
    obtain ⟨acc, hev, hocc', hprog, hmoves⟩ := lineTrains_turn p end_ L n t occ hr hocc
    rw [line_mover_iff L n t hr.two hn] at hprog hmoves
    rw [simLoop_succ, hev, Option.some_bind] at h
    by_cases hlt : t < L + 2 * (n - 1)
    · have hp : acc.progress = true := hprog.mpr hlt
      have hm : 0 < acc.moveThisTurn.length := List.length_pos.mpr (hmoves.mpr hlt)
      simp only [hp, Bool.not_true, Bool.false_eq_true, ↓reduceIte, gt_iff_lt, hm] at h
      have := ih (t + 1) _ _ out hocc' (by omega) h
      rw [this, List.length_append, List.length_singleton]
      omega
    · have hp : acc.progress = false := by
        cases hacc : acc.progress with
        | false => rfl
        | true => exact absurd (hprog.mp hacc) hlt
      have hm : acc.moveThisTurn = [] := by
        by_contra hne
        exact hlt (hmoves.mp hne)
      simp only [hp, hm, Bool.not_false, ↓reduceIte, List.length_nil, gt_iff_lt,
        lt_self_iff_false, Option.some.injEq] at h
      subst h
      omega

theorem assignTrains_line (p : List String) (L n : Nat) :
    assignTrains [p] n = lineTrains p L n 0 := by
  unfold assignTrains lineTrains lineTrain
  rw [List.range_eq_range']
  apply List.map_congr_left
  intro i _
  simp [Nat.mod_one]

theorem lineOcc_zero (p : List String) (L n : Nat) : LineOcc p L n 0 [] := by
  intro s
  simp [mapHas_nil]

/-- Over a single route of `L ≥ 2` edges whose names hold no colon the simulation
returns exactly `L + 2 * (n - 1)` records. -/
theorem simulate_line_length (p : List String) (end_ : String) (L n : Nat)
    (hr : LineRoute p end_ L) (hn : 1 ≤ n) (turns : List (List (Nat × String)))
    (h : simulate [p] end_ n = some turns) : turns.length = L + 2 * (n - 1) := by
  unfold simulate at h
  rw [assignTrains_line p L n] at h
  have := lineTrains_loop p end_ L n hr hn _ 0 [] [] turns (lineOcc_zero p L n) (by omega) h
  simpa using this

theorem candBlocked_move (end_ : String) (occ : List (String × Nat)) (acc : TurnState)
    (cur nextStation : String) (i : Nat) (c d : String)
    (h : CandBlocked end_ occ acc cur nextStation) :
    CandBlocked end_ occ (acc.move end_ i c d) cur nextStation := by
  rcases h with ⟨hne, h | h⟩ | h
  · exact Or.inl ⟨hne, Or.inl h⟩
  · refine Or.inl ⟨hne, Or.inr ?_⟩
    simp only [TurnState.move]
    by_cases hd : d = end_
    · simpa [hd] using h
    · simp only [ne_eq, hd, not_false_eq_true, ↓reduceIte]
      exact (mapHas_mapSet _ _ _ _).mpr (Or.inr h)
  · refine Or.inr ?_
    simp only [TurnState.move]
    exact (mapGetBool_mapSet _ _ _).mpr (Or.inr h)

theorem keyInv_init (end_ : String) : KeyInv end_ TurnState.init := by
  intro key h
  simp [TurnState.init, mapGetBool_nil] at h

theorem keyInv_move (end_ : String) (acc : TurnState) (i : Nat) (c d : String)
    (h : KeyInv end_ acc) (hc : NoColon c) : KeyInv end_ (acc.move end_ i c d) := by
  intro key hkey
  simp only [TurnState.move] at hkey ⊢
  have hmono : ∀ x, mapHas acc.stationNextOccupied x = true →
      mapHas (if d ≠ end_ then mapSet acc.stationNextOccupied d i
        else acc.stationNextOccupied) x = true := by
    intro x hx
    by_cases hd : d = end_
    · simpa [hd] using hx
    · simp only [ne_eq, hd, not_false_eq_true, ↓reduceIte]
      exact (mapHas_mapSet _ _ _ _).mpr (Or.inr hx)
  rcases (mapGetBool_mapSet _ _ _).mp hkey with rfl | hold
  · refine ⟨c, d, rfl, hc, ?_⟩
    intro hd
    simp only [ne_eq, hd, not_false_eq_true, ↓reduceIte]
    exact (mapHas_mapSet _ _ _ _).mpr (Or.inl rfl)
  · obtain ⟨c', d', hk, hc', hd'⟩ := h key hold
    exact ⟨c', d', hk, hc', fun hne => hmono d' (hd' hne)⟩

/-- A train that fails a check when the loop starts does not move in the turn. -/
theorem evalRel_stays {end_ : String} {occ : List (String × Nat)} {i : Nat}
    {acc acc' : TurnState} {ts ts' : List Train} {steps : List Step}
    (h : EvalRel end_ occ i acc ts ts' acc' steps) :
    ∀ (j : Nat) (tj : Train) (cur nextStation : String), ts[j]? = some tj →
      tj.path[tj.pos]? = some cur → tj.path[tj.pos + 1]? = some nextStation →
      CandBlocked end_ occ acc cur nextStation →
      (∃ tj', ts'[j]? = some tj' ∧ tj'.pos = tj.pos) ∧ ∀ s ∈ steps, s.train ≠ i + j := by
  induction h with
  | nil i acc => intro j tj _ _ hj; simp at hj
  | rest i acc acc' t t' ts ts' steps _ hpos _ _ htail ih =>
    intro j tj cur nx hj hc hn hb
    cases j with
    | zero =>
      simp only [List.getElem?_cons_zero, Option.some.injEq] at hj
      subst hj
      refine ⟨⟨t', List.getElem?_cons_zero, hpos⟩, fun s hs => ?_⟩
      have := ((evalRel_index htail).1 s hs).1
      omega
    | succ j =>
      simp only [List.getElem?_cons_succ] at hj ⊢
      obtain ⟨h1, h2⟩ := ih j tj cur nx hj hc hn hb
      refine ⟨h1, fun s hs => ?_⟩
      have := h2 s hs
      omega
  | block i acc acc' t ts ts' steps _ _ htail ih =>
    intro j tj cur nx hj hc hn hb
    cases j with
    | zero =>
      simp only [List.getElem?_cons_zero, Option.some.injEq] at hj
      subst hj
      refine ⟨⟨t, List.getElem?_cons_zero, rfl⟩, fun s hs => ?_⟩
      have := ((evalRel_index htail).1 s hs).1
      omega
    | succ j =>
      simp only [List.getElem?_cons_succ] at hj ⊢
      obtain ⟨h1, h2⟩ := ih j tj cur nx hj hc hn hb
      refine ⟨h1, fun s hs => ?_⟩
      have := h2 s hs
      omega
  | move i acc acc' t ts ts' steps c d hmove _ ih =>
    intro j tj cur nx hj hc hn hb
    cases j with
    | zero =>
      simp only [List.getElem?_cons_zero, Option.some.injEq] at hj
      subst hj
      obtain ⟨-, hc', hn', hfree, htrack⟩ := hmove
      rw [hc] at hc'
      rw [hn] at hn'
      obtain rfl := Option.some.inj hc'
      obtain rfl := Option.some.inj hn'
      exfalso
      rcases hb with ⟨hne, h | h⟩ | h
      · rw [(hfree hne).1] at h
        exact absurd h (by simp)
      · rw [(hfree hne).2] at h
        exact absurd h (by simp)
      · rw [htrack] at h
        exact absurd h (by simp)
    | succ j =>
      simp only [List.getElem?_cons_succ] at hj ⊢
      obtain ⟨h1, h2⟩ := ih j tj cur nx hj hc hn (candBlocked_move end_ occ acc cur nx i c d hb)
      refine ⟨h1, fun s hs => ?_⟩
      rcases List.mem_cons.mp hs with rfl | hs
      · simp only
        omega
      · have := h2 s hs
        omega

/-- Of two trains with the same candidate next station, the second does not move when
they stand on the same station, or when the candidate is not `end_` and the keys of
`trackUsed` can be told apart. -/
theorem evalRel_priority {end_ : String} {occ : List (String × Nat)} {i0 : Nat}
    {acc acc' : TurnState} {ts ts' : List Train} {steps : List Step}
    (h : EvalRel end_ occ i0 acc ts ts' acc' steps) :
    ∀ (i j : Nat) (ti tj : Train) (ci cj nx : String), i < j →
      ts[i]? = some ti → ts[j]? = some tj → ti.arrived = false →
      ti.path[ti.pos]? = some ci → tj.path[tj.pos]? = some cj →
      ti.path[ti.pos + 1]? = some nx → tj.path[tj.pos + 1]? = some nx →
      (ci = cj ∨ (nx ≠ end_ ∧ KeyInv end_ acc ∧ ∀ t ∈ ts, ∀ s ∈ t.path, NoColon s)) →
      (∃ tj', ts'[j]? = some tj' ∧ tj'.pos = tj.pos) ∧ ∀ s ∈ steps, s.train ≠ i0 + j := by
  induction h with
  | nil i acc => intro i j ti tj _ _ _ _ hi; simp at hi
  | rest i0 acc acc' t t' ts ts' steps _ hpos hdone _ htail ih =>
    intro i j ti tj ci cj nx hij hi hj hai hci hcj hni hnj hmode
    obtain ⟨j, rfl⟩ : ∃ j', j = j' + 1 := ⟨j - 1, by omega⟩
    simp only [List.getElem?_cons_succ] at hj ⊢
    cases i with
    | zero =>
      simp only [List.getElem?_cons_zero, Option.some.injEq] at hi
      subst hi
      exfalso
      rcases hdone with hd | hd
      · rw [hai] at hd
        exact absurd hd (by simp)
      · have := (List.getElem?_eq_some_iff.mp hni).1
        omega
    | succ i =>
      simp only [List.getElem?_cons_succ] at hi
      have hmode' : ci = cj ∨ (nx ≠ end_ ∧ KeyInv end_ acc ∧ ∀ t ∈ ts, ∀ s ∈ t.path, NoColon s) := by
        rcases hmode with h | ⟨h1, h2, h3⟩
        · exact Or.inl h
        · exact Or.inr ⟨h1, h2, fun t ht => h3 t (List.mem_cons_of_mem _ ht)⟩
      obtain ⟨h1, h2⟩ := ih i j ti tj ci cj nx (by omega) hi hj hai hci hcj hni hnj hmode'
      refine ⟨h1, fun s hs => ?_⟩
      have := h2 s hs
      omega
  | block i0 acc acc' t ts ts' steps _ hblock htail ih =>
    intro i j ti tj ci cj nx hij hi hj hai hci hcj hni hnj hmode
    obtain ⟨j, rfl⟩ : ∃ j', j = j' + 1 := ⟨j - 1, by omega⟩
    simp only [List.getElem?_cons_succ] at hj ⊢
    cases i with
    | zero =>
      simp only [List.getElem?_cons_zero, Option.some.injEq] at hi
      subst hi
      obtain ⟨c, d, hc, hd, hcond⟩ := hblock
      rw [hci] at hc
      rw [hni] at hd
      obtain rfl := Option.some.inj hc
      obtain rfl := Option.some.inj hd
      have hb : CandBlocked end_ occ acc cj nx := by
        rcases hmode with rfl | ⟨hne, hkey, hnames⟩
        · exact hcond
        · rcases hcond with hst | htr
          · exact Or.inl hst
          · obtain ⟨c, d, hk, hcol, hocc⟩ := hkey _ htr
            have hci' : NoColon ci :=
              hnames t (List.mem_cons_self _ _) ci (List.getElem?_mem hci)
            obtain ⟨-, rfl⟩ := trackKey_inj ci nx c d hci' hcol hk
            exact Or.inl ⟨hne, Or.inr (hocc hne)⟩
      obtain ⟨h1, h2⟩ := evalRel_stays htail j tj cj nx hj hcj hnj hb
      refine ⟨h1, fun s hs => ?_⟩
      have := h2 s hs
      omega
    | succ i =>
      simp only [List.getElem?_cons_succ] at hi
      have hmode' : ci = cj ∨ (nx ≠ end_ ∧ KeyInv end_ acc ∧ ∀ t ∈ ts, ∀ s ∈ t.path, NoColon s) := by
        rcases hmode with h | ⟨h1, h2, h3⟩
        · exact Or.inl h
        · exact Or.inr ⟨h1, h2, fun t ht => h3 t (List.mem_cons_of_mem _ ht)⟩
      obtain ⟨h1, h2⟩ := ih i j ti tj ci cj nx (by omega) hi hj hai hci hcj hni hnj hmode'
      refine ⟨h1, fun s hs => ?_⟩
      have := h2 s hs
      omega
  | move i0 acc acc' t ts ts' steps c d hmove htail ih =>
    intro i j ti tj ci cj nx hij hi hj hai hci hcj hni hnj hmode
    obtain ⟨j, rfl⟩ : ∃ j', j = j' + 1 := ⟨j - 1, by omega⟩
    simp only [List.getElem?_cons_succ] at hj ⊢
    cases i with
    | zero =>
      simp only [List.getElem?_cons_zero, Option.some.injEq] at hi
      subst hi
      obtain ⟨-, hc, hd, -, -⟩ := hmove
      rw [hci] at hc
      rw [hni] at hd
      obtain rfl := Option.some.inj hc
      obtain rfl := Option.some.inj hd
      have hb : CandBlocked end_ occ (acc.move end_ i0 ci nx) cj nx := by
        rcases hmode with rfl | ⟨hne, -, -⟩
        · refine Or.inr ?_
          simp only [TurnState.move]
          exact (mapGetBool_mapSet _ _ _).mpr (Or.inl rfl)
        · refine Or.inl ⟨hne, Or.inr ?_⟩
          simp only [TurnState.move, ne_eq, hne, not_false_eq_true, ↓reduceIte]
          exact (mapHas_mapSet _ _ _ _).mpr (Or.inl rfl)
      obtain ⟨h1, h2⟩ := evalRel_stays htail j tj cj nx hj hcj hnj hb
      refine ⟨h1, fun s hs => ?_⟩
      rcases List.mem_cons.mp hs with rfl | hs
      · simp only
        omega
      · have := h2 s hs
        omega
    | succ i =>
      simp only [List.getElem?_cons_succ] at hi
      have hmode' : ci = cj ∨ (nx ≠ end_ ∧ KeyInv end_ (acc.move end_ i0 c d) ∧
          ∀ t ∈ ts, ∀ s ∈ t.path, NoColon s) := by
        rcases hmode with h | ⟨h1, h2, h3⟩
        · exact Or.inl h
        · refine Or.inr ⟨h1, keyInv_move end_ acc i0 c d h2 ?_,
            fun t ht => h3 t (List.mem_cons_of_mem _ ht)⟩
          exact h3 t (List.mem_cons_self _ _) c (List.getElem?_mem hmove.2.1)
      obtain ⟨h1, h2⟩ := ih i j ti tj ci cj nx (by omega) hi hj hai hci hcj hni hnj hmode'
      refine ⟨h1, fun s hs => ?_⟩
      rcases List.mem_cons.mp hs with rfl | hs
      · simp only
        omega
      · have := h2 s hs
        omega

theorem lineRoute_of_single (network : Network) (start end_ : String) (p : List String)
    (L : Nat) (hroutes : findAllShortestPaths network start end_ = some [p])
    (hL : edgeCount p = L) (h2 : 2 ≤ L) (hnames : ∀ s ∈ p, NoColon s) :
    LineRoute p end_ L := by
  have hp : IsShortestRoute network start end_ p :=
    ((findAllShortestPaths_spec network start end_ [p] hroutes).2 p).mp (List.mem_singleton.mpr rfl)
  have hpos := route_length_pos network start end_ p hp.1
  have hlen : p.length = L + 1 := by
    unfold edgeCount at hL
    omega
  exact ⟨hp.1.2.2.1, hlen, h2, route_last network start end_ p hp.1 L hlen.symm, hnames⟩

/-! ## Reading the inputs -/

theorem digit_iff (c : Char) :
    (48 ≤ c.toNat ∧ c.toNat ≤ 57) ↔ c ∈ decimalDigits := by
  constructor
  · rintro ⟨h1, h2⟩
    have hc : c = Char.ofNat c.toNat := (Char.ofNat_toNat c).symm
    generalize c.toNat = k at *
    subst hc
    interval_cases k <;> decide
  · intro h
    simp only [decimalDigits, List.mem_cons, List.mem_singleton, List.not_mem_nil, or_false] at h
    rcases h with rfl | rfl | rfl | rfl | rfl | rfl | rfl | rfl | rfl | rfl <;> decide

theorem digit_value (c : Char) (h : c ∈ decimalDigits) :
    c.toNat - 48 = decimalDigits.indexOf c := by
  simp only [decimalDigits, List.mem_cons, List.mem_singleton, List.not_mem_nil, or_false] at h
  rcases h with rfl | rfl | rfl | rfl | rfl | rfl | rfl | rfl | rfl | rfl <;> decide

theorem atoiDigits_eq : ∀ (ds : List Char) (n : Nat), (∀ c ∈ ds, c ∈ decimalDigits) →
    atoiDigits ds n = some (Nat.ofDigits 10
      (ds.reverse.map (fun c => decimalDigits.indexOf c) ++ [n])) := by
  intro ds
  induction ds with
  | nil => intro n _; simp [atoiDigits, Nat.ofDigits]
  | cons c ds ih =>
    intro n h
    have hc := h c (List.mem_cons_self _ _)
    rw [atoiDigits, if_pos ((digit_iff c).mpr hc), ih _ (fun d hd => h d (List.mem_cons_of_mem _ hd))]
    congr 1
    rw [digit_value c hc]
    simp only [List.reverse_cons, List.map_append, List.map_cons, List.map_nil,
      List.append_assoc, List.singleton_append, Nat.ofDigits_append, Nat.ofDigits_cons,
      Nat.ofDigits_nil]
    ring

theorem atoiDigits_value (ds : List Char) (h : ∀ c ∈ ds, c ∈ decimalDigits) :
    atoiDigits ds 0 = some (decimalValue ds) := by
  rw [atoiDigits_eq ds 0 h, decimalValue, Nat.ofDigits_append]
  simp [Nat.ofDigits]

theorem atoiDigits_none : ∀ (ds : List Char) (n : Nat), (¬ ∀ c ∈ ds, c ∈ decimalDigits) →
    atoiDigits ds n = none := by
  intro ds
  induction ds with
  | nil => intro n h; simp at h
  | cons c ds ih =>
    intro n h
    rw [atoiDigits]
    by_cases hc : c ∈ decimalDigits
    · rw [if_pos ((digit_iff c).mpr hc)]
      apply ih
      intro hall
      apply h
      intro d hd
      rcases List.mem_cons.mp hd with rfl | hd
      · exact hc
      · exact hall d hd
    · rw [if_neg (fun hh => hc ((digit_iff c).mp hh))]

theorem atoiSigned_iff (intSize : Nat) (neg : Bool) (ds : List Char) (n : Int) :
    atoiSigned intSize neg ds = some n ↔
      ds ≠ [] ∧ (∀ c ∈ ds, c ∈ decimalDigits) ∧
        n = (if neg then -(decimalValue ds : Int) else (decimalValue ds : Int)) ∧
        -((2 ^ (intSize - 1) : Nat) : Int) ≤ n ∧ n < ((2 ^ (intSize - 1) : Nat) : Int) := by
  unfold atoiSigned
  by_cases hnil : ds = []
  · simp [hnil]
  rw [if_neg hnil]
  by_cases hall : ∀ c ∈ ds, c ∈ decimalDigits
  · rw [atoiDigits_value ds hall]
    have hBpos : 0 < 2 ^ (intSize - 1) := Nat.two_pow_pos _
    generalize decimalValue ds = v
    generalize 2 ^ (intSize - 1) = B at hBpos ⊢
    cases neg
    · simp only [Bool.false_eq_true, ↓reduceIte, ge_iff_le]
      by_cases hB : B ≤ v
      · rw [if_pos hB]
        constructor
        · intro h
          cases h
        · rintro ⟨-, -, hn, -, hlt⟩
          omega
      · rw [if_neg hB]
        simp only [Option.some.injEq]
        constructor
        · intro h
          exact ⟨hnil, hall, h.symm, by omega, by omega⟩
        · rintro ⟨-, -, h, -, -⟩
          exact h.symm
    · simp only [↓reduceIte, gt_iff_lt]
      by_cases hB : B < v
      · rw [if_pos hB]
        constructor
        · intro h
          cases h
        · rintro ⟨-, -, hn, hle, -⟩
          omega
      · rw [if_neg hB]
        simp only [Option.some.injEq]
        constructor
        · intro h
          exact ⟨hnil, hall, h.symm, by omega, by omega⟩
        · rintro ⟨-, -, h, -, -⟩
          exact h.symm
  · rw [atoiDigits_none ds 0 hall]
    constructor
    · intro h
      cases h
    · rintro ⟨-, h, -⟩
      exact absurd h hall

theorem denotes_plus (s : String) (rest : List Char) (h : s.data = '+' :: rest) (n : Int) :
    Denotes s n ↔ rest ≠ [] ∧ (∀ c ∈ rest, c ∈ decimalDigits) ∧ n = (decimalValue rest : Int) := by
  constructor
  · rintro ⟨ds, hne, hall, ⟨h1 | h1, hn⟩ | ⟨h1, hn⟩⟩
    · rw [h] at h1
      subst h1
      exact absurd (hall _ (List.mem_cons_self _ _)) (by decide)
    · rw [h] at h1
      obtain rfl := (List.cons.inj h1).2
      exact ⟨hne, hall, hn⟩
    · rw [h] at h1
      exact absurd (List.cons.inj h1).1 (by decide)
  · rintro ⟨hne, hall, hn⟩
    exact ⟨rest, hne, hall, Or.inl ⟨Or.inr h, hn⟩⟩

theorem denotes_minus (s : String) (rest : List Char) (h : s.data = '-' :: rest) (n : Int) :
    Denotes s n ↔
      rest ≠ [] ∧ (∀ c ∈ rest, c ∈ decimalDigits) ∧ n = -(decimalValue rest : Int) := by
  constructor
  · rintro ⟨ds, hne, hall, ⟨h1 | h1, hn⟩ | ⟨h1, hn⟩⟩
    · rw [h] at h1
      subst h1
      exact absurd (hall _ (List.mem_cons_self _ _)) (by decide)
    · rw [h] at h1
      exact absurd (List.cons.inj h1).1 (by decide)
    · rw [h] at h1
      obtain rfl := (List.cons.inj h1).2
      exact ⟨hne, hall, hn⟩
  · rintro ⟨hne, hall, hn⟩
    exact ⟨rest, hne, hall, Or.inr ⟨h, hn⟩⟩

theorem denotes_plain (s : String) (h1 : ∀ rest, s.data ≠ '+' :: rest)
    (h2 : ∀ rest, s.data ≠ '-' :: rest) (n : Int) :
    Denotes s n ↔
      s.data ≠ [] ∧ (∀ c ∈ s.data, c ∈ decimalDigits) ∧ n = (decimalValue s.data : Int) := by
  constructor
  · rintro ⟨ds, hne, hall, ⟨h | h, hn⟩ | ⟨h, hn⟩⟩
    · rw [h]
      exact ⟨hne, hall, hn⟩
    · exact absurd h (h1 ds)
    · exact absurd h (h2 ds)
  · rintro ⟨hne, hall, hn⟩
    exact ⟨s.data, hne, hall, Or.inl ⟨Or.inl rfl, hn⟩⟩

/-- `Atoi` succeeds with `n` exactly on the literals that denote an `n` in the range of
`int`. -/
theorem Atoi_iff (intSize : Nat) (s : String) (n : Int) :
    Atoi intSize s = some n ↔
      Denotes s n ∧ -((2 ^ (intSize - 1) : Nat) : Int) ≤ n ∧
        n < ((2 ^ (intSize - 1) : Nat) : Int) := by
  unfold Atoi
  split
  · next rest h =>
    rw [atoiSigned_iff, denotes_plus s rest h]
    simp only [Bool.false_eq_true, ↓reduceIte]
    tauto
  · next rest h =>
    rw [atoiSigned_iff, denotes_minus s rest h]
    simp only [↓reduceIte]
    tauto
  · next h1 h2 =>
    rw [atoiSigned_iff, denotes_plain s (fun r hr => h1 r hr) (fun r hr => h2 r hr)]
    simp only [Bool.false_eq_true, ↓reduceIte]
    tauto

theorem denotes_unique (s : String) (n m : Int) (hn : Denotes s n) (hm : Denotes s m) :
    n = m := by
  by_cases h1 : ∃ rest, s.data = '+' :: rest
  · obtain ⟨rest, h⟩ := h1
    rw [denotes_plus s rest h] at hn hm
    rw [hn.2.2, hm.2.2]
  by_cases h2 : ∃ rest, s.data = '-' :: rest
  · obtain ⟨rest, h⟩ := h2
    rw [denotes_minus s rest h] at hn hm
    rw [hn.2.2, hm.2.2]
  have h1' : ∀ rest, s.data ≠ '+' :: rest := fun r hr => h1 ⟨r, hr⟩
  have h2' : ∀ rest, s.data ≠ '-' :: rest := fun r hr => h2 ⟨r, hr⟩
  rw [denotes_plain s h1' h2'] at hn hm
  rw [hn.2.2, hm.2.2]

theorem parsePositiveInt_fails (intSize : Nat) (s : String)
    (h : ∀ n, Atoi intSize s = some n → n ≤ 0) :
    parsePositiveInt intSize s = (0, some "not a valid positive integer") := by
  unfold parsePositiveInt
  cases ha : Atoi intSize s with
  | none => rfl
  | some n => simp only [h n ha, ↓reduceIte]

theorem mem_mapSet {ν : Type} (m : List (String × ν)) (k : String) (v : ν) (e : String × ν) :
    e ∈ mapSet m k v ↔ (e ∈ m ∧ e.1 ≠ k) ∨ e = (k, v) := by
  simp [mapSet, List.mem_filter]

theorem mem_of_lookup {ν : Type} (m : List (String × ν)) (k : String) (v : ν)
    (h : m.lookup k = some v) : (k, v) ∈ m := by
  induction m with
  | nil => simp at h
  | cons e m ih =>
    obtain ⟨ek, ev⟩ := e
    rw [List.lookup_cons] at h
    by_cases hk : k = ek
    · subst hk
      simp only [beq_self_eq_true, Option.some.injEq] at h
      subst h
      exact List.mem_cons_self _ _
    · have : (k == ek) = false := by simpa using hk
      simp only [this] at h
      exact List.mem_cons_of_mem _ (ih h)

theorem mapHas_mapSet_of_mapHas {ν : Type} (m : List (String × ν)) (k : String) (v : ν)
    (k' : String) (h : mapHas m k' = true) : mapHas (mapSet m k v) k' = true :=
  (mapHas_mapSet m k k' v).mpr (Or.inr h)

theorem addNeighbor_lookup (conns conns' : List (String × List String)) (a b : String)
    (h : addNeighbor conns a b = some conns') (k x : String) :
    x ∈ (conns'.lookup k).getD [] ↔ x ∈ (conns.lookup k).getD [] ∨ (k = a ∧ x = b) := by
  unfold addNeighbor at h
  cases hl : conns.lookup a with
  | none => simp [hl] at h
  | some inner =>
    simp only [hl, Option.some.injEq] at h
    subst h
    rw [lookup_mapSet]
    by_cases hk : k = a
    · subst hk
      simp only [↓reduceIte, Option.getD_some, hl, true_and]
      by_cases hb : b ∈ inner
      · simp only [hb, ↓reduceIte]
        constructor
        · exact Or.inl
        · rintro (h | rfl)
          · exact h
          · exact hb
      · simp only [hb, ↓reduceIte, List.mem_append, List.mem_singleton]
    · simp [hk]

theorem addNeighbor_closed (stations : List (String × Station))
    (conns conns' : List (String × List String)) (a b : String)
    (h : addNeighbor conns a b = some conns') (ha : mapHas stations a = true)
    (hb : mapHas stations b = true) (hwf : NoDangling stations conns) :
    NoDangling stations conns' := by
  unfold addNeighbor at h
  cases hl : conns.lookup a with
  | none => simp [hl] at h
  | some inner =>
    simp only [hl, Option.some.injEq] at h
    subst h
    intro e he
    rcases (mem_mapSet _ _ _ _).mp he with ⟨he, -⟩ | rfl
    · exact hwf e he
    · refine ⟨ha, fun x hx => ?_⟩
      have hin := (hwf _ (mem_of_lookup conns a inner hl)).2
      by_cases hb' : b ∈ inner
      · simp only [hb', ↓reduceIte] at hx
        exact hin x hx
      · simp only [hb', ↓reduceIte, List.mem_append, List.mem_singleton] at hx
        rcases hx with hx | rfl
        · exact hin x hx
        · exact hb

theorem stationLine_shape (intSize : Nat) (net net' : Network) (lineNum : Nat) (line : String)
    (h : stationLine intSize net lineNum line = .ok net') :
    ∃ name st, net'.Stations = mapSet net.Stations name st ∧
      net'.Connections = (if mapHas net.Connections name then net.Connections
        else mapSet net.Connections name []) := by
  unfold stationLine at h
  simp only at h
  split at h
  · cases h
  split at h
  · cases h
  split at h
  · cases h
  split at h
  · split at h
    · split at h
      · cases h
      · split at h
        · cases h
        · cases h
          exact ⟨_, _, rfl, rfl⟩
    · cases h
  · cases h
    exact ⟨_, _, rfl, rfl⟩

theorem connectionLine_shape (net net' : Network) (lineNum : Nat) (line : String)
    (h : connectionLine net lineNum line = some (.ok net')) :
    ∃ a b c1, a ≠ b ∧ mapHas net.Stations a = true ∧ mapHas net.Stations b = true ∧
      addNeighbor net.Connections a b = some c1 ∧
      addNeighbor c1 b a = some net'.Connections ∧ net'.Stations = net.Stations := by
  unfold connectionLine at h
  simp only at h
  split at h
  · cases h
  split at h
  · cases h
  next hab =>
  split at h
  · cases h
  next ha =>
  split at h
  · cases h
  next hb =>
  split at h
  · cases h
  split at h
  · cases h
  split at h
  · cases h
  next c1 h1 =>
  split at h
  · cases h
  next c2 h2 =>
  cases h
  refine ⟨_, _, c1, hab, ?_, ?_, h1, h2, rfl⟩
  · simpa using ha
  · simpa using hb

theorem connWF_empty : ConnWF Network.empty := by
  refine ⟨?_, ?_, ?_⟩
  · intro a b h
    simp [Adj, Network.neighbors, Network.empty] at h
  · intro a h
    simp [Adj, Network.neighbors, Network.empty] at h
  · intro e he
    simp [Network.empty] at he

theorem stationLine_connWF (intSize : Nat) (net net' : Network) (lineNum : Nat)
    (line : String) (h : stationLine intSize net lineNum line = .ok net')
    (hwf : ConnWF net) : ConnWF net' := by
  obtain ⟨name, st, hst, hconn⟩ := stationLine_shape intSize net net' lineNum line h
  have hnb : ∀ k, net'.neighbors k = net.neighbors k := by
    intro k
    unfold Network.neighbors
    rw [hconn]
    by_cases hhas : mapHas net.Connections name = true
    · rw [if_pos hhas]
    · rw [if_neg hhas, lookup_mapSet]
      by_cases hk : k = name
      · subst hk
        have : net.Connections.lookup k = none := by
          cases hl : net.Connections.lookup k with
          | none => rfl
          | some v => exact absurd (by simp [mapHas, hl]) hhas
        simp [this]
      · rw [if_neg hk]
  refine ⟨?_, ?_, ?_⟩
  · intro a b hab
    unfold Adj at hab ⊢
    rw [hnb] at hab ⊢
    exact hwf.symm a b hab
  · intro a haa
    unfold Adj at haa
    rw [hnb] at haa
    exact hwf.irrefl a haa
  · intro e he
    rw [hst]
    rw [hconn] at he
    have hold : ∀ e ∈ net.Connections, mapHas (mapSet net.Stations name st) e.1 = true ∧
        ∀ b ∈ e.2, mapHas (mapSet net.Stations name st) b = true := by
      intro e he
      obtain ⟨h1, h2⟩ := hwf.closed e he
      exact ⟨mapHas_mapSet_of_mapHas _ _ _ _ h1,
        fun b hb => mapHas_mapSet_of_mapHas _ _ _ _ (h2 b hb)⟩
    by_cases hhas : mapHas net.Connections name = true
    · rw [if_pos hhas] at he
      exact hold e he
    · rw [if_neg hhas] at he
      rcases (mem_mapSet _ _ _ _).mp he with ⟨he, -⟩ | rfl
      · exact hold e he
      · refine ⟨(mapHas_mapSet _ _ _ _).mpr (Or.inl rfl), ?_⟩
        intro b hb
        simp at hb

theorem connectionLine_connWF (net net' : Network) (lineNum : Nat) (line : String)
    (h : connectionLine net lineNum line = some (.ok net')) (hwf : ConnWF net) :
    ConnWF net' := by
  obtain ⟨a, b, c1, hab, ha, hb, h1, h2, hst⟩ := connectionLine_shape net net' lineNum line h
  have hnb : ∀ k x, x ∈ net'.neighbors k ↔
      x ∈ net.neighbors k ∨ (k = a ∧ x = b) ∨ (k = b ∧ x = a) := by
    intro k x
    unfold Network.neighbors
    rw [addNeighbor_lookup c1 _ b a h2 k x, addNeighbor_lookup _ c1 a b h1 k x, or_assoc]
  refine ⟨?_, ?_, ?_⟩
  · intro u v huv
    unfold Adj at huv ⊢
    rw [hnb] at huv ⊢
    rcases huv with h | ⟨rfl, rfl⟩ | ⟨rfl, rfl⟩
    · exact Or.inl (hwf.symm u v h)
    · exact Or.inr (Or.inr ⟨rfl, rfl⟩)
    · exact Or.inr (Or.inl ⟨rfl, rfl⟩)
  · intro u huu
    unfold Adj at huu
    rw [hnb] at huu
    rcases huu with h | ⟨rfl, h⟩ | ⟨rfl, h⟩
    · exact hwf.irrefl u h
    · exact hab h
    · exact hab h.symm
  · rw [hst]
    exact addNeighbor_closed _ c1 _ b a h2 hb ha
      (addNeighbor_closed _ _ c1 a b h1 ha hb hwf.closed)

theorem parseLines_connWF (intSize : Nat) :
    ∀ (lines : List String) (net : Network) (sect : String) (lineNum : Nat) (net' : Network),
      ConnWF net → parseLines intSize lines net sect lineNum = some (.ok net') →
      ConnWF net' := by
  intro lines
  induction lines with
  | nil =>
    intro net sect lineNum net' hwf h
    simp only [parseLines, Option.some.injEq, Except.ok.injEq] at h
    subst h
    exact hwf
  | cons raw rest ih =>
    intro net sect lineNum net' hwf h
    rw [parseLines] at h
    split at h
    · exact ih _ _ _ _ hwf h
    split at h
    · exact ih _ _ _ _ hwf h
    split at h
    · exact ih _ _ _ _ hwf h
    split at h
    · split at h
      · cases h
      next net1 h1 =>
        exact ih _ _ _ _ (stationLine_connWF intSize net net1 _ _ h1 hwf) h
    split at h
    · split at h
      · cases h
      · cases h
      next net1 h1 =>
        exact ih _ _ _ _ (connectionLine_connWF net net1 _ _ h1 hwf) h
    · cases h

theorem ParseNetwork_ok (intSize : Nat) (lines : List String) (scanErr : Option String)
    (net : Network) (h : ParseNetwork intSize lines scanErr = some (.ok net)) :
    parseLines intSize lines Network.empty "" 0 = some (.ok net) := by
  unfold ParseNetwork at h
  split at h
  · next net1 h1 =>
    split at h
    · cases h
    · rw [h1, h]
  · exact h

/-! ## Occupancy across turns, and networks read by `ParseNetwork` -/

/-- In every state that the loop reaches, `stationOccupied` holds exactly the stations
other than `end_` that were entered in the turn before. -/
theorem loopReach_occupied (end_ : String) (trains0 : List Train) (k : Nat)
    (trains : List Train) (occ : List (String × Nat)) (turns : List (List (Nat × String)))
    (h : LoopReach end_ trains0 k trains occ turns) (s : String) :
    mapHas occ s = true ↔ s ≠ end_ ∧ EnteredLast turns s := by
  induction h with
  | start =>
    simp [mapHas_nil, EnteredLast]
  | turn k trains1 trains' occ1 turns1 acc _ heval hprogress _ =>
    obtain ⟨steps, hrel⟩ := evalTrains_rel end_ occ1 trains1 0 TurnState.init trains' acc heval
    obtain ⟨hm, hp⟩ := evalRel_init_moves hrel
    have hne : steps ≠ [] := by
      intro h
      rw [hprogress, h] at hp
      simp at hp
    have hlen : 0 < acc.moveThisTurn.length := by
      rw [hm, List.length_map]
      exact List.length_pos.mpr hne
    rw [if_pos hlen, (evalTrains_occupancy end_ occ1 trains1 trains' acc heval).2 s]
    simp [EnteredLast]

theorem stationNameMatch_noColon (name : String) (h : stationNameMatch name = true) :
    NoColon name := by
  unfold stationNameMatch at h
  simp only [Bool.and_eq_true, List.all_eq_true] at h
  intro hmem
  have := h.2 _ hmem
  revert this
  decide

theorem stationLine_name (intSize : Nat) (net net' : Network) (lineNum : Nat) (line : String)
    (h : stationLine intSize net lineNum line = .ok net') :
    ∃ name st, stationNameMatch name = true ∧
      net'.Stations = mapSet net.Stations name st := by
  unfold stationLine at h
  simp only at h
  split at h
  · cases h
  split at h
  · cases h
  next hname =>
  have hname' : stationNameMatch (TrimSpace ((Split line ',').getD 0 "")) = true := by
    simpa using hname
  split at h
  · cases h
  split at h
  · split at h
    · split at h
      · cases h
      · split at h
        · cases h
        · cases h
          exact ⟨_, _, hname', rfl⟩
    · cases h
  · cases h
    exact ⟨_, _, hname', rfl⟩

theorem stationLine_namesOK (intSize : Nat) (net net' : Network) (lineNum : Nat)
    (line : String) (h : stationLine intSize net lineNum line = .ok net')
    (hok : NamesOK net.Stations) : NamesOK net'.Stations := by
  obtain ⟨name, st, hname, hst⟩ := stationLine_name intSize net net' lineNum line h
  intro e he
  rw [hst] at he
  rcases (mem_mapSet _ _ _ _).mp he with ⟨he, -⟩ | rfl
  · exact hok e he
  · exact hname

theorem parseLines_namesOK (intSize : Nat) :
    ∀ (lines : List String) (net : Network) (sect : String) (lineNum : Nat) (net' : Network),
      NamesOK net.Stations → parseLines intSize lines net sect lineNum = some (.ok net') →
      NamesOK net'.Stations := by
  intro lines
  induction lines with
  | nil =>
    intro net sect lineNum net' hok h
    simp only [parseLines, Option.some.injEq, Except.ok.injEq] at h
    subst h
    exact hok
  | cons raw rest ih =>
    intro net sect lineNum net' hok h
    rw [parseLines] at h
    split at h
    · exact ih _ _ _ _ hok h
    split at h
    · exact ih _ _ _ _ hok h
    split at h
    · exact ih _ _ _ _ hok h
    split at h
    · split at h
      · cases h
      next net1 h1 =>
        exact ih _ _ _ _ (stationLine_namesOK intSize net net1 _ _ h1 hok) h
    split at h
    · split at h
      · cases h
      · cases h
      next net1 h1 =>
        obtain ⟨_, _, _, _, _, _, _, _, hst⟩ := connectionLine_shape net net1 _ _ h1
        exact ih _ _ _ _ (by rw [hst]; exact hok) h
    · cases h

/-- Every station of a network that `ParseNetwork` returns has a name without colon. -/
theorem ParseNetwork_noColon (intSize : Nat) (lines : List String) (scanErr : Option String)
    (net : Network) (h : ParseNetwork intSize lines scanErr = some (.ok net)) (s : String)
    (hs : mapHas net.Stations s = true) : NoColon s := by
  have hok : NamesOK net.Stations :=
    parseLines_namesOK intSize lines Network.empty "" 0 net
      (by intro e he; simp [Network.empty] at he)
      (ParseNetwork_ok intSize lines scanErr net h)
  unfold mapHas at hs
  cases hl : net.Stations.lookup s with
  | none => simp [hl] at hs
  | some st => exact stationNameMatch_noColon s (hok _ (mem_of_lookup _ s st hl))

/-- Both ends of a connection of a network that `ParseNetwork` returns have names without
colon. -/
theorem ParseNetwork_adj_noColon (intSize : Nat) (lines : List String)
    (scanErr : Option String) (net : Network)
    (h : ParseNetwork intSize lines scanErr = some (.ok net)) (u v : String)
    (huv : Adj net u v) : NoColon u ∧ NoColon v := by
  have hwf := parseLines_connWF intSize lines Network.empty "" 0 net connWF_empty
    (ParseNetwork_ok intSize lines scanErr net h)
  unfold Adj Network.neighbors at huv
  cases hl : net.Connections.lookup u with
  | none => simp [hl] at huv
  | some l =>
    simp only [hl, Option.getD_some] at huv
    obtain ⟨h1, h2⟩ := hwf.closed _ (mem_of_lookup _ u l hl)
    exact ⟨ParseNetwork_noColon intSize lines scanErr net h u h1,
      ParseNetwork_noColon intSize lines scanErr net h v (h2 v huv)⟩

theorem chain_mem_related {α : Type} (R : α → α → Prop) :
    ∀ (p : List α), 2 ≤ p.length → List.Chain' R p →
      ∀ s ∈ p, ∃ u v, R u v ∧ (s = u ∨ s = v) := by
  intro p
  induction p with
  | nil => intro h; simp at h
  | cons a t ih =>
    intro hlen hch s hs
    cases t with
    | nil => simp at hlen
    | cons b rest =>
      have hab : R a b := (List.chain'_cons.mp hch).1
      rcases List.mem_cons.mp hs with rfl | hs
      · exact ⟨s, b, hab, Or.inl rfl⟩
      · cases rest with
        | nil =>
          simp only [List.mem_singleton] at hs
          subst hs
          exact ⟨a, s, hab, Or.inr rfl⟩
        | cons c rest' =>
          exact ih (by simp) (List.chain'_cons.mp hch).2 s hs

/-- On a network that `ParseNetwork` returns, no station of a route with at least one
track has a colon in its name. -/
theorem ParseNetwork_route_noColon (intSize : Nat) (lines : List String)
    (scanErr : Option String) (net : Network)
    (h : ParseNetwork intSize lines scanErr = some (.ok net)) (start end_ : String)
    (p : List String) (hp : IsRoute net start end_ p) (hlen : 2 ≤ p.length) :
    ∀ s ∈ p, NoColon s := by
  intro s hs
  obtain ⟨u, v, huv, hsv⟩ := chain_mem_related (Adj net) p hlen hp.2.2.2 s hs
  obtain ⟨h1, h2⟩ := ParseNetwork_adj_noColon intSize lines scanErr net h u v huv
  rcases hsv with rfl | rfl
  · exact h1
  · exact h2

/-- The loop never changes the route of a train. -/
theorem loopReach_paths (end_ : String) (trains0 : List Train) (k : Nat)
    (trains : List Train) (occ : List (String × Nat)) (turns : List (List (Nat × String)))
    (h : LoopReach end_ trains0 k trains occ turns) :
    trains.map Train.path = trains0.map Train.path := by
  induction h with
  | start => rfl
  | turn k trains1 trains' occ1 turns1 acc _ heval _ ih =>
    obtain ⟨steps, hrel⟩ := evalTrains_rel end_ occ1 trains1 0 TurnState.init trains' acc heval
    rw [evalRel_paths hrel, ih]

/-- A train that the loop holds has one of the routes, or the empty route when there is
no route at all. -/
theorem loopReach_path_mem (end_ : String) (paths : List (List String)) (numTrains k : Nat)
    (trains : List Train) (occ : List (String × Nat)) (turns : List (List (Nat × String)))
    (h : LoopReach end_ (assignTrains paths numTrains) k trains occ turns) (t : Train)
    (ht : t ∈ trains) : t.path = [] ∨ t.path ∈ paths := by
  have hmem : t.path ∈ trains.map Train.path := List.mem_map.mpr ⟨t, ht, rfl⟩
  rw [loopReach_paths end_ _ k trains occ turns h] at hmem
  obtain ⟨t0, ht0, hpath⟩ := List.mem_map.mp hmem
  unfold assignTrains at ht0
  obtain ⟨i, -, rfl⟩ := List.mem_map.mp ht0
  simp only at hpath
  rw [← hpath]
  by_cases hlt : i % paths.length < paths.length
  · right
    rw [List.getD_eq_getElem _ _ hlt]
    exact List.getElem_mem _
  · left
    rw [List.getD_eq_default _ _ (by omega)]

/-- On a network that `ParseNetwork` returns, when some train that the loop holds has a
next station, no station of any train has a colon in its name. -/
theorem loopReach_noColon (intSize : Nat) (lines : List String) (scanErr : Option String)
    (network : Network) (hparse : ParseNetwork intSize lines scanErr = some (.ok network))
    (start end_ : String) (numTrains : Nat) (routes : List (List String))
    (hroutes : findAllShortestPaths network start end_ = some routes)
    (k : Nat) (trains : List Train) (occ : List (String × Nat))
    (turns : List (List (Nat × String)))
    (hreach : LoopReach end_ (assignTrains routes numTrains) k trains occ turns)
    (ti : Train) (hti : ti ∈ trains) (nx : String) (hni : ti.path[ti.pos + 1]? = some nx) :
    ∀ t ∈ trains, ∀ s ∈ t.path, NoColon s := by
  have hspec := (findAllShortestPaths_spec network start end_ routes hroutes).2
  have hlen : 2 ≤ ti.path.length := by
    have := (List.getElem?_eq_some_iff.mp hni).1
    omega
  have hti' : IsShortestRoute network start end_ ti.path := by
    rcases loopReach_path_mem end_ routes numTrains k trains occ turns hreach ti hti with h | h
    · rw [h] at hlen
      simp at hlen
    · exact (hspec _).mp h
  intro t ht s hs
  rcases loopReach_path_mem end_ routes numTrains k trains occ turns hreach t ht with h | h
  · rw [h] at hs
    simp at hs
  · have ht' : IsShortestRoute network start end_ t.path := (hspec _).mp h
    have := shortest_length_eq network start end_ t.path ti.path ht' hti'
    exact ParseNetwork_route_noColon intSize lines scanErr network hparse start end_ t.path
      ht'.1 (by omega) s hs

/-! ## The claims -/

/-- C1: `findAllShortestPaths` returns exactly the simple paths from `start` to `end_`
whose edge count is the shortest distance `L`: it returns, each such path occurs in the
result exactly once, and every path of the result is such a path (so none has more than
`L` edges). -/
theorem findAllShortestPaths_exactly_shortest (network : Network)
    (hnet : network.DistinctNeighbors) (start end_ : String) (L : Nat)
    (hL : IsShortestDistance network start end_ L) :
    ∃ r, findAllShortestPaths network start end_ = some r ∧
      (∀ p, IsRoute network start end_ p → edgeCount p = L → r.count p = 1) ∧
      (∀ p ∈ r, IsRoute network start end_ p ∧ edgeCount p = L) := by
  obtain ⟨r, hr⟩ := findAllShortestPaths_returns network start end_
  obtain ⟨hnd, hmem⟩ := findAllShortestPaths_spec network start end_ r hr
  refine ⟨r, hr, ?_, ?_⟩
  · intro p hp hpL
    have : p ∈ r :=
      (hmem p).mpr ((shortestRoute_iff_edgeCount network start end_ L hL p).mpr ⟨hp, hpL⟩)
    exact count_eq_one_of_nodup r p (hnd hnet) this
  · intro p hp
    exact (shortestRoute_iff_edgeCount network start end_ L hL p).mp ((hmem p).mp hp)

/-- C1 at the diamond, from `a` to `c`, where the shortest distance is 2. -/
theorem findAllShortestPaths_exactly_shortest_witness :
    diamond.DistinctNeighbors ∧ IsShortestDistance diamond "a" "c" 2 ∧
      ∃ r, findAllShortestPaths diamond "a" "c" = some r ∧
        (∀ p, IsRoute diamond "a" "c" p → edgeCount p = 2 → r.count p = 1) ∧
        (∀ p ∈ r, IsRoute diamond "a" "c" p ∧ edgeCount p = 2) :=
  ⟨by decide, diamond_shortest_distance,
    findAllShortestPaths_exactly_shortest diamond (by decide) "a" "c" 2 diamond_shortest_distance⟩

/-- C2: `FindTrainMovements` returns; its result is the error "no path between the start
and end stations" with no turn records exactly when no path connects `start` to `end_`,
which is exactly when `findAllShortestPaths` returns the empty list; and when a path
exists the error is `nil`. -/
theorem FindTrainMovements_error_iff_no_path (network : Network) (start end_ : String)
    (numTrains : Nat) :
    ∃ paths res, findAllShortestPaths network start end_ = some paths ∧
      FindTrainMovements network start end_ numTrains = some res ∧
      (res = ([], some "no path between the start and end stations")
        ↔ ¬ ∃ w, IsWalk network start end_ w) ∧
      (paths = [] ↔ ¬ ∃ w, IsWalk network start end_ w) ∧
      ((∃ w, IsWalk network start end_ w) → res.2 = none) := by
  obtain ⟨paths, hpaths⟩ := findAllShortestPaths_returns network start end_
  have hnil := findAllShortestPaths_eq_nil_iff network start end_ paths hpaths
  rw [exists_route_iff_exists_walk] at hnil
  rcases FindTrainMovements_eq network start end_ numTrains paths hpaths with
    ⟨hp, hres⟩ | ⟨hp, turns, -, hres⟩
  · refine ⟨paths, _, hpaths, hres, ?_, hnil, ?_⟩
    · constructor
      · intro _
        exact hnil.mp hp
      · intro _
        rfl
    · intro hw
      exact absurd hw (hnil.mp hp)
  · refine ⟨paths, _, hpaths, hres, ?_, hnil, ?_⟩
    · constructor
      · intro h
        simp at h
      · intro hno
        exact absurd (hnil.mpr hno) hp
    · intro _
      rfl

/-- C3, as the claim states it, fails: on the line `a-b, b-c` with two trains the result
is not the three records "T1-b", "T1-c T2-b", "T2-c". -/
theorem line3_two_trains_counterexample :
    FindTrainMovements line3 "a" "c" 2 ≠ some (["T1-b", "T1-c T2-b", "T2-c"], none) := by
  decide

/-- C3, amended: on the line `a-b, b-c` with two trains `FindTrainMovements` returns
exactly four turn records, "T1-b", "T1-c", "T2-b", "T2-c", whichever way the neighbours
of `b` are iterated: station `b`, entered by train 1 in turn 1, still counts as occupied
during turn 2. -/
theorem line3_two_trains :
    FindTrainMovements (line3With ["a", "c"]) "a" "c" 2
        = some (["T1-b", "T1-c", "T2-b", "T2-c"], none) ∧
      FindTrainMovements (line3With ["c", "a"]) "a" "c" 2
        = some (["T1-b", "T1-c", "T2-b", "T2-c"], none) := by
  constructor <;> decide

/-- C4, the behaviour of the code on the failing input: on the merging network
`a-b, a-c, b-d, c-d, d-e` with four trains, train 2 stands on `c` before and after
turn 3, in which it makes no move, and train 4 moves onto `c` in turn 3; at the end of
turn 3 the station `c`, which is neither `a` nor `e`, holds trains 2 and 4. -/
theorem merge5_four_trains :
    findAllShortestPaths merge5 "a" "e" = some [["a", "b", "d", "e"], ["a", "c", "d", "e"]] ∧
      simulate [["a", "b", "d", "e"], ["a", "c", "d", "e"]] "e" 4 = some merge5Turns ∧
      FindTrainMovements merge5 "a" "e" 4
        = some (["T1-b T2-c", "T1-d", "T1-e T3-b T4-c", "T2-d", "T2-e", "T3-d", "T3-e",
            "T4-d", "T4-e"], none) ∧
      trainAt "a" (merge5Turns.take 2) 2 = "c" ∧
      merge5Turns[2]? = some [(1, "e"), (3, "b"), (4, "c")] ∧
      trainAt "a" (merge5Turns.take 3) 2 = "c" ∧
      trainAt "a" (merge5Turns.take 3) 4 = "c" := by
  refine ⟨?_, ?_, ?_, ?_, ?_, ?_, ?_⟩ <;> decide

/-- C5: when `start` and `end_` are connected, in every turn of the schedule that
`FindTrainMovements` returns no two different trains run over the same unordered pair of
stations, in the same or in opposite directions.  The track of a move runs from the
station on which the earlier records left the train to the destination of the move. -/
theorem FindTrainMovements_track_exclusive (network : Network) (start end_ : String)
    (numTrains : Nat) (hconn : ∃ w, IsWalk network start end_ w) :
    ∃ routes turns, findAllShortestPaths network start end_ = some routes ∧
      simulate routes end_ numTrains = some turns ∧
      FindTrainMovements network start end_ numTrains = some (turns.map renderTurn, none) ∧
      ∀ pre rec post, turns = pre ++ rec :: post →
        ∀ m1 ∈ rec, ∀ m2 ∈ rec, m1.1 ≠ m2.1 →
          ¬ SameTrack (trainAt start pre m1.1) m1.2 (trainAt start pre m2.1) m2.2 := by
  obtain ⟨routes, turns, hroutes, hne, hsim, hres⟩ :=
    FindTrainMovements_connected network start end_ numTrains hconn
  obtain ⟨trainsF, occF, hinv, -, -⟩ :=
    simulate_run network start end_ routes numTrains turns hroutes hne hsim
  exact ⟨routes, turns, hroutes, hsim, hres, hinv.exclusive⟩

/-- C5 at the diamond with two trains. -/
theorem FindTrainMovements_track_exclusive_witness :
    (∃ w, IsWalk diamond "a" "c" w) ∧
      ∃ routes turns, findAllShortestPaths diamond "a" "c" = some routes ∧
        simulate routes "c" 2 = some turns ∧
        FindTrainMovements diamond "a" "c" 2 = some (turns.map renderTurn, none) ∧
        ∀ pre rec post, turns = pre ++ rec :: post →
          ∀ m1 ∈ rec, ∀ m2 ∈ rec, m1.1 ≠ m2.1 →
            ¬ SameTrack (trainAt "a" pre m1.1) m1.2 (trainAt "a" pre m2.1) m2.2 :=
  ⟨diamond_connected, FindTrainMovements_track_exclusive diamond "a" "c" 2 diamond_connected⟩

/-- C6: when distinct `start` and `end_` are connected, the destinations of the moves of
every train `i` in `1..numTrains`, read off the turn records in order, are exactly the
stations of `routes[(i-1) mod |routes|]` after its first one, in route order; the train
moves onto `end_` exactly once, and it moves at most once in a turn. -/
theorem FindTrainMovements_follows_route (network : Network) (start end_ : String)
    (numTrains : Nat) (hne : start ≠ end_) (hconn : ∃ w, IsWalk network start end_ w) :
    ∃ routes turns, findAllShortestPaths network start end_ = some routes ∧
      simulate routes end_ numTrains = some turns ∧
      FindTrainMovements network start end_ numTrains = some (turns.map renderTurn, none) ∧
      ∀ i, 1 ≤ i → i ≤ numTrains →
        trainDests turns i = (routes.getD ((i - 1) % routes.length) []).tail ∧
        (trainDests turns i).count end_ = 1 ∧
        ∀ rec ∈ turns, (rec.filter (fun m => decide (m.1 = i))).length ≤ 1 := by
  obtain ⟨routes, turns, hroutes, hnil, hsim, hres⟩ :=
    FindTrainMovements_connected network start end_ numTrains hconn
  refine ⟨routes, turns, hroutes, hsim, hres, ?_⟩
  intro i h1 h2
  have hd := simulate_trainDests network start end_ routes numTrains turns hroutes hnil hsim i h1 h2
  refine ⟨hd, ?_, ?_⟩
  · rw [hd]
    have hlen : 0 < routes.length := List.length_pos.mpr hnil
    have hlt : (i - 1) % routes.length < routes.length := Nat.mod_lt _ hlen
    have hmem : routes.getD ((i - 1) % routes.length) [] ∈ routes := by
      rw [List.getD_eq_getElem _ _ hlt]
      exact List.getElem_mem _
    obtain ⟨-, hspec⟩ := findAllShortestPaths_spec network start end_ routes hroutes
    exact route_tail_count_end network start end_ _ ((hspec _).mp hmem).1 hne
  · intro rec hrec
    exact filter_train_length_le_one rec i
      (simulate_goodRecord routes end_ numTrains turns hsim rec hrec).2.1

/-- C6 at the diamond with two trains. -/
theorem FindTrainMovements_follows_route_witness :
    "a" ≠ "c" ∧ (∃ w, IsWalk diamond "a" "c" w) ∧
      ∃ routes turns, findAllShortestPaths diamond "a" "c" = some routes ∧
        simulate routes "c" 2 = some turns ∧
        FindTrainMovements diamond "a" "c" 2 = some (turns.map renderTurn, none) ∧
        ∀ i, 1 ≤ i → i ≤ 2 →
          trainDests turns i = (routes.getD ((i - 1) % routes.length) []).tail ∧
          (trainDests turns i).count "c" = 1 ∧
          ∀ rec ∈ turns, (rec.filter (fun m => decide (m.1 = i))).length ≤ 1 :=
  ⟨by decide, diamond_connected,
    FindTrainMovements_follows_route diamond "a" "c" 2 (by decide) diamond_connected⟩

/-- C7, as the claim states it, fails: when the neighbours of `a` are iterated `d` first,
the enumeration yields `[a,d,c]` before `[a,b,c]` and the first record is "T1-d T2-b". -/
theorem diamond_two_trains_counterexample :
    ¬ (findAllShortestPaths diamondRev "a" "c" = some [["a", "b", "c"], ["a", "d", "c"]] ∧
      FindTrainMovements diamondRev "a" "c" 2 = some (["T1-b T2-d", "T1-c T2-c"], none)) := by
  decide

/-- C7, amended: on the diamond `a-b, b-c, a-d, d-c`, whichever way the neighbours of
`b`, `c` and `d` are iterated, the enumeration from `a` to `c` yields the two routes
`[a,b,c]` and `[a,d,c]` in the order in which the neighbours of `a` are iterated, and
with two trains `FindTrainMovements` returns two records: "T1-b T2-d", "T1-c T2-c" when
`b` comes first, and "T1-d T2-b", "T1-c T2-c" when `d` comes first. -/
theorem diamond_two_trains (nb nc nd : List String)
    (hb : nb = ["a", "c"] ∨ nb = ["c", "a"]) (hc : nc = ["b", "d"] ∨ nc = ["d", "b"])
    (hd : nd = ["a", "c"] ∨ nd = ["c", "a"]) :
    (findAllShortestPaths (diamondWith ["b", "d"] nb nc nd) "a" "c"
        = some [["a", "b", "c"], ["a", "d", "c"]] ∧
      FindTrainMovements (diamondWith ["b", "d"] nb nc nd) "a" "c" 2
        = some (["T1-b T2-d", "T1-c T2-c"], none)) ∧
    (findAllShortestPaths (diamondWith ["d", "b"] nb nc nd) "a" "c"
        = some [["a", "d", "c"], ["a", "b", "c"]] ∧
      FindTrainMovements (diamondWith ["d", "b"] nb nc nd) "a" "c" 2
        = some (["T1-d T2-b", "T1-c T2-c"], none)) := by
  rcases hb with rfl | rfl <;> rcases hc with rfl | rfl <;> rcases hd with rfl | rfl <;> decide

/-- C7, amended, at the insertion order of the neighbours of `b`, `c` and `d`. -/
theorem diamond_two_trains_witness :
    (findAllShortestPaths (diamondWith ["b", "d"] ["a", "c"] ["b", "d"] ["a", "c"]) "a" "c"
        = some [["a", "b", "c"], ["a", "d", "c"]] ∧
      FindTrainMovements (diamondWith ["b", "d"] ["a", "c"] ["b", "d"] ["a", "c"]) "a" "c" 2
        = some (["T1-b T2-d", "T1-c T2-c"], none)) ∧
    (findAllShortestPaths (diamondWith ["d", "b"] ["a", "c"] ["b", "d"] ["a", "c"]) "a" "c"
        = some [["a", "d", "c"], ["a", "b", "c"]] ∧
      FindTrainMovements (diamondWith ["d", "b"] ["a", "c"] ["b", "d"] ["a", "c"]) "a" "c" 2
        = some (["T1-d T2-b", "T1-c T2-c"], none)) :=
  diamond_two_trains ["a", "c"] ["b", "d"] ["a", "c"] (Or.inl rfl) (Or.inl rfl) (Or.inl rfl)

/-- C8, as the claim states it, fails: the two diamonds are the same graph and differ
only in the order in which the neighbours of `a` are iterated, and `FindTrainMovements`
returns different records on them. -/
theorem FindTrainMovements_order_counterexample :
    SameGraph diamond diamondRev ∧
      FindTrainMovements diamond "a" "c" 2 ≠ FindTrainMovements diamondRev "a" "c" 2 :=
  ⟨diamond_sameGraph, by decide⟩

/-- C8, amended: two runs of `FindTrainMovements` on the same graph in which the
neighbours of every station are iterated in the same order return the identical result;
when the iteration orders differ, the two runs still enumerate the same routes, each
once, but possibly in a different order. -/
theorem FindTrainMovements_deterministic (n1 n2 : Network) (start end_ : String)
    (numTrains : Nat) :
    (SameIteration n1 n2 →
      FindTrainMovements n1 start end_ numTrains = FindTrainMovements n2 start end_ numTrains) ∧
    (SameGraph n1 n2 → n1.DistinctNeighbors → n2.DistinctNeighbors →
      ∃ r1 r2, findAllShortestPaths n1 start end_ = some r1 ∧
        findAllShortestPaths n2 start end_ = some r2 ∧ r1.Perm r2) := by
  constructor
  · intro h
    unfold FindTrainMovements
    rw [findAllShortestPaths_congr n1 n2 h]
  · intro h hd1 hd2
    obtain ⟨r1, h1⟩ := findAllShortestPaths_returns n1 start end_
    obtain ⟨r2, h2⟩ := findAllShortestPaths_returns n2 start end_
    obtain ⟨hn1, hm1⟩ := findAllShortestPaths_spec n1 start end_ r1 h1
    obtain ⟨hn2, hm2⟩ := findAllShortestPaths_spec n2 start end_ r2 h2
    refine ⟨r1, r2, h1, h2, ?_⟩
    rw [List.perm_ext_iff_of_nodup (hn1 hd1) (hn2 hd2)]
    intro p
    rw [hm1, hm2]
    exact ⟨isShortestRoute_sameGraph n1 n2 h start end_ p,
      isShortestRoute_sameGraph n2 n1 (sameGraph_symm h) start end_ p⟩

/-- C9: when `start` and `end_` are connected, in every turn of the schedule that
`FindTrainMovements` returns no station other than `end_` is the destination of the
moves of two different trains. -/
theorem FindTrainMovements_station_exclusive (network : Network) (start end_ : String)
    (numTrains : Nat) (hconn : ∃ w, IsWalk network start end_ w) :
    ∃ routes turns, findAllShortestPaths network start end_ = some routes ∧
      simulate routes end_ numTrains = some turns ∧
      FindTrainMovements network start end_ numTrains = some (turns.map renderTurn, none) ∧
      ∀ rec ∈ turns, ∀ m1 ∈ rec, ∀ m2 ∈ rec, m1.1 ≠ m2.1 → m1.2 ≠ end_ → m1.2 ≠ m2.2 := by
  obtain ⟨routes, turns, hroutes, -, hsim, hres⟩ :=
    FindTrainMovements_connected network start end_ numTrains hconn
  refine ⟨routes, turns, hroutes, hsim, hres, ?_⟩
  intro rec hrec m1 hm1 m2 hm2 hne hend heq
  exact hne ((simulate_goodRecord routes end_ numTrains turns hsim rec hrec).2.2.2
    m1 hm1 m2 hm2 heq hend)

/-- C9 at the diamond with two trains. -/
theorem FindTrainMovements_station_exclusive_witness :
    (∃ w, IsWalk diamond "a" "c" w) ∧
      ∃ routes turns, findAllShortestPaths diamond "a" "c" = some routes ∧
        simulate routes "c" 2 = some turns ∧
        FindTrainMovements diamond "a" "c" 2 = some (turns.map renderTurn, none) ∧
        ∀ rec ∈ turns, ∀ m1 ∈ rec, ∀ m2 ∈ rec, m1.1 ≠ m2.1 → m1.2 ≠ "c" → m1.2 ≠ m2.2 :=
  ⟨diamond_connected, FindTrainMovements_station_exclusive diamond "a" "c" 2 diamond_connected⟩

/-- C11: on a network that `ParseNetwork` returns, in every turn that the simulation in
`FindTrainMovements` plays (from any state that its loop reaches over the routes of
`findAllShortestPaths`), let trains `i < j` have the same candidate next station `nx`,
train `i` not being arrived.  If `nx` is not `end_`, or both stand on the same station,
then train `j` keeps its position and the record of the turn holds no move of
train `j`. -/
theorem FindTrainMovements_lowest_index_wins (intSize : Nat) (lines : List String)
    (scanErr : Option String) (network : Network)
    (hparse : ParseNetwork intSize lines scanErr = some (.ok network))
    (start end_ : String) (numTrains : Nat) (routes : List (List String))
    (hroutes : findAllShortestPaths network start end_ = some routes)
    (k : Nat) (trains : List Train) (occ : List (String × Nat))
    (turns : List (List (Nat × String)))
    (hreach : LoopReach end_ (assignTrains routes numTrains) k trains occ turns)
    (trains' : List Train) (acc : TurnState)
    (h : evalTrains end_ occ 0 trains TurnState.init = some (trains', acc))
    (i j : Nat) (hij : i < j) (ti tj : Train)
    (hi : trains[i]? = some ti) (hj : trains[j]? = some tj) (hai : ti.arrived = false)
    (ci cj nx : String)
    (hci : ti.path[ti.pos]? = some ci) (hcj : tj.path[tj.pos]? = some cj)
    (hni : ti.path[ti.pos + 1]? = some nx) (hnj : tj.path[tj.pos + 1]? = some nx)
    (hcase : nx ≠ end_ ∨ ci = cj) :
    (∃ tj', trains'[j]? = some tj' ∧ tj'.pos = tj.pos) ∧
      ∀ m ∈ acc.moveThisTurn, m.1 ≠ j + 1 := by
  obtain ⟨steps, hrel⟩ := evalTrains_rel end_ occ trains 0 TurnState.init trains' acc h
  have hnames := loopReach_noColon intSize lines scanErr network hparse start end_ numTrains
    routes hroutes k trains occ turns hreach ti (List.getElem?_mem hi) nx hni
  have hmode : ci = cj ∨ (nx ≠ end_ ∧ KeyInv end_ TurnState.init ∧
      ∀ t ∈ trains, ∀ s ∈ t.path, NoColon s) := by
    rcases hcase with h1 | h1
    · exact Or.inr ⟨h1, keyInv_init end_, hnames⟩
    · exact Or.inl h1
  obtain ⟨h1, h2⟩ := evalRel_priority hrel i j ti tj ci cj nx hij hi hj hai hci hcj hni hnj hmode
  refine ⟨h1, fun m hm => ?_⟩
  rw [(evalRel_init_moves hrel).1] at hm
  obtain ⟨s, hs, rfl⟩ := List.mem_map.mp hm
  have := h2 s hs
  simp only [Step.move, ne_eq, Nat.add_right_cancel_iff]
  omega

/-- C11 on the merging network read from `merge5Lines`, with two trains, in the second
turn: train 1 stands on `b`, train 2 on `c`, both want `d`; train 1 moves, train 2
stays. -/
theorem FindTrainMovements_lowest_index_wins_witness :
    ParseNetwork 64 merge5Lines none = some (.ok merge5) ∧
      findAllShortestPaths merge5 "a" "e" = some [["a", "b", "d", "e"], ["a", "c", "d", "e"]] ∧
      evalTrains "e" [("b", 0), ("c", 1)] 0
          [⟨["a", "b", "d", "e"], 1, false⟩, ⟨["a", "c", "d", "e"], 1, false⟩] TurnState.init =
        some ([⟨["a", "b", "d", "e"], 2, false⟩, ⟨["a", "c", "d", "e"], 1, false⟩],
          ⟨[(1, "d")], [("b:d", true)], [("d", 0)], true⟩) ∧
      (∃ tj', ([⟨["a", "b", "d", "e"], 2, false⟩, ⟨["a", "c", "d", "e"], 1, false⟩] :
          List Train)[1]? = some tj' ∧ tj'.pos = 1) ∧
      ∀ m ∈ [((1 : Nat), "d")], m.1 ≠ 1 + 1 :=
  ⟨rfl, by decide, rfl,
    FindTrainMovements_lowest_index_wins 64 merge5Lines none merge5 rfl "a" "e" 2
      [["a", "b", "d", "e"], ["a", "c", "d", "e"]] (by decide) 1
      [⟨["a", "b", "d", "e"], 1, false⟩, ⟨["a", "c", "d", "e"], 1, false⟩]
      [("b", 0), ("c", 1)] [[(1, "b"), (2, "c")]]
      (LoopReach.turn 0 _ _ [] []
        ⟨[(1, "b"), (2, "c")], [("a:b", true), ("a:c", true)], [("b", 0), ("c", 1)], true⟩
        LoopReach.start rfl rfl)
      [⟨["a", "b", "d", "e"], 2, false⟩, ⟨["a", "c", "d", "e"], 1, false⟩]
      ⟨[(1, "d")], [("b:d", true)], [("d", 0)], true⟩ rfl
      0 1 (by decide) ⟨["a", "b", "d", "e"], 1, false⟩ ⟨["a", "c", "d", "e"], 1, false⟩
      rfl rfl rfl "b" "c" "d" rfl rfl rfl rfl (Or.inl (by decide))⟩

/-- C12: in a graph whose neighbour maps hold each station once, when `end_` is a
neighbour of `start` and differs from it, `findAllShortestPaths` returns exactly the one
route `[start, end_]`. -/
theorem findAllShortestPaths_directly_connected (network : Network)
    (hnet : network.DistinctNeighbors) (start end_ : String) (hne : start ≠ end_)
    (hadj : Adj network start end_) :
    findAllShortestPaths network start end_ = some [[start, end_]] :=
  findAllShortestPaths_direct network hnet start end_ hne hadj

/-- C12 at the diamond, from `a` to its neighbour `b`. -/
theorem findAllShortestPaths_directly_connected_witness :
    diamond.DistinctNeighbors ∧ "a" ≠ "b" ∧ Adj diamond "a" "b" ∧
      findAllShortestPaths diamond "a" "b" = some [["a", "b"]] :=
  ⟨by decide, by decide, by decide,
    findAllShortestPaths_directly_connected diamond (by decide) "a" "b" (by decide) (by decide)⟩

/-- C13: when `ParseNetwork` succeeds on a sequence of input lines, the `Connections` it
returns are symmetric (`b` is in `Connections[a]` iff `a` is in `Connections[b]`) and
irreflexive (`a` is never in `Connections[a]`), and every key of `Connections` and every
neighbour listed under a key is a key of `Stations`. -/
theorem ParseNetwork_connections_valid (intSize : Nat) (lines : List String)
    (scanErr : Option String) (net : Network)
    (h : ParseNetwork intSize lines scanErr = some (.ok net)) :
    (∀ a b, b ∈ net.neighbors a ↔ a ∈ net.neighbors b) ∧ (∀ a, a ∉ net.neighbors a) ∧
      ∀ e ∈ net.Connections, net.HasStation e.1 = true ∧
        ∀ b ∈ e.2, net.HasStation b = true := by
  have hwf := parseLines_connWF intSize lines Network.empty "" 0 net connWF_empty
    (ParseNetwork_ok intSize lines scanErr net h)
  exact ⟨fun a b => ⟨hwf.symm a b, hwf.symm b a⟩, hwf.irrefl, hwf.closed⟩

theorem ParseNetwork_connections_valid_witness :
    ParseNetwork 64 sampleLines none = some (.ok sampleNetwork) ∧
      (∀ a b, b ∈ sampleNetwork.neighbors a ↔ a ∈ sampleNetwork.neighbors b) ∧
      (∀ a, a ∉ sampleNetwork.neighbors a) ∧
      ∀ e ∈ sampleNetwork.Connections, sampleNetwork.HasStation e.1 = true ∧
        ∀ b ∈ e.2, sampleNetwork.HasStation b = true :=
  ⟨rfl, ParseNetwork_connections_valid 64 sampleLines none sampleNetwork rfl⟩

/-- C14 (as amended): `parsePositiveInt` succeeds with value `n` exactly when `s` is a
base-10 integer literal denoting `n` with `n ≥ 1` and `n` at most the largest `int`,
`2 ^ (intSize - 1) - 1`; it returns its error for every literal denoting zero or a
negative integer and for every string that is not an integer literal. -/
theorem parsePositiveInt_iff (intSize : Nat) (s : String) :
    (∀ n : Int, parsePositiveInt intSize s = (n, none) ↔
        Denotes s n ∧ 1 ≤ n ∧ n < 2 ^ (intSize - 1)) ∧
      (∀ n : Int, Denotes s n → n ≤ 0 →
        parsePositiveInt intSize s = (0, some "not a valid positive integer")) ∧
      ((¬ ∃ n : Int, Denotes s n) →
        parsePositiveInt intSize s = (0, some "not a valid positive integer")) := by
  have hcast : (((2 ^ (intSize - 1) : Nat) : Int)) = 2 ^ (intSize - 1) := by push_cast; rfl
  refine ⟨fun n => ?_, fun n hn hle => ?_, fun hno => ?_⟩
  · rw [← hcast]
    constructor
    · intro h
      unfold parsePositiveInt at h
      cases ha : Atoi intSize s with
      | none =>
        rw [ha] at h
        simp at h
      | some m =>
        rw [ha] at h
        simp only at h
        by_cases hm : m ≤ 0
        · rw [if_pos hm] at h
          simp at h
        · rw [if_neg hm] at h
          simp only [Prod.mk.injEq, and_true] at h
          subst h
          obtain ⟨hd, -, hlt⟩ := (Atoi_iff intSize s m).mp ha
          exact ⟨hd, by omega, hlt⟩
    · rintro ⟨hd, h1, hlt⟩
      have ha : Atoi intSize s = some n := (Atoi_iff intSize s n).mpr ⟨hd, by omega, hlt⟩
      unfold parsePositiveInt
      rw [ha]
      simp only
      rw [if_neg (by omega)]
  · apply parsePositiveInt_fails
    intro m hm
    have := denotes_unique s n m hn ((Atoi_iff intSize s m).mp hm).1
    omega
  · apply parsePositiveInt_fails
    intro m hm
    exact absurd ⟨m, ((Atoi_iff intSize s m).mp hm).1⟩ hno

/-- C14 as stated fails on a literal beyond the range of `int`: with 64-bit `int`, the
string `9223372036854775808` denotes `2 ^ 63 ≥ 1`, and `parsePositiveInt` returns its
error. -/
theorem parsePositiveInt_range_counterexample :
    Denotes "9223372036854775808" 9223372036854775808 ∧ (1 : Int) ≤ 9223372036854775808 ∧
      parsePositiveInt 64 "9223372036854775808" = (0, some "not a valid positive integer") ∧
      ¬ (parsePositiveInt 64 "9223372036854775808" = (9223372036854775808, none) ↔
        Denotes "9223372036854775808" 9223372036854775808 ∧ (1 : Int) ≤ 9223372036854775808) := by
  have hd : Denotes "9223372036854775808" 9223372036854775808 :=
    ⟨"9223372036854775808".data, by decide, by decide, Or.inl ⟨Or.inl rfl, by decide⟩⟩
  have hp : parsePositiveInt 64 "9223372036854775808" =
      (0, some "not a valid positive integer") := by decide
  refine ⟨hd, by decide, hp, fun h => ?_⟩
  have := h.mpr ⟨hd, by decide⟩
  rw [hp] at this
  simp at this

/-- C15: `findAllShortestPaths` returns, and every route it returns starts at `start`,
ends at `end_`, has pairwise distinct stations and consecutive stations connected in
`Connections`; all returned routes have the same number of stations. -/
theorem findAllShortestPaths_wellformed (network : Network) (start end_ : String) :
    ∃ r, findAllShortestPaths network start end_ = some r ∧
      (∀ p ∈ r, p.head? = some start ∧ p.getLast? = some end_ ∧ p.Nodup ∧
        List.Chain' (fun u v => v ∈ network.neighbors u) p) ∧
      ∀ p ∈ r, ∀ q ∈ r, p.length = q.length := by
  obtain ⟨r, hr⟩ := findAllShortestPaths_returns network start end_
  obtain ⟨-, hmem⟩ := findAllShortestPaths_spec network start end_ r hr
  refine ⟨r, hr, ?_, ?_⟩
  · intro p hp
    exact ((hmem p).mp hp).1
  · intro p hp q hq
    exact shortest_length_eq network start end_ p q ((hmem p).mp hp) ((hmem q).mp hq)

/-- C16: over the routes that `findAllShortestPaths` returns between connected stations
the simulation never deadlocks.  Every turn that the loop evaluates while some train is
off `end_` makes a move; the loop halts, in a state reached after as many turns as there
are records, in which every train stands on `end_`; there are at most `numTrains * L`
records, `L` the edge count of a shortest route; and the records leave every train
`1..numTrains` on `end_`. -/
theorem FindTrainMovements_no_deadlock (network : Network) (start end_ : String)
    (numTrains L : Nat) (hL : IsShortestDistance network start end_ L) :
    ∃ routes turns, findAllShortestPaths network start end_ = some routes ∧
      simulate routes end_ numTrains = some turns ∧
      FindTrainMovements network start end_ numTrains = some (turns.map renderTurn, none) ∧
      (∀ k trains occ ts, LoopReach end_ (assignTrains routes numTrains) k trains occ ts →
        (∃ t ∈ trains, t.path[t.pos]? ≠ some end_) →
        ∃ trains' acc, evalTrains end_ occ 0 trains TurnState.init = some (trains', acc) ∧
          acc.moveThisTurn ≠ [] ∧ acc.progress = true) ∧
      (∃ trainsF occF,
        LoopReach end_ (assignTrains routes numTrains) turns.length trainsF occF turns ∧
        (∀ t ∈ trainsF, t.path[t.pos]? = some end_) ∧
        ∃ trains' acc, evalTrains end_ occF 0 trainsF TurnState.init = some (trains', acc) ∧
          acc.progress = false) ∧
      turns.length ≤ numTrains * L ∧
      ∀ i, 1 ≤ i → i ≤ numTrains → trainAt start turns i = end_ := by
  have hconn : ∃ w, IsWalk network start end_ w := by
    obtain ⟨⟨q, hq, -⟩, -⟩ := hL
    exact ⟨q, isRoute_isWalk hq⟩
  obtain ⟨routes, turns, hroutes, hne, hsim, hres⟩ :=
    FindTrainMovements_connected network start end_ numTrains hconn
  obtain ⟨-, hspec⟩ := findAllShortestPaths_spec network start end_ routes hroutes
  have hedge : ∀ p ∈ routes, edgeCount p = L := fun p hp =>
    ((shortestRoute_iff_edgeCount network start end_ L hL p).mp ((hspec p).mp hp)).2
  refine ⟨routes, turns, hroutes, hsim, hres, ?_, ?_, ?_, ?_⟩
  · intro k trains occ ts hreach hoff
    exact runInv_progress network start end_ trains occ ts
      (loopReach_runInv network start end_ routes numTrains hroutes hne k trains occ ts hreach)
      hoff
  · have hsim' := hsim
    unfold simulate at hsim'
    obtain ⟨kF, trainsF, occF, trains', acc, hreach, hev, hp⟩ :=
      simLoop_reach end_ (assignTrains routes numTrains) _ 0 _ _ _ turns LoopReach.start hsim'
    have hk := loopReach_length end_ _ kF trainsF occF turns hreach
    rw [← hk] at hreach
    refine ⟨trainsF, occF, hreach, ?_, trains', acc, hev, hp⟩
    have inv := loopReach_runInv network start end_ routes numTrains hroutes hne _ trainsF occF
      turns hreach
    by_contra hoff
    push_neg at hoff
    obtain ⟨trains2, acc2, hev2, -, hp2⟩ :=
      runInv_progress network start end_ trainsF occF turns inv hoff
    rw [hev] at hev2
    simp only [Option.some.injEq, Prod.mk.injEq] at hev2
    rw [hev2.2, hp2] at hp
    exact absurd hp (by simp)
  · have := simulate_length_le routes end_ numTrains turns hsim
    rw [remaining_assignTrains routes numTrains L hne hedge] at this
    exact this
  · intro i h1 h2
    have hd := simulate_trainDests network start end_ routes numTrains turns hroutes hne hsim
      i h1 h2
    have hlen : 0 < routes.length := List.length_pos.mpr hne
    have hlt : (i - 1) % routes.length < routes.length := Nat.mod_lt _ hlen
    have hmem : routes.getD ((i - 1) % routes.length) [] ∈ routes := by
      rw [List.getD_eq_getElem _ _ hlt]
      exact List.getElem_mem _
    exact trainAt_of_dests_tail network start end_ _ ((hspec _).mp hmem).1 turns i hd

/-- C16 at the diamond with two trains, where the shortest distance is 2. -/
theorem FindTrainMovements_no_deadlock_witness :
    IsShortestDistance diamond "a" "c" 2 ∧
    ∃ routes turns, findAllShortestPaths diamond "a" "c" = some routes ∧
      simulate routes "c" 2 = some turns ∧
      FindTrainMovements diamond "a" "c" 2 = some (turns.map renderTurn, none) ∧
      (∀ k trains occ ts, LoopReach "c" (assignTrains routes 2) k trains occ ts →
        (∃ t ∈ trains, t.path[t.pos]? ≠ some "c") →
        ∃ trains' acc, evalTrains "c" occ 0 trains TurnState.init = some (trains', acc) ∧
          acc.moveThisTurn ≠ [] ∧ acc.progress = true) ∧
      (∃ trainsF occF,
        LoopReach "c" (assignTrains routes 2) turns.length trainsF occF turns ∧
        (∀ t ∈ trainsF, t.path[t.pos]? = some "c") ∧
        ∃ trains' acc, evalTrains "c" occF 0 trainsF TurnState.init = some (trains', acc) ∧
          acc.progress = false) ∧
      turns.length ≤ 2 * 2 ∧
      ∀ i, 1 ≤ i → i ≤ 2 → trainAt "a" turns i = "c" :=
  ⟨diamond_shortest_distance,
    FindTrainMovements_no_deadlock diamond "a" "c" 2 2 diamond_shortest_distance⟩

/-- C17: the simulation returns for every non-empty list of non-empty routes, and in the
records it returns no station other than `end_` is a move destination in two consecutive
records.  The records are those of the loop run to its first turn without progress, and
in every state that the loop reaches the map `stationOccupied` holds exactly the stations
other than `end_` entered in the turn before.  So in the turn played from that state a
train whose next station was entered in the turn before stays, whatever has moved
earlier in the turn (also the occupant), and a train whose next station was not entered
in the turn before, such as a station whose occupant stayed put, moves onto it unless
the station or the track has been taken earlier in the same turn. -/
theorem simulate_occupancy_one_turn (paths : List (List String)) (end_ : String)
    (numTrains : Nat) :
    (paths ≠ [] → (∀ p ∈ paths, p ≠ []) →
      ∃ turns, simulate paths end_ numTrains = some turns) ∧
    (∀ turns, simulate paths end_ numTrains = some turns →
      turns.Chain' (fun r r' => ∀ m ∈ r, ∀ m' ∈ r', m.2 ≠ end_ → m'.2 ≠ m.2) ∧
      ∃ trainsF occF trains' acc,
        LoopReach end_ (assignTrains paths numTrains) turns.length trainsF occF turns ∧
        evalTrains end_ occF 0 trainsF TurnState.init = some (trains', acc) ∧
        acc.progress = false) ∧
    (∀ k trains occ turns,
      LoopReach end_ (assignTrains paths numTrains) k trains occ turns →
      (∀ s, mapHas occ s = true ↔ s ≠ end_ ∧ EnteredLast turns s) ∧
      ∀ (i : Nat) (t : Train) (acc : TurnState) (cur nx : String),
        t.arrived = false → t.path[t.pos]? = some cur → t.path[t.pos + 1]? = some nx →
        nx ≠ end_ →
        (EnteredLast turns nx → stepTrain end_ occ i t acc = some (t, acc)) ∧
        (¬ EnteredLast turns nx → mapHas acc.stationNextOccupied nx = false →
          mapGetBool acc.trackUsed (cur ++ ":" ++ nx) = false →
          stepTrain end_ occ i t acc
            = some ({ t with pos := t.pos + 1 }, acc.move end_ i cur nx))) := by
  refine ⟨fun hne hpaths => simulate_returns paths end_ numTrains hne hpaths,
    fun turns h => ⟨simulate_noReentry paths end_ numTrains turns h, ?_⟩,
    fun k trains occ turns hreach => ⟨loopReach_occupied end_ _ k trains occ turns hreach, ?_⟩⟩
  · unfold simulate at h
    obtain ⟨kF, trainsF, occF, trains', acc, hreach, hev, hp⟩ :=
      simLoop_reach end_ (assignTrains paths numTrains) _ 0 _ [] [] turns LoopReach.start h
    have hk := loopReach_length end_ _ kF trainsF occF turns hreach
    rw [hk]
    exact ⟨trainsF, occF, trains', acc, hreach, hev, hp⟩
  · intro i t acc cur nx harr hc hn hne
    have hpos : t.pos + 1 ≠ t.path.length := by
      have := (List.getElem?_eq_some_iff.mp hn).1
      omega
    have hocc := loopReach_occupied end_ _ k trains occ turns hreach nx
    constructor
    · intro hent
      exact stepTrain_blocked end_ occ i t acc cur nx harr hpos hn hc
        (Or.inl ⟨hne, Or.inl (hocc.mpr ⟨hne, hent⟩)⟩)
    · intro hent hclaim htrack
      have hfree : mapHas occ nx = false := by
        cases hh : mapHas occ nx with
        | false => rfl
        | true => exact absurd (hocc.mp hh).2 hent
      exact stepTrain_move end_ occ i t acc cur nx harr hpos hn hc
        (fun _ => ⟨hfree, hclaim⟩) htrack

/-- C18: on a network that `ParseNetwork` returns, when `findAllShortestPaths` returns
exactly one route, with `L ≥ 2` edges, `FindTrainMovements` returns exactly
`L + 2 * (n - 1)` turn records for `n ≥ 1` trains. -/
theorem FindTrainMovements_single_route (intSize : Nat) (lines : List String)
    (scanErr : Option String) (network : Network)
    (hparse : ParseNetwork intSize lines scanErr = some (.ok network))
    (start end_ : String) (p : List String) (L n : Nat)
    (hroutes : findAllShortestPaths network start end_ = some [p])
    (hL : edgeCount p = L) (h2 : 2 ≤ L) (hn : 1 ≤ n) :
    ∃ records, FindTrainMovements network start end_ n = some (records, none) ∧
      records.length = L + 2 * (n - 1) := by
  have hp : IsShortestRoute network start end_ p :=
    ((findAllShortestPaths_spec network start end_ [p] hroutes).2 p).mp
      (List.mem_singleton.mpr rfl)
  have hlen : 2 ≤ p.length := by
    unfold edgeCount at hL
    omega
  have hnames := ParseNetwork_route_noColon intSize lines scanErr network hparse start end_ p
    hp.1 hlen
  have hr := lineRoute_of_single network start end_ p L hroutes hL h2 hnames
  rcases FindTrainMovements_eq network start end_ n [p] hroutes with
    ⟨hp, -⟩ | ⟨-, turns, hsim, hres⟩
  · exact absurd hp (by simp)
  · refine ⟨turns.map renderTurn, hres, ?_⟩
    rw [List.length_map]
    exact simulate_line_length p end_ L n hr hn turns hsim

/-- C18 on the network read from `sampleLines`, from `a` to `c` with two trains: the one
route has two edges, and there are four records. -/
theorem FindTrainMovements_single_route_witness :
    ParseNetwork 64 sampleLines none = some (.ok sampleNetwork) ∧
      findAllShortestPaths sampleNetwork "a" "c" = some [["a", "b", "c"]] ∧
      ∃ records, FindTrainMovements sampleNetwork "a" "c" 2 = some (records, none) ∧
        records.length = 2 + 2 * (2 - 1) :=
  ⟨rfl, by decide,
    FindTrainMovements_single_route 64 sampleLines none sampleNetwork rfl "a" "c"
      ["a", "b", "c"] 2 2 (by decide) (by decide) (by decide) (by decide)⟩

/-- C19: in a graph whose neighbour maps hold each station once, when `end_` is a
neighbour of `start` and differs from it, `FindTrainMovements` returns exactly
`numTrains` turn records, and the `t`-th record, for `t` in `1..numTrains`, is exactly
"T<t>-<end>". -/
theorem FindTrainMovements_directly_connected (network : Network)
    (hnet : network.DistinctNeighbors) (start end_ : String) (hne : start ≠ end_)
    (hadj : Adj network start end_) (numTrains : Nat) :
    ∃ records, FindTrainMovements network start end_ numTrains = some (records, none) ∧
      records.length = numTrains ∧
      ∀ t, 1 ≤ t → t ≤ numTrains →
        records[t - 1]? = some ("T" ++ toString t ++ "-" ++ end_) := by
  refine ⟨_, FindTrainMovements_direct network hnet start end_ hne hadj numTrains, by simp, ?_⟩
  intro t h1 h2
  rw [List.getElem?_map, List.getElem?_range (by omega)]
  have : t - 1 + 1 = t := by omega
  simp [this]

/-- C19 at the diamond, from `a` to its neighbour `b`, with three trains. -/
theorem FindTrainMovements_directly_connected_witness :
    diamond.DistinctNeighbors ∧ "a" ≠ "b" ∧ Adj diamond "a" "b" ∧
      ∃ records, FindTrainMovements diamond "a" "b" 3 = some (records, none) ∧
        records.length = 3 ∧
        ∀ t, 1 ≤ t → t ≤ 3 → records[t - 1]? = some ("T" ++ toString t ++ "-" ++ "b") :=
  ⟨by decide, by decide, by decide,
    FindTrainMovements_directly_connected diamond (by decide) "a" "b" (by decide) (by decide) 3⟩

end Trains
